import Mathlib

/-!
Verification of distributed-map-reduce: the dictionary, the phases of the
master and the stages of a worker

A shallow embedding of `src/src/utils.c` (the growable dictionary and the
directory iterator), of `src/src/master.c` (the map, reduce and store phases
of the master) and of `src/src/worker.c` (the map, reduce and store stages of
a worker), followed by the properties proved about them.

Conventions of the embedding

* A C string is a `String` (without the terminating NUL, and without any NUL
  inside); a `char *` that may be `NULL` is an `Option String`.
* An `int` is an integer in the range `INT_MIN .. INT_MAX` of a 32-bit
  `int`; `to_int` is the value an arithmetic result has once it is stored in
  one (two's complement, modulo `2 ^ 32`), so `++counts[i]` turns `INT_MAX`
  into `INT_MIN`, as the machine does.
* An array together with its length field is a list: `elements` with
  `elements_length`, and `values` / `counts` with `values_length`.  The lists
  hold the slots `0 .. length - 1`; spare capacity behind them is not visible
  to any reader of the structure and is not represented.
* `realloc` and `calloc` may fail.  A call receives an `Allocator` that tells,
  for the n-th allocation request made during the call, whether it succeeds.
* A `char` is an integer in the range of the platform's `char`; `to_char`
  is the conversion done when an `int` is stored into one.  Statements about
  bounds hold for signed and for unsigned `char`.
* `MPI_Send` appends to the list of messages sent.  `MPI_Recv` with
  `MPI_ANY_SOURCE` takes any of the messages in flight; which one is decided
  by a schedule the statements quantify over.  A receive that no message can
  match never returns.
* A file is the list of its bytes, one `Char` per byte, NUL bytes included; a
  file that does not open is `none`.  What is read into a buffer is used as a
  C string, which ends at the first NUL.  A read that overruns its buffer, or a
  write before its buffer, has no defined result in C: the function that does
  it returns `none`.
* Where the C standard leaves the result open and the C library decides, the
  model follows the GNU C library on a platform with a 64-bit `long`: `%s`
  prints `(null)` for `NULL`, and `%d` of `sscanf` converts with `strtol` and
  stores the result in the `int`.
-/

namespace MapReduce

/-! ## Data model (`src/inc/utils.h`) -/

/-- One `Pair` of utils.h: `key`, the parallel arrays `values` and `counts`;
`values_length` is the length of the lists. -/
structure Pair where
  key : Option String
  values : List (Option String)
  counts : List Int
  deriving DecidableEq, Repr

/-- The `Dictionary` of utils.h: the array `elements`; `elements_length` is the
length of the list. -/
abbrev Dictionary := List Pair

/-- The field `values_length` of a pair. -/
def Pair.values_length (p : Pair) : Nat := p.values.length

/-- The field `elements_length` of a dictionary. -/
def elements_length (dic : Dictionary) : Nat := dic.length

/-- Outcome of the allocation requests made during one call: `ok n` tells
whether the n-th request (counted from 0, in program order) succeeds, and
`junk` is the content found in memory that `realloc` hands out without
initialising it. -/
structure Allocator where
  ok : Nat → Bool
  junk : Int

/-- The allocator for which no request fails. -/
def Allocator.reliable : Allocator := ⟨fun _ => true, 0⟩

/-- The test `0 == strcmp(s, p)`.  For `p = NULL` the C call has no defined
result; the model answers `false`, and every statement below that runs a
lookup is made for dictionaries without `NULL` pointers. -/
def strcmp_eq (s : String) (p : Option String) : Bool := p == some s

/-- `INT_MAX` of a 32-bit `int`. -/
def INT_MAX : Int := 2147483647

/-- `INT_MIN` of a 32-bit `int`. -/
def INT_MIN : Int := -2147483648

/-- The value of an `int` that is assigned the arithmetic result `x`: the
representative of `x` modulo `2 ^ 32` in `INT_MIN .. INT_MAX`, which is `x`
itself when `x` is in that range (`to_int_eq` gives it in one formula,
`(x + 2 ^ 31) % 2 ^ 32 - 2 ^ 31`).  For `x = n` the residue `n % 2 ^ 32` is
taken as it is below `2 ^ 31` and less `2 ^ 32` from there on; for
`x = -(n + 1)` the same is done with `-(n % 2 ^ 32 + 1)`. -/
def to_int : Int → Int
  | Int.ofNat n =>
      if n % 4294967296 < 2147483648 then Int.ofNat (n % 4294967296)
      else Int.negSucc (4294967295 - n % 4294967296)
  | Int.negSucc n =>
      if n % 4294967296 < 2147483648 then Int.negSucc (n % 4294967296)
      else Int.ofNat (4294967295 - n % 4294967296)

/-! ## The two insert operations (`src/src/utils.c`) -/

/-- The key search loop `for (i = 0; i < elements_length; ++i) if (0 == strcmp(key, elements[i].key)) key_index = i;`
started at index `i` with the current `key_index`; `none` is the sentinel `-1`.
The loop has no `break`: the last matching index wins. -/
def find_key_index (key : String) : List Pair → Nat → Option Nat → Option Nat
  | [], _, key_index => key_index
  | p :: rest, i, key_index =>
      find_key_index key rest (i + 1) (if strcmp_eq key p.key then some i else key_index)

/-- The value loop of `insert_word_into_dictionary`:
`if (0 == strcmp(values[i], word)) { word_found = 1; ++counts[i]; error_code = 0; }`
for every slot.  Returns `word_found` and the updated `counts`; the increment
is that of an `int`. -/
def bump_matching_counts (word : String) : List (Option String) → List Int → Bool × List Int
  | v :: vs, c :: cs =>
      let r := bump_matching_counts word vs cs
      if strcmp_eq word v then (true, to_int (c + 1) :: r.2) else (r.1, c :: r.2)
  | _, cs => (false, cs)

/-- The value loop of `insert_file_into_dictionary`:
`if (0 == strcmp(values[i], file_name)) { file_name_found = 1; error_code = 0; }`.
Returns `file_name_found`; nothing is written. -/
def value_found (file_name : String) : List (Option String) → Bool
  | [] => false
  | v :: vs =>
      let r := value_found file_name vs
      if strcmp_eq file_name v then true else r

/-- The branch `-1 == key_index` shared by both insert functions: grow
`elements` (request 0), `++elements_length`, allocate `key`, `values`, `counts`
(requests 1, 2, 3), then the string of the first value (request 4), which gets
the count `count`.  The length is incremented before the inner requests are
checked. -/
def insert_new_entry (al : Allocator) (dic : Dictionary) (key value : String) (count : Int) :
    Int × Dictionary :=
  if al.ok 0 then
    if al.ok 1 && al.ok 2 && al.ok 3 then
      if al.ok 4 then
        (0, dic ++ [{ key := some key, values := [some value], counts := [count] }])
      else
        -- values_length = 1, values[0] == NULL, counts[0] still zero from calloc
        (-1, dic ++ [{ key := some key, values := [none], counts := [0] }])
    else
      -- values_length = 0; key is NULL or the empty string calloc returned
      (-1, dic ++ [{ key := if al.ok 1 then some "" else none, values := [], counts := [] }])
  else
    (-1, dic)

/-- The branch "value not found" shared by both insert functions: grow `values`
(request 0) and `counts` (request 1), `values_length++`, allocate the string
(request 2) and store it with `count`.  `rc_done` is the value of `error_code`
when the branch completes: it is `0` only where the source assigns it. -/
def append_value (al : Allocator) (p : Pair) (value : String) (count : Int) (rc_done : Int) :
    Int × Pair :=
  if al.ok 0 then
    if al.ok 1 then
      if al.ok 2 then
        (rc_done, { p with values := p.values ++ [some value], counts := p.counts ++ [count] })
      else
        -- values_length already incremented: NULL string, uninitialised count
        (-1, { p with values := p.values ++ [none], counts := p.counts ++ [al.junk] })
    else
      (-1, p)
  else
    (-1, p)

/-- `insert_word_into_dictionary(dic, file_name, word)` of utils.c.  Returns
`error_code` and the dictionary after the call.  In the branch that appends a
new word to an existing key the source never assigns `error_code`, so `-1` is
returned there. -/
def insert_word_into_dictionary (al : Allocator) (dic : Dictionary) (file_name word : String) :
    Int × Dictionary :=
  match find_key_index file_name dic 0 none with
  | none => insert_new_entry al dic file_name word 1
  | some key_index =>
      match dic[key_index]? with
      | none => (-1, dic) -- not reached: key_index is an index of the array
      | some p =>
          let r := bump_matching_counts word p.values p.counts
          if r.1 then
            (0, dic.set key_index { p with counts := r.2 })
          else
            let a := append_value al p word 1 (-1)
            (a.1, dic.set key_index a.2)

/-- `insert_file_into_dictionary(dic, word, file_name, count)` of utils.c.
Returns `error_code` and the dictionary after the call. -/
def insert_file_into_dictionary (al : Allocator) (dic : Dictionary) (word file_name : String)
    (count : Int) : Int × Dictionary :=
  match find_key_index word dic 0 none with
  | none => insert_new_entry al dic word file_name count
  | some key_index =>
      match dic[key_index]? with
      | none => (-1, dic) -- not reached: key_index is an index of the array
      | some p =>
          if value_found file_name p.values then
            (0, dic)
          else
            let a := append_value al p file_name count 0
            (a.1, dic.set key_index a.2)

/-- The dictionary left by a run of `insert_word_into_dictionary` calls, one per
`(file_name, word)` of `seq`, in order; return codes are ignored, as
`worker_parse_file` does. -/
def insert_words (al : Allocator) (dic : Dictionary) (seq : List (String × String)) : Dictionary :=
  seq.foldl (fun d kv => (insert_word_into_dictionary al d kv.1 kv.2).2) dic

/-! ## Directory iteration (`src/src/utils.c`) and messages -/

/-- The tag `TAG_WORK` of utils.h. -/
def TAG_WORK : Nat := 0

/-- The tag `TAG_SLEEP` of utils.h. -/
def TAG_SLEEP : Nat := 1

/-- The payload `INVALID_FILE` of utils.h. -/
def INVALID_FILE : String := "$\x7bNOTAFILE\x7d"

/-- The buffer size `MAX_PATH` of utils.h. -/
def MAX_PATH : Nat := 257

/-- The value `DT_REG` of dirent.h. -/
def DT_REG : Nat := 8

/-- A directory entry (`struct dirent`, called `File` in utils.h): the two
fields the program reads. -/
structure File where
  d_name : String
  d_type : Nat
  deriving DecidableEq, Repr

/-- `get_next_file_from_dir(input_dir)`: the directory stream is the list of
entries `readdir` has not returned yet.  Returns the next entry whose type is
`DT_REG` (`none` at the end of the stream, which is also what a failing
`readdir` gives) and the stream left behind. -/
def get_next_file_from_dir : List File → Option File × List File
  | [] => (none, [])
  | file_found :: rest =>
      if DT_REG = file_found.d_type then (some file_found, rest)
      else get_next_file_from_dir rest

/-- A message of the map phase, as handed to `MPI_Send`: buffer, destination
rank and tag. -/
structure Message where
  payload : String
  dest : Nat
  tag : Nat
  deriving DecidableEq, Repr

/-- The `snprintf(input_file_path, MAX_PATH, ...)` of master.c: the directory
path, a `/` unless the path already ends in one, and the entry name, cut to
what fits the buffer (for a non-empty directory path). -/
def input_file_path (input_dir_path d_name : String) : String :=
  (if input_dir_path.back ≠ '/' then input_dir_path ++ "/" ++ d_name
   else input_dir_path ++ d_name).take (MAX_PATH - 1)

/-- The text the format of that `snprintf` describes, before it is cut to the
buffer: the directory path, a `/` unless the path already ends in one, and the
entry name. -/
def path_of_entry (input_dir_path d_name : String) : String :=
  if input_dir_path.back ≠ '/' then input_dir_path ++ "/" ++ d_name
  else input_dir_path ++ d_name

/-- A directory path of 255 characters. -/
def long_dir_path : String := String.mk (List.replicate 255 'd')

/-! ## The map phase of the master (`src/src/master.c`) -/

/-- State of `master_map_phase` together with the part of the workers it
talks to.  `dir` is the directory stream, `files_count` the pending counter,
`sent` every message sent so far (oldest first), `received` the completion
notices received so far as (source, payload).  `in_flight` holds the notices a
worker sends and the master has not received yet: `worker_map_phase` answers
each `TAG_WORK` message with exactly one notice that echoes the path, and
sends nothing after `TAG_SLEEP`. -/
structure MapState where
  dir : List File
  files_count : Int
  sent : List Message
  in_flight : List (Nat × String)
  received : List (Nat × String)
  deriving DecidableEq, Repr

/-- How a run of `master_map_phase` ends: it returns, or it stays in an
`MPI_Recv` that no worker is going to match.  `out_of_steps` only bounds the
recursion of the model. -/
inductive MapOutcome where
  | returned (st : MapState)
  | blocked (st : MapState)
  | out_of_steps (st : MapState)
  deriving DecidableEq, Repr

/-- The first loop of `master_map_phase`, iterations `i, i + 1, ...` with
`n` iterations to go: worker `i + 1` gets the next regular file as
`TAG_WORK` (and `files_count` is incremented), or `INVALID_FILE` as
`TAG_SLEEP` when the stream is exhausted. -/
def map_first_round (input_dir_path : String) : Nat → Nat → MapState → MapState
  | 0, _, st => st
  | n + 1, i, st =>
      match get_next_file_from_dir st.dir with
      | (none, dir) =>
          map_first_round input_dir_path n (i + 1)
            { st with dir := dir, sent := st.sent ++ [⟨INVALID_FILE, i + 1, TAG_SLEEP⟩] }
      | (some input_file, dir) =>
          let path := input_file_path input_dir_path input_file.d_name
          map_first_round input_dir_path n (i + 1)
            { st with
              dir := dir
              sent := st.sent ++ [⟨path, i + 1, TAG_WORK⟩]
              in_flight := st.in_flight ++ [(i + 1, path)]
              files_count := st.files_count + 1 }

/-- One pass through the body of the `do ... while` loop.  `MPI_Recv` with
`MPI_ANY_SOURCE` takes one of the notices in flight, the one `choice` selects
(any of them may arrive first); with none in flight the call never returns
(`none`).  Then `--files_count`, the next file is fetched and the sender gets
it as `TAG_WORK`, or gets `TAG_SLEEP` when there is none. -/
def map_reply (input_dir_path : String) (choice : Nat) (st : MapState) : Option MapState :=
  match st.in_flight[choice % st.in_flight.length]? with
  | none => none
  | some notice =>
      let files_count := st.files_count - 1
      let in_flight := st.in_flight.eraseIdx (choice % st.in_flight.length)
      let received := st.received ++ [notice]
      match get_next_file_from_dir st.dir with
      | (none, dir) =>
          some { dir := dir, files_count := files_count,
                 sent := st.sent ++ [⟨INVALID_FILE, notice.1, TAG_SLEEP⟩],
                 in_flight := in_flight, received := received }
      | (some input_file, dir) =>
          if DT_REG = input_file.d_type then
            let path := input_file_path input_dir_path input_file.d_name
            some { dir := dir, files_count := files_count + 1,
                   sent := st.sent ++ [⟨path, notice.1, TAG_WORK⟩],
                   in_flight := in_flight ++ [(notice.1, path)], received := received }
          else
            some { dir := dir, files_count := files_count, sent := st.sent,
                   in_flight := in_flight, received := received }

/-- The loop `do { ... } while (0 < files_count);`: the body runs before the
condition is tested for the first time.  `schedule t` selects the notice that
arrives at the `t`-th receive. -/
def map_reply_loop (input_dir_path : String) (schedule : Nat → Nat) :
    Nat → MapState → MapOutcome
  | 0, st => MapOutcome.out_of_steps st
  | steps + 1, st =>
      match map_reply input_dir_path (schedule st.received.length) st with
      | none => MapOutcome.blocked st
      | some st1 =>
          if 0 < st1.files_count then map_reply_loop input_dir_path schedule steps st1
          else MapOutcome.returned st1

/-- `master_map_phase(input_dir_path, number_of_workers)`.  `input_directory`
is what `opendir` gives: `none` when the directory cannot be opened, else its
entries in enumeration order.  The bound on the steps of the loop is never
reached: every pass consumes a notice, and there is one notice per file. -/
def master_map_phase (schedule : Nat → Nat) (input_directory : Option (List File))
    (input_dir_path : String) (number_of_workers : Nat) : MapOutcome :=
  match input_directory with
  | none => MapOutcome.returned ⟨[], 0, [], [], []⟩
  | some entries =>
      map_reply_loop input_dir_path schedule (entries.length + 1)
        (map_first_round input_dir_path number_of_workers 0 ⟨entries, 0, [], [], []⟩)

/-! ## The reduce phase of the master (`src/src/master.c`) -/

/-- `ENGLISH_ALPHABET_SIZE`, that is `'z' - 'a' + 1`. -/
def ENGLISH_ALPHABET_SIZE : Nat := 'z'.toNat - 'a'.toNat + 1

/-- Storing an `int` into a `char`: the value modulo 256, read as a signed
byte where `char` is signed and as an unsigned byte where it is not. -/
def to_char (char_signed : Bool) (x : Int) : Int :=
  if char_signed then (x + 128) % 256 - 128 else x % 256

/-- The variable `bounds_step` once the correction `++bounds_step` is done
(for `number_of_workers ≥ 1`; the C division by 0 has no result). -/
def bounds_step (number_of_workers : Nat) : Nat :=
  if 0 ≠ ENGLISH_ALPHABET_SIZE % number_of_workers then
    ENGLISH_ALPHABET_SIZE / number_of_workers + 1
  else ENGLISH_ALPHABET_SIZE / number_of_workers

/-- A message of the reduce phase: the two `char`s of `bounds_for_reduce`,
destination rank and tag. -/
structure BoundsMessage where
  lo : Int
  hi : Int
  dest : Nat
  tag : Nat
  deriving DecidableEq, Repr

/-- The sending loop of `master_reduce_phase`, iterations `i, i + 1, ...` with
`n` iterations to go and `bounds` the current content of `bounds_for_reduce`:
`bounds[0] = bounds[1] + 1; bounds[1] = bounds[0] + bounds_step - 1;` and the
pair goes to worker `i + 1`. -/
def reduce_send_loop (char_signed : Bool) (step : Nat) :
    Nat → Nat → Int × Int → List BoundsMessage
  | 0, _, _ => []
  | n + 1, i, bounds =>
      let b0 := to_char char_signed (bounds.2 + 1)
      let b1 := to_char char_signed (b0 + step - 1)
      ⟨b0, b1, i + 1, TAG_WORK⟩ :: reduce_send_loop char_signed step n (i + 1) (b0, b1)

/-- The messages `master_reduce_phase(number_of_workers)` sends, in order;
`bounds_for_reduce` starts as `{'a' - 1, 'a' - 1}`. -/
def master_reduce_phase (char_signed : Bool) (number_of_workers : Nat) : List BoundsMessage :=
  reduce_send_loop char_signed (bounds_step number_of_workers) number_of_workers 0
    (('a'.toNat : Int) - 1, ('a'.toNat : Int) - 1)

/-! ## Predicates on dictionaries -/

/-- No `NULL` pointer is stored and the two parallel arrays of every pair have
the same length: the shape of every dictionary a reader may traverse. -/
def well_formed (dic : Dictionary) : Prop :=
  ∀ p ∈ dic, p.key ≠ none ∧ none ∉ p.values ∧ p.counts.length = p.values.length

/-- No two entries have the same key. -/
def unique_keys (dic : Dictionary) : Prop := (dic.map Pair.key).Nodup

/-- No entry holds the same value twice. -/
def unique_values (dic : Dictionary) : Prop := ∀ p ∈ dic, p.values.Nodup

/-- The invariant of the data model: unique keys, unique values per entry, at
least one pair per entry, every count at least 1. -/
def dictionary_invariant (dic : Dictionary) : Prop :=
  unique_keys dic ∧ unique_values dic ∧ (∀ p ∈ dic, p.values ≠ []) ∧
    ∀ p ∈ dic, ∀ c ∈ p.counts, 1 ≤ c

instance (dic : Dictionary) : Decidable (well_formed dic) := by
  unfold well_formed; infer_instance

instance (dic : Dictionary) : Decidable (unique_keys dic) := by
  unfold unique_keys; infer_instance

instance (dic : Dictionary) : Decidable (unique_values dic) := by
  unfold unique_values; infer_instance

instance (dic : Dictionary) : Decidable (dictionary_invariant dic) := by
  unfold dictionary_invariant; infer_instance

/-- The distinct elements of a list in the order of their first occurrence. -/
def first_seen {α : Type} [DecidableEq α] : List α → List α
  | [] => []
  | x :: xs => x :: (first_seen xs).filter (fun y => y ≠ x)

/-- The pair selected by `insert_word_into_dictionary` after a call in which no
allocation fails: the matching counts incremented, or `(word, 1)` appended. -/
def word_into_pair (p : Pair) (word : String) : Pair :=
  let r := bump_matching_counts word p.values p.counts
  if r.1 then { p with counts := r.2 }
  else { p with values := p.values ++ [some word], counts := p.counts ++ [1] }

/-- The pair selected by `insert_file_into_dictionary` after a call in which no
allocation fails: untouched when the file name is there, else
`(file_name, count)` appended. -/
def file_into_pair (p : Pair) (file_name : String) (count : Int) : Pair :=
  if value_found file_name p.values then p
  else { p with values := p.values ++ [some file_name], counts := p.counts ++ [count] }

/-- The count written next to the first slot of `p` that holds `value`. -/
def Pair.count_of (p : Pair) (value : String) : Option Int :=
  ((p.values.zip p.counts).find? (fun vc => vc.1 == some value)).map Prod.snd

/-- The count stored for `(key, value)`: the count written next to `value` in
the entry of `key`, or `none` when the pair is not in the dictionary. -/
def stored_count (dic : Dictionary) (key value : String) : Option Int :=
  (dic.find? (fun p => p.key == some key)).bind (fun p => p.count_of value)

/-- What the data model asks of a single entry: non-`NULL` strings, arrays of
equal length, distinct values, at least one pair, counts at least 1. -/
def Pair.good (p : Pair) : Prop :=
  (p.key ≠ none ∧ none ∉ p.values ∧ p.counts.length = p.values.length) ∧
    p.values.Nodup ∧ p.values ≠ [] ∧ ∀ c ∈ p.counts, 1 ≤ c

/-- The part of the data model that does not speak of the counts: non-`NULL`
strings, arrays of equal length, distinct values, at least one pair. -/
def Pair.sound (p : Pair) : Prop :=
  (p.key ≠ none ∧ none ∉ p.values ∧ p.counts.length = p.values.length) ∧
    p.values.Nodup ∧ p.values ≠ []

/-- The regular files of a directory listing, in enumeration order. -/
def regular_files (entries : List File) : List File :=
  entries.filter (fun f => DT_REG = f.d_type)

/-- The state in which a run of `master_map_phase` ends. -/
def MapOutcome.state : MapOutcome → MapState
  | MapOutcome.returned st => st
  | MapOutcome.blocked st => st
  | MapOutcome.out_of_steps st => st

/-- The paths carried by the `TAG_WORK` messages of a trace, in sending order. -/
def work_paths (sent : List Message) : List String :=
  (sent.filter (fun m => m.tag = TAG_WORK)).map Message.payload

/-! ## The store phase of the master (`src/src/master.c`) -/

/-- The `snprintf(output_file_path, MAX_PATH, ...)` of worker.c: the output
directory, a `/` unless the path already ends in one, and the file name, cut
to what fits the buffer (for a non-empty directory path). -/
def output_file_path (output_dir_path output_file_name : String) : String :=
  (if output_dir_path.back ≠ '/' then output_dir_path ++ "/" ++ output_file_name
   else output_dir_path ++ output_file_name).take (MAX_PATH - 1)

/-- The payload of the `TAG_SLEEP` message that ends the store phase. -/
def DISMISSAL : String := "You did well. It\x27s time to go home."

/-- What `master_store_result_phase` does, in program order: a message handed
to `MPI_Send`, or a message taken by `MPI_Recv` (source and payload). -/
inductive StoreEvent where
  | send (m : Message)
  | recv (source : Nat) (payload : String)
  deriving DecidableEq, Repr

/-- State of `master_store_result_phase` together with the workers it talks
to: the events so far and the acknowledgments in flight.
`worker_store_result_phase` answers the `TAG_WORK` message with exactly one
acknowledgment, the path it wrote to, sent once the result file is closed. -/
structure StoreState where
  trace : List StoreEvent
  in_flight : List (Nat × String)
  deriving DecidableEq, Repr

/-- How a run of `master_store_result_phase` ends. -/
inductive StoreOutcome where
  | returned (st : StoreState)
  | blocked (st : StoreState)
  deriving DecidableEq, Repr

/-- The loop of `master_store_result_phase`, iterations `i, i + 1, ...` with `n`
iterations to go: `MPI_Send` of the file name to worker `i + 1` with
`TAG_WORK`, `MPI_Recv` from `MPI_ANY_SOURCE` (the acknowledgment in flight that
`schedule i` selects; the call never returns when there is none), `MPI_Send`
of the dismissal to worker `i + 1` with `TAG_SLEEP`. -/
def master_store_loop (schedule : Nat → Nat) (output_dir_path output_file_name : String) :
    Nat → Nat → StoreState → StoreOutcome
  | 0, _, st => StoreOutcome.returned st
  | n + 1, i, st =>
      let told : StoreState :=
        { trace := st.trace ++ [StoreEvent.send ⟨output_file_name, i + 1, TAG_WORK⟩],
          in_flight := st.in_flight ++
            [(i + 1, output_file_path output_dir_path output_file_name)] }
      match told.in_flight[schedule i % told.in_flight.length]? with
      | none => StoreOutcome.blocked told
      | some ack =>
          master_store_loop schedule output_dir_path output_file_name n (i + 1)
            { trace := told.trace ++ [StoreEvent.recv ack.1 ack.2,
                StoreEvent.send ⟨DISMISSAL, i + 1, TAG_SLEEP⟩],
              in_flight := told.in_flight.eraseIdx (schedule i % told.in_flight.length) }

/-- `master_store_result_phase(output_file_name, number_of_workers)`; the
workers run with `output_dir_path`.  No message is in flight when the phase
starts: the reduce phase has received the one message every worker sent. -/
def master_store_result_phase (schedule : Nat → Nat) (output_dir_path output_file_name : String)
    (number_of_workers : Nat) : StoreOutcome :=
  master_store_loop schedule output_dir_path output_file_name number_of_workers 0 ⟨[], []⟩

/-- One event applied to the list of workers that were told to write the
result file (`TAG_WORK` sent) and have not acknowledged yet. -/
def awaiting_step (acc : List Nat) (e : StoreEvent) : List Nat :=
  match e with
  | StoreEvent.send m => if m.tag = TAG_WORK then acc ++ [m.dest] else acc
  | StoreEvent.recv source _ => acc.erase source

/-- The workers that, after the events of `trace`, were told to write the
result file and have not acknowledged yet. -/
def awaiting_ack (trace : List StoreEvent) : List Nat :=
  trace.foldl awaiting_step []

/-- The three events of the handshake with worker `i + 1`. -/
def handshake (output_dir_path output_file_name : String) (i : Nat) : List StoreEvent :=
  [StoreEvent.send ⟨output_file_name, i + 1, TAG_WORK⟩,
   StoreEvent.recv (i + 1) (output_file_path output_dir_path output_file_name),
   StoreEvent.send ⟨DISMISSAL, i + 1, TAG_SLEEP⟩]

/-! ## The store stage of a worker (`src/src/worker.c`) -/

/-- What `%s` prints for a `char *`: the string, and for `NULL` (for which
the C standard defines no result) the text `(null)` that the C library of the
platform prints. -/
def print_s (p : Option String) : String :=
  match p with
  | some s => s
  | none => "(null)"

/-- What `%d` prints: the decimal digits, after a `-` for a negative number. -/
def print_d (n : Int) : String := toString n

/-- The inner loop of `worker_store_result_phase`:
`fprintf(output_file, "<%s: %d>", values[j], counts[j])` for every slot. -/
def result_groups : List (Option String) → List Int → String
  | v :: vs, c :: cs => "<" ++ print_s v ++ ": " ++ print_d c ++ ">" ++ result_groups vs cs
  | _, _ => ""

/-- The outer loop of `worker_store_result_phase`: for every entry the key
with `"%s: "`, the groups, and `"\n"`. -/
def result_lines : Dictionary → String
  | [] => ""
  | p :: rest =>
      print_s p.key ++ ": " ++ result_groups p.values p.counts ++ "\n" ++ result_lines rest

/-- The text `worker_store_result_phase` appends to the result file;
`output_file_opens` tells whether `fopen(output_file_path, "a")` succeeds.
When it fails nothing is written. -/
def worker_store_result_phase (output_file_opens : Bool) (result : Dictionary) : String :=
  if output_file_opens then result_lines result else ""

/-- The group of one pair in a result line, as the format describes it. -/
def format_group (doc : String) (count : Int) : String :=
  "<" ++ doc ++ ": " ++ print_d count ++ ">"

/-- The result line of a word with its (document, count) pairs, as the format
describes it. -/
def format_line (word : String) (pairs : List (String × Int)) : String :=
  word ++ ": " ++ String.join (pairs.map (fun dc => format_group dc.1 dc.2)) ++ "\n"

/-- The entry of a dictionary for a key and its (value, count) pairs. -/
def Pair.of_pairs (key : String) (pairs : List (String × Int)) : Pair :=
  { key := some key, values := pairs.map (fun vc => some vc.1), counts := pairs.map Prod.snd }

/-! ## The map stage of a worker (`src/src/worker.c`)

A `Char` of a text stands for one `char` of the program, that is one byte;
lengths count bytes. -/

/-- `MIN_WORD_SIZE` of worker.c. -/
def MIN_WORD_SIZE : Nat := 3

/-- `MAX_WORD_SIZE` of worker.c. -/
def MAX_WORD_SIZE : Nat := 128

/-- `MAX_LINE_SIZE` of worker.c. -/
def MAX_LINE_SIZE : Nat := MAX_WORD_SIZE + 10

/-- `WORD_DELIMITER` of worker.c, byte for byte: the six bytes
`c3 af c2 bf c2 bd` the literal starts with, the punctuation, blank, tab,
newline and the ten digits. -/
def WORD_DELIMITER : String :=
  "\xc3\xaf\xc2\xbf\xc2\xbd!?.,_-*&()[]\x7b\x7d|/:;~\x22 \t\n1234567890"

/-- A character of `WORD_DELIMITER`. -/
def is_delimiter (c : Char) : Bool := WORD_DELIMITER.data.contains c

/-- The C function `isspace` in the "C" locale: blank, `\t`, `\n`, `\v`, `\f`,
`\r`.  This is the white space `fscanf("%s")` skips and stops at. -/
def isspace (c : Char) : Bool :=
  c = ' ' || c = '\t' || c = '\n' || c = '\x0b' || c = '\x0c' || c = '\r'

/-- The C function `tolower` in the "C" locale: `A .. Z` become `a .. z`. -/
def tolower (c : Char) : Char :=
  if 65 ≤ c.toNat ∧ c.toNat ≤ 90 then Char.ofNat (c.toNat + 32) else c

/-- `utils_strlwr(str)` of utils.c: every character of the string replaced by
its `tolower`. -/
def utils_strlwr : List Char → List Char
  | [] => []
  | c :: rest => tolower c :: utils_strlwr rest

/-- The maximal non-empty runs of characters that are not separators, in
order.  With the delimiters as separators these are the tokens that
`strtok(buffer, delim)` and the following `strtok(NULL, delim)` calls return;
with white space as separators these are the strings that successive
`fscanf(file, "%s", buffer)` calls store. -/
def split_runs (sep : Char → Bool) : List Char → List (List Char)
  | [] => []
  | c :: cs =>
      if sep c then split_runs sep cs
      else
        match cs with
        | [] => [[c]]
        | d :: _ =>
            if sep d then [c] :: split_runs sep cs
            else
              match split_runs sep cs with
              | run :: more => (c :: run) :: more
              | [] => [[c]]

/-- The C string a buffer holds: the characters before the first NUL. -/
def c_string (buffer : List Char) : List Char := buffer.takeWhile (fun c => c ≠ '\x00')

/-- The words one filled `buffer` contributes, in order: the `do ... while`
loop over the `strtok` tokens keeps a token when
`MIN_WORD_SIZE <= strlen(word)` and passes `utils_strlwr(word)` on. -/
def buffer_words (buffer : List Char) : List String :=
  ((split_runs is_delimiter (c_string buffer)).filter
    (fun word => MIN_WORD_SIZE ≤ word.length)).map (fun word => String.mk (utils_strlwr word))

/-- The words `worker_parse_file` passes to `insert_word_into_dictionary` for
a file with the content `text`, in order.  `fscanf("%s", buffer)` has no field
width: a run of `MAX_WORD_SIZE` or more non-blank characters overruns `buffer`
and the run of the program is not defined (`none`). -/
def parse_words (text : List Char) : Option (List String) :=
  if (split_runs isspace text).all (fun chunk => chunk.length < MAX_WORD_SIZE) then
    some ((split_runs isspace text).flatMap buffer_words)
  else none

/-- The inner print loop of `worker_parse_file`:
`fprintf(output_file, "%s:%d\n", values[j], counts[j])` for every slot. -/
def word_lines : List (Option String) → List Int → String
  | v :: vs, c :: cs => print_s v ++ ":" ++ print_d c ++ "\n" ++ word_lines vs cs
  | _, _ => ""

/-- The outer print loop of `worker_parse_file`: for every entry of
`file_words` the line of the path, the word lines and an empty line. -/
def intermediate_blocks (input_file_path : String) : Dictionary → String
  | [] => ""
  | p :: rest =>
      input_file_path ++ "\n" ++ word_lines p.values p.counts ++ "\n" ++
        intermediate_blocks input_file_path rest

/-- The dictionary `file_words` of `worker_parse_file` after the words `words`
were inserted under the key `input_file_path`. -/
def file_words (al : Allocator) (input_file_path : String) (words : List String) : Dictionary :=
  insert_words al [] (words.map (fun word => (input_file_path, word)))

/-- `worker_parse_file(worker_rank, input_file_path, output_file_path)`: the
text appended to the intermediate file.  `input_file` is the content of the
source file (`none` when `fopen` fails), `output_file_opens` tells whether the
intermediate file opens; when either fails nothing is written.  The result is
`none` when the run is not defined (see `parse_words`). -/
def worker_parse_file (al : Allocator) (input_file_path : String)
    (input_file : Option (List Char)) (output_file_opens : Bool) : Option String :=
  match input_file with
  | none => some ""
  | some text =>
      if output_file_opens then
        match parse_words text with
        | none => none
        | some words =>
            some (intermediate_blocks input_file_path (file_words al input_file_path words))
      else some ""

/-- The retained tokens of a text, in order: the maximal runs of characters
that are neither white space nor a character of `WORD_DELIMITER`, restricted
to the runs of at least `MIN_WORD_SIZE` characters, in lower case. -/
def retained_tokens (text : List Char) : List String :=
  ((split_runs (fun c => isspace c || is_delimiter c) text).filter
    (fun run => MIN_WORD_SIZE ≤ run.length)).map (fun run => String.mk (utils_strlwr run))

/-- The line of one word in a block of the intermediate file, as the format
describes it: `<word>:<count>` and a newline. -/
def format_word_line (word : String) (count : Int) : String :=
  word ++ ":" ++ print_d count ++ "\n"

/-- A block of the intermediate file, as the format describes it: the line of
the source path, the word lines, an empty line. -/
def format_block (path : String) (pairs : List (String × Int)) : String :=
  path ++ "\n" ++ String.join (pairs.map (fun wc => format_word_line wc.1 wc.2)) ++ "\n"

/-- The distinct words of a list in first-seen order, each with its number of
occurrences. -/
def word_counts (words : List String) : List (String × Int) :=
  (first_seen words).map (fun w => (w, (words.count w : Int)))

/-! ## The reduce stage of a worker (`src/src/worker.c`)

The content of an intermediate file is the list of its characters, NUL bytes
included.  What `fgets` stores is used as a C string, which ends at the first
NUL.  Two steps of the loops have no defined result in C and make the result
of the stage `none`: the assignment `buffer[strlen(buffer) - 1] = '\0'` when
the string is empty, and a word part of `MAX_WORD_SIZE` or more characters,
which overruns the buffer `word`. -/

/-- The characters `fgets` stores when there is room for `n` of them: up to
and including the first newline, at most `n`; with them the rest of the
stream. -/
def fgets_chars : Nat → List Char → List Char × List Char
  | 0, stream => ([], stream)
  | _ + 1, [] => ([], [])
  | n + 1, c :: stream =>
      if c = '\n' then ([c], stream)
      else ((c :: (fgets_chars n stream).1), (fgets_chars n stream).2)

/-- `fgets(buffer, size, file)`: `none` (the `NULL` result) at the end of the
file, else the characters read (at most `size - 1`) and the rest of the
stream. -/
def fgets (size : Nat) (stream : List Char) : Option (List Char × List Char) :=
  if stream = [] then none else some (fgets_chars (size - 1) stream)

/-- The string left by `buffer[strlen(buffer) - 1] = '\0'` in a buffer that
holds what `fgets` read: the C string of the buffer without its last
character.  When the string is empty (the first character read is a NUL) the
assignment writes before the buffer and the result is not defined (`none`). -/
def drop_last_char (buffer : List Char) : Option (List Char) :=
  if c_string buffer = [] then none else some (c_string buffer).dropLast

/-- The value of a run of decimal digits. -/
def digits_value (digits : List Char) : Nat :=
  digits.foldl (fun a c => 10 * a + (c.toNat - 48)) 0

/-- `LONG_MAX` of a 64-bit `long`. -/
def LONG_MAX : Nat := 9223372036854775807

/-- The result of `strtol` for a sign and a run of digits: the number, or
`LONG_MAX` and `LONG_MIN` when it is outside the range of `long`. -/
def strtol (negative : Bool) (digits : List Char) : Int :=
  if negative then -((min (digits_value digits) (LONG_MAX + 1) : Nat) : Int)
  else ((min (digits_value digits) LONG_MAX : Nat) : Int)

/-- The conversion `%d` of `sscanf`: white space is skipped, an optional sign
is read, then the longest run of digits, which must not be empty (`none` when
it is and nothing is stored).  The C library of the platform converts the
digits with `strtol` and stores the result in the `int`. -/
def sscanf_d (s : List Char) : Option Int :=
  match s.dropWhile isspace with
  | '-' :: rest =>
      if rest.takeWhile Char.isDigit = [] then none
      else some (to_int (strtol true (rest.takeWhile Char.isDigit)))
  | '+' :: rest =>
      if rest.takeWhile Char.isDigit = [] then none
      else some (to_int (strtol false (rest.takeWhile Char.isDigit)))
  | rest =>
      if rest.takeWhile Char.isDigit = [] then none
      else some (to_int (strtol false (rest.takeWhile Char.isDigit)))

/-- `sscanf(line, "%[^:]:%d", word, &count)` on the cleared `word` and
`count = 0`, for the C string `line`: the word is the non-empty run before the
first `:`, the count the number after it; a conversion that fails leaves its
variable and those after it as they were.  `%[^:]` has no field width: a run
of `MAX_WORD_SIZE` or more characters overruns `word` and the result is not
defined (`none`). -/
def sscanf_word_count (line : List Char) : Option (List Char × Int) :=
  if line.takeWhile (fun c => c ≠ ':') = [] then some ([], 0)
  else if MAX_WORD_SIZE ≤ (line.takeWhile (fun c => c ≠ ':')).length then none
  else
    match line.dropWhile (fun c => c ≠ ':') with
    | ':' :: rest => some (line.takeWhile (fun c => c ≠ ':'), (sscanf_d rest).getD 0)
    | _ => some (line.takeWhile (fun c => c ≠ ':'), 0)

/-- The value of a `char` holding the byte `c`, as it enters a comparison. -/
def char_value (char_signed : Bool) (c : Char) : Int := to_char char_signed c.toNat

/-- The value of `word[0]`: the first character, or the terminating NUL of the
empty string. -/
def first_char (char_signed : Bool) (word : List Char) : Int :=
  match word with
  | [] => 0
  | c :: _ => char_value char_signed c

/-- A record of an intermediate file as the reduce stage reads it: the name of
the block, the word and the count of a line. -/
structure Record where
  file_name : String
  word : String
  count : Int
  deriving DecidableEq, Repr

/-- The test `(bounds[0] <= word[0]) && (word[0] <= bounds[1])` of
worker.c. -/
def in_bounds (char_signed : Bool) (bounds : Int × Int) (word : String) : Bool :=
  decide (bounds.1 ≤ first_char char_signed word.data) &&
    decide (first_char char_signed word.data ≤ bounds.2)

/-- Lines 243 to 250 of worker.c: a record within the bounds is inserted with
`insert_file_into_dictionary(result, word, file_name, count)`, one outside
changes nothing; the return code is only logged. -/
def reduce_record (al : Allocator) (char_signed : Bool) (bounds : Int × Int)
    (result : Dictionary) (r : Record) : Dictionary :=
  if in_bounds char_signed bounds r.word then
    (insert_file_into_dictionary al result r.word r.file_name r.count).2
  else result

/-- The inner loop of `worker_reduce_phase`:
`while ((NULL != fgets(line, MAX_LINE_SIZE, input_file)) && (0 != strcmp(line, "\n")))`
with the last character of the line cut off, the `sscanf` and the insertion.
Returns the dictionary and the rest of the stream, or `none` when a step is
not defined; `steps` bounds the number of passes. -/
def reduce_lines (al : Allocator) (char_signed : Bool) (bounds : Int × Int)
    (file_name : List Char) :
    Nat → List Char → Dictionary → Option (Dictionary × List Char)
  | 0, stream, result => some (result, stream)
  | steps + 1, stream, result =>
      match fgets MAX_LINE_SIZE stream with
      | none => some (result, stream)
      | some (line, rest) =>
          if c_string line = ['\n'] then some (result, rest)
          else
            match drop_last_char line with
            | none => none
            | some text =>
                match sscanf_word_count text with
                | none => none
                | some wc =>
                    reduce_lines al char_signed bounds file_name steps rest
                      (reduce_record al char_signed bounds result
                        ⟨String.mk file_name, String.mk wc.1, wc.2⟩)

/-- The outer loop of `worker_reduce_phase` on one open file:
`while (NULL != fgets(file_name, MAX_PATH, input_file))` with the last
character of the name cut off, then the inner loop. -/
def reduce_blocks (al : Allocator) (char_signed : Bool) (bounds : Int × Int) :
    Nat → List Char → Dictionary → Option Dictionary
  | 0, _, result => some result
  | steps + 1, stream, result =>
      match fgets MAX_PATH stream with
      | none => some result
      | some (file_name, rest) =>
          match drop_last_char file_name with
          | none => none
          | some name =>
              match reduce_lines al char_signed bounds name (steps + 1) rest result with
              | none => none
              | some lr => reduce_blocks al char_signed bounds steps lr.2 lr.1

/-- What `worker_reduce_phase` does with one intermediate file of the given
content.  Every pass of either loop reads at least one character, so the
bound on the passes is never reached. -/
def reduce_file (al : Allocator) (char_signed : Bool) (bounds : Int × Int)
    (content : List Char) (result : Dictionary) : Option Dictionary :=
  reduce_blocks al char_signed bounds (content.length + 1) content result

/-- The loop of `worker_reduce_phase` over the files of the directory: a file
that does not open is skipped. -/
def reduce_files (al : Allocator) (char_signed : Bool) (bounds : Int × Int) :
    List (Option (List Char)) → Dictionary → Option Dictionary
  | [], result => some result
  | none :: files, result => reduce_files al char_signed bounds files result
  | some content :: files, result =>
      match reduce_file al char_signed bounds content result with
      | none => none
      | some result1 => reduce_files al char_signed bounds files result1

/-- `worker_reduce_phase(worker_rank, input_dir_path, result)` for the bounds
received: `input_directory` is `none` when the directory cannot be opened,
else the regular files in the order `get_next_file_from_dir` returns them,
each with its content (`none` when `fopen` fails, and the file is skipped).
Returns the dictionary `result`, which starts empty, or `none` when a step of
the run is not defined. -/
def worker_reduce_phase (al : Allocator) (char_signed : Bool) (bounds : Int × Int)
    (input_directory : Option (List (Option (List Char)))) : Option Dictionary :=
  match input_directory with
  | none => some []
  | some files => reduce_files al char_signed bounds files []

/-- The records the inner loop reads, in order, and the rest of the stream:
the loop of `reduce_lines` without the insertion. -/
def read_lines (file_name : List Char) : Nat → List Char → Option (List Record × List Char)
  | 0, stream => some ([], stream)
  | steps + 1, stream =>
      match fgets MAX_LINE_SIZE stream with
      | none => some ([], stream)
      | some (line, rest) =>
          if c_string line = ['\n'] then some ([], rest)
          else
            match drop_last_char line with
            | none => none
            | some text =>
                match sscanf_word_count text with
                | none => none
                | some wc =>
                    match read_lines file_name steps rest with
                    | none => none
                    | some rr =>
                        some ((⟨String.mk file_name, String.mk wc.1, wc.2⟩ : Record) :: rr.1,
                          rr.2)

/-- The records the outer loop reads, in order: the loop of `reduce_blocks`
without the insertion. -/
def read_blocks : Nat → List Char → Option (List Record)
  | 0, _ => some []
  | steps + 1, stream =>
      match fgets MAX_PATH stream with
      | none => some []
      | some (file_name, rest) =>
          match drop_last_char file_name with
          | none => none
          | some name =>
              match read_lines name (steps + 1) rest with
              | none => none
              | some rr =>
                  match read_blocks steps rr.2 with
                  | none => none
                  | some records => some (rr.1 ++ records)

/-- The records of an intermediate file of the given content, as the reduce
stage reads them; `none` when a step of the reading is not defined. -/
def read_records (content : List Char) : Option (List Record) :=
  read_blocks (content.length + 1) content

/-- No `MAX_WORD_SIZE` consecutive characters of the text are free of `:` and
newline; `k` is the number of such characters right before the text. -/
def short_word_parts : Nat → List Char → Bool
  | _, [] => true
  | k, c :: cs =>
      if c = ':' ∨ c = '\n' then short_word_parts 0 cs
      else decide (k + 1 < MAX_WORD_SIZE) && short_word_parts (k + 1) cs

/-- The characters of a word line without its newline: the word, `:`, the
count as `%d` prints it. -/
def line_chars (wc : String × Int) : List Char := wc.1.data ++ ':' :: (print_d wc.2).data

/-- A (word, count) pair whose line the reduce stage reads back: the word is
a C string (no NUL) that is not empty, holds neither `:` nor a newline and
fits the buffer `word`, the count is an `int` that is not negative, and the
line with its newline fits the `MAX_LINE_SIZE - 1` characters `fgets`
reads. -/
def readable_pair (wc : String × Int) : Prop :=
  wc.1.data ≠ [] ∧ ':' ∉ wc.1.data ∧ '\n' ∉ wc.1.data ∧ 0 ≤ wc.2 ∧
    (line_chars wc).length + 1 < MAX_LINE_SIZE ∧
    '\x00' ∉ wc.1.data ∧ wc.1.data.length < MAX_WORD_SIZE ∧ wc.2 ≤ INT_MAX

/-- A path whose line the reduce stage reads back: a C string (no NUL) without
newline that, with its newline, fits the `MAX_PATH - 1` characters `fgets`
reads. -/
def readable_path (path : String) : Prop :=
  '\n' ∉ path.data ∧ path.data.length + 1 < MAX_PATH ∧ '\x00' ∉ path.data

instance (wc : String × Int) : Decidable (readable_pair wc) := by
  unfold readable_pair; infer_instance

instance (path : String) : Decidable (readable_path path) := by
  unfold readable_path; infer_instance

/-! ## The stages together -/

/-- The bounds worker `i + 1` receives in the reduce phase: the two characters
of the message `master_reduce_phase` sends to it. -/
def worker_bounds (char_signed : Bool) (number_of_workers i : Nat) : Int × Int :=
  match (master_reduce_phase char_signed number_of_workers)[i]? with
  | some m => (m.lo, m.hi)
  | none => (0, 0)

/-- The records a worker reads from the files of the output directory, in
reading order; a file that does not open yields none.  The result is `none`
when the reading of some file is not defined. -/
def directory_records : List (Option (List Char)) → Option (List Record)
  | [] => some []
  | none :: files => directory_records files
  | some content :: files =>
      match read_records content, directory_records files with
      | some records, some more => some (records ++ more)
      | _, _ => none

/-- The dictionary worker `i + 1` of `number_of_workers` holds after its
reduce stage, when it reads the files of the output directory in the order
`files`; `none` when the stage is not defined. -/
def reduce_stage (al : Allocator) (char_signed : Bool) (number_of_workers : Nat)
    (files : List (Option (List Char))) (i : Nat) : Option Dictionary :=
  worker_reduce_phase al char_signed (worker_bounds char_signed number_of_workers i) (some files)

/-- The first character of the word is a lowercase letter. -/
def starts_with_letter (word : String) : Prop :=
  match word.data with
  | [] => False
  | c :: _ => 'a'.toNat ≤ c.toNat ∧ c.toNat ≤ 'z'.toNat

instance (word : String) : Decidable (starts_with_letter word) := by
  unfold starts_with_letter
  cases word.data <;> infer_instance

/-! ## A whole run

The source files do not change during a run, the intermediate file of every
worker opens, and the output directory holds the intermediate files and
nothing else when the reduce stage reads it. -/

/-- The paths worker `rank` receives as `TAG_WORK` in the map phase, in the
order it receives them. -/
def worker_tasks (sent : List Message) (rank : Nat) : List String :=
  (sent.filter (fun m => m.tag = TAG_WORK ∧ m.dest = rank)).map Message.payload

/-- `worker_map_phase(worker_rank, output_dir_path)`: the text the worker
appends to its intermediate file over the tasks it receives, one call of
`worker_parse_file` per task.  `content` gives the text of the file at a path
(`none` when it does not open).  The result is `none` when some call is not
defined. -/
def worker_map_phase (al : Allocator) (content : String → Option (List Char)) :
    List String → Option String
  | [] => some ""
  | file_to_parse :: tasks =>
      match worker_parse_file al file_to_parse (content file_to_parse) true,
          worker_map_phase al content tasks with
      | some block, some rest => some (block ++ rest)
      | _, _ => none

/-- The ranks of the workers that leave an intermediate file: those that
received at least one task (`worker_parse_file` opens the file for appending
in every call). -/
def map_ranks (sent : List Message) : List Nat :=
  first_seen ((sent.filter (fun m => m.tag = TAG_WORK)).map Message.dest)

/-- The intermediate files of the workers `ranks` after the map stage, in this
order; `none` when the map stage of one of them is not defined. -/
def map_stage (al : Allocator) (content : String → Option (List Char)) (sent : List Message) :
    List Nat → Option (List String)
  | [] => some []
  | rank :: ranks =>
      match worker_map_phase al content (worker_tasks sent rank),
          map_stage al content sent ranks with
      | some file, some files => some (file :: files)
      | _, _ => none

/-- The dictionary worker `i + 1` holds after the map and the reduce stage of a
run: the master hands out the regular files of `entries`, the workers write
their intermediate files, and worker `i + 1` reads them in the order `order`
(given by the ranks of their writers) with the bounds the master sends it. -/
def index_of_worker (al : Allocator) (char_signed : Bool) (schedule : Nat → Nat)
    (entries : List File) (input_dir_path : String) (content : String → Option (List Char))
    (number_of_workers : Nat) (order : List Nat) (i : Nat) : Option Dictionary :=
  (map_stage al content
      (master_map_phase schedule (some entries) input_dir_path number_of_workers).state.sent
      order).bind
    (fun files =>
      reduce_stage al char_signed number_of_workers (files.map (fun file => some file.data)) i)

/-- The retained tokens of the source file at a path; none when it does not
open. -/
def source_tokens (content : String → Option (List Char)) (path : String) : List String :=
  match content path with
  | none => []
  | some text => retained_tokens text

/-- What the format of the intermediate file asks of a source file: a path the
reduce stage reads back and, when the file opens, a text without NUL whose
blank-separated chunks fit the read buffer and which has fewer than `10 ^ 8`
retained tokens (so that every word line fits the line buffer). -/
def readable_source (content : String → Option (List Char)) (path : String) : Prop :=
  readable_path path ∧
    match content path with
    | none => True
    | some text =>
        (∀ chunk ∈ split_runs isspace text, chunk.length < MAX_WORD_SIZE) ∧ '\x00' ∉ text ∧
          (retained_tokens text).length < 100000000

instance (content : String → Option (List Char)) (path : String) :
    Decidable (readable_source content path) := by
  unfold readable_source
  cases content path <;> infer_instance

/-- The block a source file contributes to an intermediate file: nothing when
it does not open or has no retained token. -/
def source_block (content : String → Option (List Char)) (path : String) : String :=
  if source_tokens content path = [] then ""
  else format_block path (word_counts (source_tokens content path))

/-- The records a source file contributes: one per distinct retained token,
with its number of occurrences. -/
def source_records (content : String → Option (List Char)) (path : String) : List Record :=
  (word_counts (source_tokens content path)).map (fun wc => ⟨path, wc.1, wc.2⟩)

/-- The directory of the example: the two regular files `A` and `B`. -/
def example_entries : List File := [⟨"A", DT_REG⟩, ⟨"B", DT_REG⟩]

/-- The texts of the example: `in/A` and `in/B`; no other path opens. -/
def example_content (path : String) : Option (List Char) :=
  if path = "in/A" then some "the cat sat on the mat".data
  else if path = "in/B" then some "the dog sat".data
  else none

/-! ## The messages of the map phase by worker -/

/-- The messages of a trace addressed to worker `rank`, in sending order. -/
def messages_to (sent : List Message) (rank : Nat) : List Message :=
  sent.filter (fun m => m.dest = rank)

/-- The number of `TAG_SLEEP` messages of a trace addressed to worker `rank`. -/
def sleeps_to (sent : List Message) (rank : Nat) : Nat :=
  (sent.filter (fun m => m.dest = rank ∧ m.tag = TAG_SLEEP)).length

/-- The number of notices of worker `rank` that are in flight. -/
def notices_of (in_flight : List (Nat × String)) (rank : Nat) : Nat :=
  (in_flight.filter (fun x => x.1 = rank)).length

/-- Worker `rank` has a task: one notice of it is to come, the last message to
it is a `TAG_WORK` message and it got no `TAG_SLEEP` so far. -/
def worker_at_work (st : MapState) (rank : Nat) : Prop :=
  notices_of st.in_flight rank = 1 ∧ sleeps_to st.sent rank = 0 ∧
    ((messages_to st.sent rank).getLast?).map Message.tag = some TAG_WORK

/-- Worker `rank` is released: no notice of it is to come, and the last message
to it is the only `TAG_SLEEP` message it got. -/
def worker_released (st : MapState) (rank : Nat) : Prop :=
  notices_of st.in_flight rank = 0 ∧ sleeps_to st.sent rank = 1 ∧
    (messages_to st.sent rank).getLast? = some ⟨INVALID_FILE, rank, TAG_SLEEP⟩

/-- The invariant of `master_map_phase` once the workers `1 .. i` have been
addressed: messages and notices belong to these workers, and each of them is
at work or released. -/
def map_invariant (i : Nat) (st : MapState) : Prop :=
  (∀ x ∈ st.in_flight, 1 ≤ x.1 ∧ x.1 ≤ i) ∧
    (∀ m ∈ st.sent, (m.tag = TAG_WORK ∨ m.tag = TAG_SLEEP) ∧ 1 ≤ m.dest ∧ m.dest ≤ i) ∧
    ∀ w, 1 ≤ w → w ≤ i → worker_at_work st w ∨ worker_released st w

/-! ## The words of the map stage in the reduce stage -/

/-- The words `worker_parse_file` inserts for the file at a path, in order:
none when the file does not open. -/
def parsed_words (content : String → Option (List Char)) (path : String) : List String :=
  match content path with
  | none => []
  | some text => (parse_words text).getD []

/-- A source file whose block the reduce stage reads back: a path it reads
back and, when the file opens, a text of bytes whose blank-separated chunks fit
the read buffer and that yields fewer than `10 ^ 8` words. -/
def tokenizer_source (content : String → Option (List Char)) (path : String) : Prop :=
  readable_path path ∧
    match content path with
    | none => True
    | some text =>
        (∀ chunk ∈ split_runs isspace text, chunk.length < MAX_WORD_SIZE) ∧
          (∀ c ∈ text, c.toNat < 256) ∧ ((parse_words text).getD []).length < 100000000

instance (content : String → Option (List Char)) (path : String) :
    Decidable (tokenizer_source content path) := by
  unfold tokenizer_source
  cases content path <;> infer_instance

/-- The block `worker_parse_file` writes for a file with the given words:
nothing when there is none. -/
def words_block (path : String) (words : List String) : String :=
  if words = [] then "" else format_block path (word_counts words)

/-- The records of the block of a file with the given words. -/
def words_records (path : String) (words : List String) : List Record :=
  (word_counts words).map (fun wc => ⟨path, wc.1, wc.2⟩)

/-! ## Lemmas on the two loops -/

theorem find_key_index_absent (key : String) (l : List Pair) (i : Nat) (acc : Option Nat)
    (h : ∀ p ∈ l, p.key ≠ some key) : find_key_index key l i acc = acc := by
  induction l generalizing i acc with
  | nil => rfl
  | cons p rest ih =>
    have hp : strcmp_eq key p.key = false := by
      have := h p (List.mem_cons_self _ _)
      simp [strcmp_eq, this]
    simp only [find_key_index, hp]
    exact ih _ _ (fun q hq => h q (List.mem_cons_of_mem _ hq))

theorem find_key_index_last (key : String) (l1 l2 : List Pair) (p : Pair) (i : Nat)
    (acc : Option Nat) (hp : p.key = some key) (h2 : ∀ q ∈ l2, q.key ≠ some key) :
    find_key_index key (l1 ++ p :: l2) i acc = some (i + l1.length) := by
  induction l1 generalizing i acc with
  | nil =>
    have : strcmp_eq key p.key = true := by simp [strcmp_eq, hp]
    simp only [List.nil_append, find_key_index, this, if_true, List.length_nil, Nat.add_zero]
    exact find_key_index_absent key l2 _ _ h2
  | cons q rest ih =>
    simp only [List.cons_append, find_key_index, List.length_cons]
    exact (ih _ _).trans (by congr 1; omega)

/-- A list holding an entry for `key` splits at the last such entry. -/
theorem split_at_last_key (key : String) (l : List Pair) (h : ∃ p ∈ l, p.key = some key) :
    ∃ l1 p l2, l = l1 ++ p :: l2 ∧ p.key = some key ∧ ∀ q ∈ l2, q.key ≠ some key := by
  induction l with
  | nil => simp at h
  | cons x rest ih =>
    by_cases hr : ∃ p ∈ rest, p.key = some key
    · obtain ⟨l1, p, l2, hl, hp, h2⟩ := ih hr
      exact ⟨x :: l1, p, l2, by simp [hl], hp, h2⟩
    · have hx : x.key = some key := by
        obtain ⟨p, hp, hk⟩ := h
        rcases List.mem_cons.1 hp with rfl | hp
        · exact hk
        · exact absurd ⟨p, hp, hk⟩ hr
      refine ⟨[], x, rest, rfl, hx, ?_⟩
      intro q hq hk
      exact hr ⟨q, hq, hk⟩

theorem find_key_index_eq_none (key : String) (l : List Pair) :
    find_key_index key l 0 none = none ↔ ∀ p ∈ l, p.key ≠ some key := by
  constructor
  · intro h p hp hk
    obtain ⟨l1, q, l2, hl, hq, h2⟩ := split_at_last_key key l ⟨p, hp, hk⟩
    rw [hl, find_key_index_last key l1 l2 q 0 none hq h2] at h
    simp at h
  · intro h
    exact find_key_index_absent key l 0 none h

/-- With unique keys the entry found at index `i` is the one the search loop
selects. -/
theorem find_key_index_of_get (key : String) (dic : Dictionary) (i : Nat) (p : Pair)
    (hu : unique_keys dic) (hg : dic[i]? = some p) (hp : p.key = some key) :
    find_key_index key dic 0 none = some i ∧
      ∃ l1 l2, dic = l1 ++ p :: l2 ∧ l1.length = i ∧
        (∀ q ∈ l1, q.key ≠ some key) ∧ ∀ q ∈ l2, q.key ≠ some key := by
  have hlt : i < dic.length := by
    rcases Nat.lt_or_ge i dic.length with h | h
    · exact h
    · rw [List.getElem?_eq_none h] at hg; simp at hg
  have hgi : dic[i] = p := by
    rw [List.getElem?_eq_getElem hlt] at hg
    simpa using hg
  have hsplit : dic = dic.take i ++ p :: dic.drop (i + 1) := by
    rw [← hgi]
    simp
  have hlen : (dic.take i).length = i := by
    simp [List.length_take]; omega
  rw [unique_keys, hsplit] at hu
  simp only [List.map_append, List.map_cons] at hu
  have hu1 := List.nodup_append.1 hu
  have hd := hu1.2.2
  have hnd2 := (List.nodup_cons.1 hu1.2.1).1
  have h1 : ∀ q ∈ dic.take i, q.key ≠ some key := by
    intro q hq hk
    have : q.key ∈ List.map Pair.key (dic.take i) := List.mem_map_of_mem _ hq
    exact List.disjoint_left.1 hd this (by simp [hk, hp])
  have h2 : ∀ q ∈ dic.drop (i + 1), q.key ≠ some key := by
    intro q hq hk
    apply hnd2
    rw [hp, ← hk]
    exact List.mem_map_of_mem _ hq
  refine ⟨?_, dic.take i, dic.drop (i + 1), hsplit, hlen, h1, h2⟩
  have := find_key_index_last key (dic.take i) (dic.drop (i + 1)) p 0 none hp h2
  rw [← hsplit, hlen] at this
  simpa using this

theorem set_at_split (l1 l2 : List Pair) (p q : Pair) :
    (l1 ++ p :: l2).set l1.length q = l1 ++ q :: l2 := by
  induction l1 with
  | nil => rfl
  | cons x rest ih => simp [List.set, ih]

theorem get_at_split (l1 l2 : List Pair) (p : Pair) :
    (l1 ++ p :: l2)[l1.length]? = some p := by
  induction l1 with
  | nil => simp
  | cons x rest ih => simpa using ih

/-- The conversion to `int` in one formula. -/
theorem to_int_eq (x : Int) : to_int x = (x + 2147483648) % 4294967296 - 2147483648 := by
  cases x with
  | ofNat n =>
    simp only [to_int]
    split
    · simp only [Int.ofNat_eq_coe]; omega
    · simp only [Int.ofNat_eq_coe, Int.negSucc_eq]; omega
  | negSucc n =>
    simp only [to_int]
    split
    · simp only [Int.negSucc_eq]; omega
    · simp only [Int.ofNat_eq_coe, Int.negSucc_eq]; omega

theorem to_int_small (x : Int) (h1 : INT_MIN ≤ x) (h2 : x ≤ INT_MAX) : to_int x = x := by
  unfold INT_MIN at h1
  unfold INT_MAX at h2
  rw [to_int_eq]
  omega

theorem to_int_range (x : Int) : INT_MIN ≤ to_int x ∧ to_int x ≤ INT_MAX := by
  unfold INT_MIN INT_MAX
  rw [to_int_eq]
  omega

theorem to_int_succ (x : Int) : to_int (to_int x + 1) = to_int (x + 1) := by
  rw [to_int_eq, to_int_eq, to_int_eq]
  omega

theorem bump_not_found (word : String) (vs : List (Option String)) (cs : List Int)
    (h : some word ∉ vs) : bump_matching_counts word vs cs = (false, cs) := by
  induction vs generalizing cs with
  | nil => cases cs <;> rfl
  | cons v rest ih =>
    cases cs with
    | nil => rfl
    | cons c cs =>
      have hv : strcmp_eq word v = false := by
        have : v ≠ some word := fun e => h (by simp [e])
        simp [strcmp_eq, this]
      have hr : some word ∉ rest := fun e => h (List.mem_cons_of_mem _ e)
      simp [bump_matching_counts, hv, ih cs hr]

theorem bump_found_at (word : String) (vs : List (Option String)) (cs : List Int) (j : Nat)
    (c : Int) (hn : vs.Nodup) (hv : vs[j]? = some (some word)) (hc : cs[j]? = some c) :
    bump_matching_counts word vs cs = (true, cs.set j (to_int (c + 1))) := by
  induction vs generalizing cs j with
  | nil => simp at hv
  | cons v rest ih =>
    cases cs with
    | nil => simp at hc
    | cons c0 cs =>
      have hnd := List.nodup_cons.1 hn
      cases j with
      | zero =>
        simp at hv hc
        subst hv hc
        have : strcmp_eq word (some word) = true := by simp [strcmp_eq]
        simp [bump_matching_counts, this, bump_not_found word rest cs hnd.1]
      | succ j =>
        simp at hv hc
        have hmem : some word ∈ rest := List.getElem?_mem hv
        have hne : strcmp_eq word v = false := by
          have : v ≠ some word := fun e => hnd.1 (e ▸ hmem)
          simp [strcmp_eq, this]
        simp [bump_matching_counts, hne, ih cs j hnd.2 hv hc]

theorem bump_found_iff (word : String) (vs : List (Option String)) (cs : List Int)
    (hl : cs.length = vs.length) :
    (bump_matching_counts word vs cs).1 = true ↔ some word ∈ vs := by
  induction vs generalizing cs with
  | nil => cases cs <;> simp [bump_matching_counts]
  | cons v rest ih =>
    cases cs with
    | nil => simp at hl
    | cons c cs =>
      have hl2 : cs.length = rest.length := by simpa using hl
      by_cases hv : v = some word
      · simp [bump_matching_counts, strcmp_eq, hv]
      · have : ¬ some word = v := fun e => hv e.symm
        simp [bump_matching_counts, strcmp_eq, hv, this, ih cs hl2]

theorem value_found_iff (file_name : String) (vs : List (Option String)) :
    value_found file_name vs = true ↔ some file_name ∈ vs := by
  induction vs with
  | nil => simp [value_found]
  | cons v rest ih =>
    by_cases hv : v = some file_name
    · simp [value_found, strcmp_eq, hv]
    · have : ¬ some file_name = v := fun e => hv e.symm
      simp [value_found, strcmp_eq, hv, this, ih]

/-! ## One call of `insert_word_into_dictionary` -/

theorem insert_new_entry_ok (al : Allocator) (hal : ∀ n, al.ok n = true) (dic : Dictionary)
    (key value : String) (count : Int) :
    insert_new_entry al dic key value count =
      (0, dic ++ [{ key := some key, values := [some value], counts := [count] }]) := by
  simp [insert_new_entry, hal]

theorem append_value_ok (al : Allocator) (hal : ∀ n, al.ok n = true) (p : Pair)
    (value : String) (count rc : Int) :
    append_value al p value count rc =
      (rc, { p with values := p.values ++ [some value], counts := p.counts ++ [count] }) := by
  simp [append_value, hal]

theorem insert_word_new_key (al : Allocator) (hal : ∀ n, al.ok n = true) (dic : Dictionary)
    (file_name word : String) (h : ∀ p ∈ dic, p.key ≠ some file_name) :
    insert_word_into_dictionary al dic file_name word =
      (0, dic ++ [{ key := some file_name, values := [some word], counts := [1] }]) := by
  simp only [insert_word_into_dictionary, (find_key_index_eq_none file_name dic).2 h]
  exact insert_new_entry_ok al hal dic file_name word 1

theorem insert_word_new_value (al : Allocator) (hal : ∀ n, al.ok n = true) (dic : Dictionary)
    (file_name word : String) (i : Nat) (p : Pair) (hu : unique_keys dic)
    (hg : dic[i]? = some p) (hp : p.key = some file_name) (hw : some word ∉ p.values) :
    insert_word_into_dictionary al dic file_name word =
      (-1, dic.set i { p with values := p.values ++ [some word], counts := p.counts ++ [1] }) := by
  simp only [insert_word_into_dictionary, (find_key_index_of_get file_name dic i p hu hg hp).1, hg,
    bump_not_found word p.values p.counts hw, append_value_ok al hal]
  simp

theorem insert_word_old_value (al : Allocator) (dic : Dictionary)
    (file_name word : String) (i j : Nat) (p : Pair) (c : Int) (hu : unique_keys dic)
    (hn : p.values.Nodup) (hg : dic[i]? = some p) (hp : p.key = some file_name)
    (hv : p.values[j]? = some (some word)) (hc : p.counts[j]? = some c) :
    insert_word_into_dictionary al dic file_name word =
      (0, dic.set i { p with counts := p.counts.set j (to_int (c + 1)) }) := by
  simp only [insert_word_into_dictionary, (find_key_index_of_get file_name dic i p hu hg hp).1, hg,
    bump_found_at word p.values p.counts j c hn hv hc]
  simp

/-- Shape of the result of a call in which no allocation fails: a new entry at
the end, or the selected pair rewritten in place. -/
theorem insert_word_shape (al : Allocator) (hal : ∀ n, al.ok n = true) (dic : Dictionary)
    (file_name word : String) (hu : unique_keys dic) :
    ((∀ p ∈ dic, p.key ≠ some file_name) ∧
      (insert_word_into_dictionary al dic file_name word).2 =
        dic ++ [{ key := some file_name, values := [some word], counts := [1] }]) ∨
    ∃ l1 p l2, dic = l1 ++ p :: l2 ∧ p.key = some file_name ∧
      (∀ q ∈ l1, q.key ≠ some file_name) ∧ (∀ q ∈ l2, q.key ≠ some file_name) ∧
      (insert_word_into_dictionary al dic file_name word).2 =
        l1 ++ word_into_pair p word :: l2 := by
  by_cases h : ∀ p ∈ dic, p.key ≠ some file_name
  · exact Or.inl ⟨h, by rw [insert_word_new_key al hal dic file_name word h]⟩
  · right
    push_neg at h
    obtain ⟨p0, hp0, hk0⟩ := h
    obtain ⟨i, hi⟩ := List.mem_iff_getElem?.1 hp0
    obtain ⟨hf, l1, l2, hd, hl, h1, h2⟩ := find_key_index_of_get file_name dic i p0 hu hi hk0
    refine ⟨l1, p0, l2, hd, hk0, h1, h2, ?_⟩
    simp only [insert_word_into_dictionary, hf, hi, word_into_pair]
    by_cases hb : (bump_matching_counts word p0.values p0.counts).1 = true
    · simp only [hb, if_true]
      rw [hd, ← hl, set_at_split]
    · simp only [hb, append_value_ok al hal]
      rw [hd, ← hl, set_at_split]
      simp

theorem insert_file_shape (al : Allocator) (hal : ∀ n, al.ok n = true) (dic : Dictionary)
    (word file_name : String) (count : Int) (hu : unique_keys dic) :
    ((∀ p ∈ dic, p.key ≠ some word) ∧
      insert_file_into_dictionary al dic word file_name count =
        (0, dic ++ [{ key := some word, values := [some file_name], counts := [count] }])) ∨
    ∃ l1 p l2, dic = l1 ++ p :: l2 ∧ p.key = some word ∧
      (∀ q ∈ l1, q.key ≠ some word) ∧ (∀ q ∈ l2, q.key ≠ some word) ∧
      insert_file_into_dictionary al dic word file_name count =
        (0, l1 ++ file_into_pair p file_name count :: l2) := by
  by_cases h : ∀ p ∈ dic, p.key ≠ some word
  · refine Or.inl ⟨h, ?_⟩
    simp only [insert_file_into_dictionary, (find_key_index_eq_none word dic).2 h]
    exact insert_new_entry_ok al hal dic word file_name count
  · right
    push_neg at h
    obtain ⟨p0, hp0, hk0⟩ := h
    obtain ⟨i, hi⟩ := List.mem_iff_getElem?.1 hp0
    obtain ⟨hf, l1, l2, hd, hl, h1, h2⟩ := find_key_index_of_get word dic i p0 hu hi hk0
    refine ⟨l1, p0, l2, hd, hk0, h1, h2, ?_⟩
    simp only [insert_file_into_dictionary, hf, hi, file_into_pair]
    by_cases hb : value_found file_name p0.values = true
    · simp only [hb, if_true]
      rw [← hd]
    · simp only [hb, append_value_ok al hal]
      rw [hd, ← hl, set_at_split]
      simp

/-- A call that returns 0 leaves the dictionary that a call without allocation
failure leaves. -/
theorem insert_word_rc_zero (al : Allocator) (dic : Dictionary) (file_name word : String)
    (h : (insert_word_into_dictionary al dic file_name word).1 = 0) :
    (insert_word_into_dictionary al dic file_name word).2 =
      (insert_word_into_dictionary Allocator.reliable dic file_name word).2 := by
  unfold insert_word_into_dictionary at h ⊢
  cases hf : find_key_index file_name dic 0 none with
  | none =>
    simp only [hf] at h ⊢
    unfold insert_new_entry at h ⊢
    cases h0 : al.ok 0 <;> cases h1 : al.ok 1 <;> cases h2 : al.ok 2 <;> cases h3 : al.ok 3 <;>
      cases h4 : al.ok 4 <;> simp [h0, h1, h2, h3, h4, Allocator.reliable] at h ⊢
  | some i =>
    simp only [hf] at h ⊢
    cases hg : dic[i]? with
    | none => simp [hg] at h
    | some p =>
      simp only [hg] at h ⊢
      by_cases hb : (bump_matching_counts word p.values p.counts).1 = true
      · simp [hb]
      · simp only [hb] at h ⊢
        unfold append_value at h
        cases h0 : al.ok 0 <;> cases h1 : al.ok 1 <;> cases h2 : al.ok 2 <;>
          simp [h0, h1, h2] at h

theorem insert_file_rc_zero (al : Allocator) (dic : Dictionary) (word file_name : String)
    (count : Int) (h : (insert_file_into_dictionary al dic word file_name count).1 = 0) :
    (insert_file_into_dictionary al dic word file_name count).2 =
      (insert_file_into_dictionary Allocator.reliable dic word file_name count).2 := by
  unfold insert_file_into_dictionary at h ⊢
  cases hf : find_key_index word dic 0 none with
  | none =>
    simp only [hf] at h ⊢
    unfold insert_new_entry at h ⊢
    cases h0 : al.ok 0 <;> cases h1 : al.ok 1 <;> cases h2 : al.ok 2 <;> cases h3 : al.ok 3 <;>
      cases h4 : al.ok 4 <;> simp [h0, h1, h2, h3, h4, Allocator.reliable] at h ⊢
  | some i =>
    simp only [hf] at h ⊢
    cases hg : dic[i]? with
    | none => simp [hg] at h
    | some p =>
      simp only [hg] at h ⊢
      by_cases hb : value_found file_name p.values = true
      · simp [hb]
      · simp only [hb] at h ⊢
        unfold append_value at h ⊢
        cases h0 : al.ok 0 <;> cases h1 : al.ok 1 <;> cases h2 : al.ok 2 <;>
          simp [h0, h1, h2, Allocator.reliable] at h ⊢

/-! ## Preservation of the invariant -/

theorem good_of_invariant (dic : Dictionary) (hw : well_formed dic)
    (hi : dictionary_invariant dic) : ∀ p ∈ dic, p.good := by
  intro p hp
  exact ⟨hw p hp, hi.2.1 p hp, hi.2.2.1 p hp, hi.2.2.2 p hp⟩

theorem invariant_of_good (dic : Dictionary) (hu : unique_keys dic) (hg : ∀ p ∈ dic, p.good) :
    well_formed dic ∧ dictionary_invariant dic :=
  ⟨fun p hp => (hg p hp).1,
    hu, fun p hp => (hg p hp).2.1, fun p hp => (hg p hp).2.2.1, fun p hp => (hg p hp).2.2.2⟩

theorem bump_length (word : String) (vs : List (Option String)) (cs : List Int) :
    (bump_matching_counts word vs cs).2.length = cs.length := by
  induction vs generalizing cs with
  | nil => cases cs <;> rfl
  | cons v rest ih =>
    cases cs with
    | nil => rfl
    | cons c cs =>
      by_cases hv : strcmp_eq word v = true
      · simp [bump_matching_counts, hv, ih cs]
      · simp [bump_matching_counts, hv, ih cs]

theorem bump_bounded (word : String) (vs : List (Option String)) (cs : List Int) (n : Int)
    (hn : n < INT_MAX) (h : ∀ c ∈ cs, 1 ≤ c ∧ c ≤ n) :
    ∀ c ∈ (bump_matching_counts word vs cs).2, 1 ≤ c ∧ c ≤ n + 1 := by
  induction vs generalizing cs with
  | nil =>
    cases cs with
    | nil => simp [bump_matching_counts]
    | cons c0 cs =>
      intro c hc
      have := h c hc
      omega
  | cons v rest ih =>
    cases cs with
    | nil => simp [bump_matching_counts]
    | cons c0 cs =>
      have h0 := h c0 (List.mem_cons_self _ _)
      have hr := ih cs (fun c hc => h c (List.mem_cons_of_mem _ hc))
      have hs : to_int (c0 + 1) = c0 + 1 := by
        apply to_int_small
        · unfold INT_MIN; omega
        · omega
      intro c hc
      cases hv : strcmp_eq word v
      · simp only [bump_matching_counts, hv, List.mem_cons, Bool.false_eq_true, if_false] at hc
        rcases hc with hc | hc
        · omega
        · exact hr c hc
      · simp only [bump_matching_counts, hv, if_true, List.mem_cons] at hc
        rcases hc with hc | hc
        · omega
        · exact hr c hc

theorem word_into_pair_key (p : Pair) (word : String) : (word_into_pair p word).key = p.key := by
  unfold word_into_pair
  by_cases hb : (bump_matching_counts word p.values p.counts).1 = true <;> simp [hb]

theorem file_into_pair_key (p : Pair) (file_name : String) (count : Int) :
    (file_into_pair p file_name count).key = p.key := by
  unfold file_into_pair
  split <;> rfl

theorem word_into_pair_values (p : Pair) (word : String)
    (hl : p.counts.length = p.values.length) :
    (word_into_pair p word).values =
      if some word ∈ p.values then p.values else p.values ++ [some word] := by
  unfold word_into_pair
  by_cases hm : some word ∈ p.values
  · simp [(bump_found_iff word p.values p.counts hl).2 hm, hm]
  · have : ¬ (bump_matching_counts word p.values p.counts).1 = true :=
      fun e => hm ((bump_found_iff word p.values p.counts hl).1 e)
    simp [this, hm]

theorem file_into_pair_values (p : Pair) (file_name : String) (count : Int) :
    (file_into_pair p file_name count).values =
      if some file_name ∈ p.values then p.values else p.values ++ [some file_name] := by
  unfold file_into_pair
  by_cases hm : some file_name ∈ p.values
  · simp [(value_found_iff file_name p.values).2 hm, hm]
  · have : ¬ value_found file_name p.values = true :=
      fun e => hm ((value_found_iff file_name p.values).1 e)
    simp [this, hm]

theorem nodup_snoc {α : Type} (l : List α) (x : α) (hn : l.Nodup) (hx : x ∉ l) :
    (l ++ [x]).Nodup := by
  rw [List.nodup_append]
  refine ⟨hn, List.nodup_singleton x, ?_⟩
  intro a ha hb
  rw [List.mem_singleton] at hb
  exact hx (hb ▸ ha)

theorem good_sound (p : Pair) (h : p.good) : p.sound := ⟨h.1, h.2.1, h.2.2.1⟩

theorem word_into_pair_sound (p : Pair) (word : String) (h : p.sound) :
    (word_into_pair p word).sound := by
  obtain ⟨⟨hk, hn, hl⟩, hd, hne⟩ := h
  unfold word_into_pair
  by_cases hb : (bump_matching_counts word p.values p.counts).1 = true
  · simp only [hb, if_true]
    exact ⟨⟨hk, hn, by simp [bump_length, hl]⟩, hd, hne⟩
  · have hm : some word ∉ p.values := fun e => hb ((bump_found_iff word _ _ hl).2 e)
    simp only [hb]
    refine ⟨⟨hk, ?_, by simp [hl]⟩, nodup_snoc _ _ hd hm, by simp⟩
    simpa using hn

/-- Counts between 1 and `n` stay between 1 and `n + 1` as long as `n` is below
`INT_MAX`. -/
theorem word_into_pair_bounded (p : Pair) (word : String) (n : Int) (h0 : 0 ≤ n)
    (hn : n < INT_MAX) (h : ∀ c ∈ p.counts, 1 ≤ c ∧ c ≤ n) :
    ∀ c ∈ (word_into_pair p word).counts, 1 ≤ c ∧ c ≤ n + 1 := by
  unfold word_into_pair
  by_cases hb : (bump_matching_counts word p.values p.counts).1 = true
  · simp only [hb, if_true]
    exact bump_bounded word _ _ n hn h
  · simp only [hb]
    intro c hc
    rcases List.mem_append.1 hc with h1 | h1
    · have := h c h1
      omega
    · simp at h1
      omega

theorem file_into_pair_sound (p : Pair) (file_name : String) (count : Int) (h : p.sound) :
    (file_into_pair p file_name count).sound := by
  obtain ⟨⟨hk, hn, hl⟩, hd, hne⟩ := h
  unfold file_into_pair
  by_cases hb : value_found file_name p.values = true
  · simp only [hb, if_true]
    exact ⟨⟨hk, hn, hl⟩, hd, hne⟩
  · have hm : some file_name ∉ p.values := fun e => hb ((value_found_iff _ _).2 e)
    simp only [hb]
    refine ⟨⟨hk, ?_, by simp [hl]⟩, nodup_snoc _ _ hd hm, by simp⟩
    simpa using hn

theorem file_into_pair_good (p : Pair) (file_name : String) (count : Int) (h1 : 1 ≤ count)
    (h : p.good) : (file_into_pair p file_name count).good := by
  obtain ⟨⟨hk, hn, hl⟩, hd, hne, hc⟩ := h
  unfold file_into_pair
  by_cases hb : value_found file_name p.values = true
  · simp only [hb, if_true]
    exact ⟨⟨hk, hn, hl⟩, hd, hne, hc⟩
  · have hm : some file_name ∉ p.values := fun e => hb ((value_found_iff _ _).2 e)
    simp only [hb]
    refine ⟨⟨hk, ?_, by simp [hl]⟩, nodup_snoc _ _ hd hm, by simp, ?_⟩
    · simpa using hn
    · intro c hc2
      rcases List.mem_append.1 hc2 with h2 | h2
      · exact hc c h2
      · simp at h2; omega

theorem unique_keys_snoc (dic : Dictionary) (q : Pair) (key : String) (hq : q.key = some key)
    (hu : unique_keys dic) (ha : ∀ p ∈ dic, p.key ≠ some key) : unique_keys (dic ++ [q]) := by
  unfold unique_keys at hu ⊢
  rw [List.map_append]
  apply nodup_snoc _ _ hu
  intro hm
  obtain ⟨p, hp, he⟩ := List.mem_map.1 hm
  exact ha p hp (he.trans hq)

theorem unique_keys_replace (l1 l2 : List Pair) (p q : Pair) (hq : q.key = p.key)
    (hu : unique_keys (l1 ++ p :: l2)) : unique_keys (l1 ++ q :: l2) := by
  unfold unique_keys at hu ⊢
  simpa [hq] using hu

theorem forall_mem_replace (P : Pair → Prop) (l1 l2 : List Pair) (p q : Pair)
    (h : ∀ x ∈ l1 ++ p :: l2, P x) (hq : P q) : ∀ x ∈ l1 ++ q :: l2, P x := by
  intro x hx
  rcases List.mem_append.1 hx with h1 | h1
  · exact h x (List.mem_append_left _ h1)
  · rcases List.mem_cons.1 h1 with rfl | h2
    · exact hq
    · exact h x (List.mem_append_right _ (List.mem_cons_of_mem _ h2))

/-- The entries after a call of `insert_word_into_dictionary` without
allocation failure: the old ones, with the selected one rewritten, or the old
ones and a new one. -/
theorem insert_word_pairs (P Q : Pair → Prop) (al : Allocator) (hal : ∀ n, al.ok n = true)
    (dic : Dictionary) (file_name word : String) (hu : unique_keys dic)
    (hg : ∀ p ∈ dic, P p) (hmono : ∀ p, P p → Q p)
    (hnew : Q { key := some file_name, values := [some word], counts := [1] })
    (hstep : ∀ p, P p → Q (word_into_pair p word)) :
    unique_keys (insert_word_into_dictionary al dic file_name word).2 ∧
      ∀ p ∈ (insert_word_into_dictionary al dic file_name word).2, Q p := by
  rcases insert_word_shape al hal dic file_name word hu with ⟨ha, he⟩ | ⟨l1, p, l2, hd, hp, -, -, he⟩
  · rw [he]
    refine ⟨unique_keys_snoc dic _ file_name rfl hu ha, ?_⟩
    intro q hq
    rcases List.mem_append.1 hq with h1 | h1
    · exact hmono q (hg q h1)
    · simp at h1
      subst h1
      exact hnew
  · rw [he]
    subst hd
    exact ⟨unique_keys_replace l1 l2 p _ (word_into_pair_key p word) hu,
      forall_mem_replace Q l1 l2 p _ (fun x hx => hmono x (hg x hx))
        (hstep p (hg p (by simp)))⟩

/-- A call of `insert_word_into_dictionary` without allocation failure keeps
unique keys and sound entries. -/
theorem insert_word_sound (al : Allocator) (hal : ∀ n, al.ok n = true) (dic : Dictionary)
    (file_name word : String) (hu : unique_keys dic) (hg : ∀ p ∈ dic, p.sound) :
    unique_keys (insert_word_into_dictionary al dic file_name word).2 ∧
      ∀ p ∈ (insert_word_into_dictionary al dic file_name word).2, p.sound :=
  insert_word_pairs Pair.sound Pair.sound al hal dic file_name word hu hg (fun _ h => h)
    ⟨⟨by simp, by simp, by simp⟩, by simp, by simp⟩
    (fun p h => word_into_pair_sound p word h)

theorem insert_file_keeps (al : Allocator) (hal : ∀ n, al.ok n = true) (dic : Dictionary)
    (word file_name : String) (count : Int) (h1 : 1 ≤ count) (hu : unique_keys dic)
    (hg : ∀ p ∈ dic, p.good) :
    unique_keys (insert_file_into_dictionary al dic word file_name count).2 ∧
      ∀ p ∈ (insert_file_into_dictionary al dic word file_name count).2, p.good := by
  rcases insert_file_shape al hal dic word file_name count hu with
    ⟨ha, he⟩ | ⟨l1, p, l2, hd, hp, -, -, he⟩
  · rw [he]
    refine ⟨unique_keys_snoc dic _ word rfl hu ha, ?_⟩
    intro q hq
    rcases List.mem_append.1 hq with h2 | h2
    · exact hg q h2
    · simp at h2
      subst h2
      exact ⟨⟨by simp, by simp, by simp⟩, by simp, by simp, by simpa using h1⟩
  · rw [he]
    subst hd
    exact ⟨unique_keys_replace l1 l2 p _ (file_into_pair_key p file_name count) hu,
      forall_mem_replace Pair.good l1 l2 p _ hg
        (file_into_pair_good p file_name count h1 (hg p (by simp)))⟩

theorem insert_file_sound (al : Allocator) (hal : ∀ n, al.ok n = true) (dic : Dictionary)
    (word file_name : String) (count : Int) (hu : unique_keys dic) (hg : ∀ p ∈ dic, p.sound) :
    unique_keys (insert_file_into_dictionary al dic word file_name count).2 ∧
      ∀ p ∈ (insert_file_into_dictionary al dic word file_name count).2, p.sound := by
  rcases insert_file_shape al hal dic word file_name count hu with
    ⟨ha, he⟩ | ⟨l1, p, l2, hd, hp, -, -, he⟩
  · rw [he]
    refine ⟨unique_keys_snoc dic _ word rfl hu ha, ?_⟩
    intro q hq
    rcases List.mem_append.1 hq with h2 | h2
    · exact hg q h2
    · simp at h2
      subst h2
      exact ⟨⟨by simp, by simp, by simp⟩, by simp, by simp⟩
  · rw [he]
    subst hd
    exact ⟨unique_keys_replace l1 l2 p _ (file_into_pair_key p file_name count) hu,
      forall_mem_replace Pair.sound l1 l2 p _ hg
        (file_into_pair_sound p file_name count (hg p (by simp)))⟩

/-! ## Stored counts -/

/-- The count next to the first slot holding `value`, on the two arrays. -/
theorem count_of_def (p : Pair) (value : String) :
    p.count_of value =
      ((p.values.zip p.counts).find? (fun vc => vc.1 == some value)).map Prod.snd := rfl

theorem lookup_bump (word value : String) (vs : List (Option String)) (cs : List Int) :
    ((vs.zip (bump_matching_counts word vs cs).2).find? (fun vc => vc.1 == some value)).map
        Prod.snd =
      if value = word then
        (((vs.zip cs).find? (fun vc => vc.1 == some word)).map Prod.snd).map
          (fun c => to_int (c + 1))
      else ((vs.zip cs).find? (fun vc => vc.1 == some value)).map Prod.snd := by
  induction vs generalizing cs with
  | nil => cases cs <;> simp [bump_matching_counts]
  | cons v rest ih =>
    cases cs with
    | nil => simp [bump_matching_counts]
    | cons c cs =>
      by_cases hv : v = some word
      · subst hv
        by_cases hw : value = word
        · subst hw
          simp [bump_matching_counts, strcmp_eq, List.find?_cons]
        · have h1 : ¬ word = value := fun e => hw e.symm
          have := ih cs
          simp only [hw, if_false] at this
          simp [bump_matching_counts, strcmp_eq, List.find?_cons, hw, h1, this]
      · have h0 : ¬ some word = v := fun e => hv e.symm
        by_cases hw : value = word
        · subst hw
          have := ih cs
          simp only [if_true] at this
          simp [bump_matching_counts, strcmp_eq, List.find?_cons, hv, h0, this]
        · have := ih cs
          simp only [hw, if_false] at this
          by_cases hv2 : v = some value
          · simp [bump_matching_counts, strcmp_eq, List.find?_cons, hv, h0, hw, hv2]
          · simp [bump_matching_counts, strcmp_eq, List.find?_cons, hv, h0, hw, hv2, this]

theorem lookup_absent (value : String) (vs : List (Option String)) (cs : List Int)
    (h : some value ∉ vs) : (vs.zip cs).find? (fun vc => vc.1 == some value) = none := by
  rw [List.find?_eq_none]
  intro vc hvc
  have : vc.1 ∈ vs := (List.of_mem_zip (a := vc.1) (b := vc.2) hvc).1
  intro e
  simp at e
  exact h (e ▸ this)

theorem lookup_present (value : String) (vs : List (Option String)) (cs : List Int)
    (hl : cs.length = vs.length) (h : some value ∈ vs) :
    ∃ c, ((vs.zip cs).find? (fun vc => vc.1 == some value)).map Prod.snd = some c := by
  induction vs generalizing cs with
  | nil => simp at h
  | cons v rest ih =>
    cases cs with
    | nil => simp at hl
    | cons c cs =>
      by_cases hv : v = some value
      · exact ⟨c, by simp [List.find?_cons, hv]⟩
      · have hm : some value ∈ rest := by
          rcases List.mem_cons.1 h with e | e
          · exact absurd e.symm hv
          · exact e
        obtain ⟨c2, hc2⟩ := ih cs (by simpa using hl) hm
        exact ⟨c2, by simpa [List.find?_cons, hv] using hc2⟩

theorem word_into_pair_count (p : Pair) (word value : String)
    (hl : p.counts.length = p.values.length) :
    (word_into_pair p word).count_of value =
      if value = word then some (to_int ((p.count_of word).getD 0 + 1))
      else p.count_of value := by
  unfold word_into_pair
  by_cases hb : (bump_matching_counts word p.values p.counts).1 = true
  · have hm := (bump_found_iff word _ _ hl).1 hb
    obtain ⟨c, hc⟩ := lookup_present word p.values p.counts hl hm
    simp only [hb, if_true, count_of_def, lookup_bump]
    by_cases hw : value = word
    · simp [hw, hc]
    · simp [hw]
  · have hm : some word ∉ p.values := fun e => hb ((bump_found_iff word _ _ hl).2 e)
    have hz : (p.values ++ [some word]).zip (p.counts ++ [1]) =
        p.values.zip p.counts ++ [(some word, 1)] := by
      rw [List.zip_append hl.symm]; rfl
    simp only [hb, count_of_def, Bool.false_eq_true, if_false]
    rw [hz, List.find?_append]
    have h1i : to_int 1 = 1 := by decide
    by_cases hw : value = word
    · subst hw
      simp [lookup_absent value p.values p.counts hm, h1i]
    · have h1 : ¬ word = value := fun e => hw e.symm
      simp [hw, h1, List.find?_cons]

theorem find_key_none (key : String) (l : List Pair) (h : ∀ q ∈ l, q.key ≠ some key) :
    l.find? (fun p => p.key == some key) = none := by
  rw [List.find?_eq_none]
  intro q hq e
  simp at e
  exact h q hq e

theorem stored_count_at_split (l1 l2 : List Pair) (p : Pair) (key value : String)
    (hp : p.key = some key) (h1 : ∀ q ∈ l1, q.key ≠ some key) :
    stored_count (l1 ++ p :: l2) key value = p.count_of value := by
  simp [stored_count, List.find?_append, find_key_none key l1 h1, List.find?_cons, hp]

/-- The value loop keeps every count at least 1 when the count written next to
the word is below `INT_MAX`. -/
theorem bump_keeps_positive (word : String) (vs : List (Option String)) (cs : List Int)
    (hn : vs.Nodup) (h1 : ∀ c ∈ cs, 1 ≤ c)
    (hb : ∀ c, ((vs.zip cs).find? (fun vc => vc.1 == some word)).map Prod.snd = some c →
      c < INT_MAX) :
    ∀ c ∈ (bump_matching_counts word vs cs).2, 1 ≤ c := by
  induction vs generalizing cs with
  | nil =>
    cases cs with
    | nil => simp [bump_matching_counts]
    | cons c0 cs => exact h1
  | cons v rest ih =>
    cases cs with
    | nil => simp [bump_matching_counts]
    | cons c0 cs =>
      have h0 := h1 c0 (List.mem_cons_self _ _)
      rw [List.nodup_cons] at hn
      intro c hc
      cases hv : strcmp_eq word v
      · have hv2 : ¬ v = some word := by simpa [strcmp_eq] using hv
        have hr := ih cs hn.2 (fun c hc => h1 c (List.mem_cons_of_mem _ hc))
          (fun c hc => hb c (by simpa [List.zip_cons_cons, List.find?_cons, hv2] using hc))
        simp only [bump_matching_counts, hv, List.mem_cons, Bool.false_eq_true, if_false] at hc
        rcases hc with hc | hc
        · omega
        · exact hr c hc
      · have hv2 : v = some word := by simpa [strcmp_eq] using hv
        have hr := ih cs hn.2 (fun c hc => h1 c (List.mem_cons_of_mem _ hc))
          (fun c hc => by
            rw [lookup_absent word rest cs (hv2 ▸ hn.1)] at hc
            exact Option.noConfusion hc)
        have hlt := hb c0 (by simp [List.zip_cons_cons, List.find?_cons, hv2])
        have hs : to_int (c0 + 1) = c0 + 1 := by
          apply to_int_small
          · unfold INT_MIN; omega
          · omega
        simp only [bump_matching_counts, hv, if_true, List.mem_cons] at hc
        rcases hc with hc | hc
        · omega
        · exact hr c hc

theorem word_into_pair_good (p : Pair) (word : String) (h : p.good)
    (hb : ∀ c, p.count_of word = some c → c < INT_MAX) :
    (word_into_pair p word).good := by
  obtain ⟨hs1, hs2, hs3⟩ := word_into_pair_sound p word (good_sound p h)
  refine ⟨hs1, hs2, hs3, ?_⟩
  unfold word_into_pair
  by_cases hf : (bump_matching_counts word p.values p.counts).1 = true
  · simp only [hf, if_true]
    exact bump_keeps_positive word _ _ h.2.1 h.2.2.2 hb
  · simp only [hf]
    intro c hc
    rcases List.mem_append.1 hc with h1 | h1
    · exact h.2.2.2 c h1
    · simp at h1
      omega

/-- A call of `insert_word_into_dictionary` without allocation failure keeps
unique keys and good entries when the count of the pair inserted, if it is
there, is below `INT_MAX`. -/
theorem insert_word_keeps (al : Allocator) (hal : ∀ n, al.ok n = true) (dic : Dictionary)
    (file_name word : String) (hu : unique_keys dic) (hg : ∀ p ∈ dic, p.good)
    (hb : ∀ c, stored_count dic file_name word = some c → c < INT_MAX) :
    unique_keys (insert_word_into_dictionary al dic file_name word).2 ∧
      ∀ p ∈ (insert_word_into_dictionary al dic file_name word).2, p.good := by
  rcases insert_word_shape al hal dic file_name word hu with ⟨ha, he⟩ | ⟨l1, p, l2, hd, hp, hl1, -, he⟩
  · rw [he]
    refine ⟨unique_keys_snoc dic _ file_name rfl hu ha, ?_⟩
    intro q hq
    rcases List.mem_append.1 hq with h1 | h1
    · exact hg q h1
    · simp at h1
      subst h1
      exact ⟨⟨by simp, by simp, by simp⟩, by simp, by simp, by simp⟩
  · rw [he]
    subst hd
    rw [stored_count_at_split l1 l2 p file_name word hp hl1] at hb
    exact ⟨unique_keys_replace l1 l2 p _ (word_into_pair_key p word) hu,
      forall_mem_replace Pair.good l1 l2 p _ hg
        (word_into_pair_good p word (hg p (by simp)) hb)⟩

theorem stored_count_other_key (l1 l2 : List Pair) (p q : Pair) (key other value : String)
    (hp : p.key = some key) (hq : q.key = some key) (hne : other ≠ key) :
    stored_count (l1 ++ q :: l2) other value = stored_count (l1 ++ p :: l2) other value := by
  have h1 : ¬ key = other := fun e => hne e.symm
  simp [stored_count, List.find?_append, List.find?_cons, hp, hq, h1]

theorem stored_count_absent (dic : Dictionary) (key value : String)
    (h : ∀ q ∈ dic, q.key ≠ some key) : stored_count dic key value = none := by
  simp [stored_count, find_key_none key dic h]

theorem stored_count_snoc (dic : Dictionary) (q : Pair) (key other value : String)
    (hq : q.key = some key) (h : ∀ p ∈ dic, p.key ≠ some key) :
    stored_count (dic ++ [q]) other value =
      if other = key then q.count_of value else stored_count dic other value := by
  by_cases hk : other = key
  · subst hk
    simp [stored_count, List.find?_append, find_key_none other dic h, List.find?_cons, hq]
  · have h1 : ¬ key = other := fun e => hk e.symm
    simp [stored_count, List.find?_append, List.find?_cons, hq, hk, h1]

/-- One call of `insert_word_into_dictionary` without allocation failure
increments the count of its pair and leaves every other count. -/
theorem stored_count_insert_word (al : Allocator) (hal : ∀ n, al.ok n = true) (dic : Dictionary)
    (file_name word key value : String) (hu : unique_keys dic) (hg : ∀ p ∈ dic, p.sound) :
    stored_count (insert_word_into_dictionary al dic file_name word).2 key value =
      if key = file_name ∧ value = word then
        some (to_int ((stored_count dic file_name word).getD 0 + 1))
      else stored_count dic key value := by
  have h1i : to_int 1 = 1 := by decide
  rcases insert_word_shape al hal dic file_name word hu with ⟨ha, he⟩ | ⟨l1, p, l2, hd, hp, h1, -, he⟩
  · rw [he, stored_count_snoc dic _ file_name key value rfl ha]
    by_cases hk : key = file_name
    · subst hk
      by_cases hv : value = word
      · subst hv
        simp [stored_count_absent dic key value ha, count_of_def, List.find?_cons, h1i]
      · have h2 : ¬ word = value := fun e => hv e.symm
        simp [stored_count_absent dic key value ha, count_of_def, List.find?_cons, hv, h2]
    · simp [hk]
  · rw [he]
    subst hd
    have hl : p.counts.length = p.values.length := (hg p (by simp)).1.2.2
    by_cases hk : key = file_name
    · subst hk
      rw [stored_count_at_split l1 l2 _ key value ((word_into_pair_key p word).trans hp) h1,
        stored_count_at_split l1 l2 p key value hp h1,
        stored_count_at_split l1 l2 p key word hp h1, word_into_pair_count p word value hl]
      by_cases hv : value = word <;> simp [hv]
    · rw [stored_count_other_key l1 l2 p _ file_name key value hp
        ((word_into_pair_key p word).trans hp) hk]
      simp [hk]

/-! ## Runs of `insert_word_into_dictionary` from the empty dictionary -/

theorem insert_words_snoc (al : Allocator) (dic : Dictionary) (seq : List (String × String))
    (kv : String × String) :
    insert_words al dic (seq ++ [kv]) =
      (insert_word_into_dictionary al (insert_words al dic seq) kv.1 kv.2).2 := by
  simp [insert_words, List.foldl_append]

theorem insert_words_sound (al : Allocator) (hal : ∀ n, al.ok n = true)
    (seq : List (String × String)) :
    unique_keys (insert_words al [] seq) ∧ ∀ p ∈ insert_words al [] seq, p.sound := by
  induction seq using List.reverseRecOn with
  | nil => exact ⟨List.nodup_nil, by simp [insert_words]⟩
  | append_singleton seq kv ih =>
    rw [insert_words_snoc]
    exact insert_word_sound al hal _ kv.1 kv.2 ih.1 ih.2

/-- After at most `INT_MAX` insertions every count lies between 1 and the
number of insertions. -/
theorem insert_words_bounded (al : Allocator) (hal : ∀ n, al.ok n = true)
    (seq : List (String × String)) (hlen : (seq.length : Int) ≤ INT_MAX) :
    ∀ p ∈ insert_words al [] seq, ∀ c ∈ p.counts, 1 ≤ c ∧ c ≤ (seq.length : Int) := by
  induction seq using List.reverseRecOn with
  | nil => simp [insert_words]
  | append_singleton seq kv ih =>
    have hl : ((seq ++ [kv]).length : Int) = (seq.length : Int) + 1 := by simp
    rw [hl] at hlen ⊢
    rw [insert_words_snoc]
    refine (insert_word_pairs (fun p => ∀ c ∈ p.counts, 1 ≤ c ∧ c ≤ (seq.length : Int))
      (fun p => ∀ c ∈ p.counts, 1 ≤ c ∧ c ≤ (seq.length : Int) + 1) al hal _ kv.1 kv.2
      (insert_words_sound al hal seq).1 (ih (by omega)) ?_ ?_ ?_).2
    · intro p hp c hc
      have := hp c hc
      omega
    · intro c hc
      simp at hc
      omega
    · intro p hp
      exact word_into_pair_bounded p kv.2 _ (by omega) (by omega) hp

theorem insert_words_keeps (al : Allocator) (hal : ∀ n, al.ok n = true)
    (seq : List (String × String)) (hlen : (seq.length : Int) ≤ INT_MAX) :
    unique_keys (insert_words al [] seq) ∧ ∀ p ∈ insert_words al [] seq, p.good := by
  obtain ⟨hu, hs⟩ := insert_words_sound al hal seq
  refine ⟨hu, fun p hp => ⟨(hs p hp).1, (hs p hp).2.1, (hs p hp).2.2, ?_⟩⟩
  intro c hc
  exact (insert_words_bounded al hal seq hlen p hp c hc).1

/-- The count stored after a run of insertions: the number of occurrences of
the pair, as an `int`. -/
theorem stored_count_insert_words_int (al : Allocator) (hal : ∀ n, al.ok n = true)
    (seq : List (String × String)) (key value : String) :
    stored_count (insert_words al [] seq) key value =
      if seq.count (key, value) = 0 then none
      else some (to_int (seq.count (key, value) : Int)) := by
  induction seq using List.reverseRecOn generalizing key value with
  | nil => simp [insert_words, stored_count]
  | append_singleton seq kv ih =>
    obtain ⟨hu, hg⟩ := insert_words_sound al hal seq
    rw [insert_words_snoc, stored_count_insert_word al hal _ kv.1 kv.2 key value hu hg,
      List.count_append, List.count_singleton]
    by_cases hk : key = kv.1 ∧ value = kv.2
    · obtain ⟨h1, h2⟩ := hk
      subst h1 h2
      rw [ih]
      by_cases h0 : List.count (kv.1, kv.2) seq = 0
      · simp [h0]
      · simp [h0, to_int_succ]
    · have hne : ¬ (kv == (key, value)) = true := by
        intro e
        have e2 : kv = (key, value) := by simpa using e
        apply hk
        rw [e2]
        exact ⟨rfl, rfl⟩
      rw [if_neg hk, ih]
      simp [hne]

/-- Up to `INT_MAX` occurrences the stored count is the number of occurrences. -/
theorem stored_count_insert_words (al : Allocator) (hal : ∀ n, al.ok n = true)
    (seq : List (String × String)) (key value : String)
    (hc : (seq.count (key, value) : Int) ≤ INT_MAX) :
    stored_count (insert_words al [] seq) key value =
      if seq.count (key, value) = 0 then none else some (seq.count (key, value) : Int) := by
  rw [stored_count_insert_words_int al hal seq key value,
    to_int_small _ (by unfold INT_MIN; omega) hc]

theorem mem_first_seen {α : Type} [DecidableEq α] (l : List α) (x : α) :
    x ∈ first_seen l ↔ x ∈ l := by
  induction l with
  | nil => simp [first_seen]
  | cons y rest ih =>
    by_cases h : x = y
    · simp [first_seen, h]
    · simp [first_seen, h, ih, List.mem_filter]

theorem first_seen_nodup {α : Type} [DecidableEq α] (l : List α) : (first_seen l).Nodup := by
  induction l with
  | nil => simp [first_seen]
  | cons y rest ih =>
    simp only [first_seen, List.nodup_cons]
    exact ⟨by simp [List.mem_filter], ih.filter _⟩

theorem first_seen_snoc {α : Type} [DecidableEq α] (l : List α) (x : α) :
    first_seen (l ++ [x]) = if x ∈ l then first_seen l else first_seen l ++ [x] := by
  induction l with
  | nil => simp [first_seen]
  | cons y rest ih =>
    have hc : first_seen (y :: rest ++ [x]) =
        y :: (first_seen (rest ++ [x])).filter (fun z => z ≠ y) := rfl
    rw [hc, ih]
    simp only [first_seen]
    by_cases h1 : x ∈ rest
    · simp [h1]
    · by_cases h2 : x = y
      · subst h2
        simp [h1, List.filter_append]
      · simp [h1, h2, List.filter_append]

theorem mem_some_first_seen {α : Type} [DecidableEq α] (l : List α) (x : α) :
    some x ∈ (first_seen l).map some ↔ x ∈ l := by
  simp [mem_first_seen]

theorem keys_insert_word (al : Allocator) (hal : ∀ n, al.ok n = true) (dic : Dictionary)
    (file_name word : String) (hu : unique_keys dic) :
    (insert_word_into_dictionary al dic file_name word).2.map Pair.key =
      if some file_name ∈ dic.map Pair.key then dic.map Pair.key
      else dic.map Pair.key ++ [some file_name] := by
  rcases insert_word_shape al hal dic file_name word hu with ⟨ha, he⟩ | ⟨l1, p, l2, hd, hp, -, -, he⟩
  · have : some file_name ∉ dic.map Pair.key := by
      intro hm
      obtain ⟨q, hq, e⟩ := List.mem_map.1 hm
      exact ha q hq e
    rw [he, if_neg this]
    simp
  · have : some file_name ∈ dic.map Pair.key := by
      rw [hd]
      simp [hp]
    rw [he, if_pos this, hd]
    simp [word_into_pair_key]

theorem keys_insert_words (al : Allocator) (hal : ∀ n, al.ok n = true)
    (seq : List (String × String)) :
    (insert_words al [] seq).map Pair.key = (first_seen (seq.map Prod.fst)).map some := by
  induction seq using List.reverseRecOn with
  | nil => simp [insert_words, first_seen]
  | append_singleton seq kv ih =>
    obtain ⟨hu, -⟩ := insert_words_sound al hal seq
    rw [insert_words_snoc, keys_insert_word al hal _ kv.1 kv.2 hu, ih, List.map_append,
      List.map_singleton, first_seen_snoc]
    have hiff := mem_some_first_seen (List.map Prod.fst seq) kv.1
    by_cases hm : kv.1 ∈ List.map Prod.fst seq
    · rw [if_pos (hiff.2 hm), if_pos hm]
    · rw [if_neg (fun e => hm (hiff.1 e)), if_neg hm]
      simp

/-- The values inserted under `key`, in the order of the insertions. -/
theorem values_insert_words (al : Allocator) (hal : ∀ n, al.ok n = true)
    (seq : List (String × String)) (p : Pair) (key : String)
    (hp : p ∈ insert_words al [] seq) (hk : p.key = some key) :
    p.values =
      (first_seen ((seq.filter (fun kv => kv.1 = key)).map Prod.snd)).map some := by
  induction seq using List.reverseRecOn generalizing p key with
  | nil => simp [insert_words] at hp
  | append_singleton seq kv ih =>
    obtain ⟨hu, hg⟩ := insert_words_sound al hal seq
    have hkeys := keys_insert_words al hal seq
    rw [insert_words_snoc] at hp
    rcases insert_word_shape al hal _ kv.1 kv.2 hu with
      ⟨ha, he⟩ | ⟨l1, q, l2, hd, hq, h1, h2, he⟩
    · rw [he] at hp
      rcases List.mem_append.1 hp with hm | hm
      · have hne : ¬ kv.1 = key := by
          intro e
          exact ha p hm (e ▸ hk)
        rw [List.filter_append]
        simp [hne, ih p key hm hk]
      · simp at hm
        subst hm
        have hke : kv.1 = key := by simpa using hk
        subst hke
        have hnone : seq.filter (fun x => x.1 = kv.1) = [] := by
          rw [List.filter_eq_nil_iff]
          intro x hx e
          have e2 : x.1 = kv.1 := by simpa using e
          have hin : some kv.1 ∈ (insert_words al [] seq).map Pair.key := by
            rw [hkeys]
            apply List.mem_map_of_mem
            rw [mem_first_seen, ← e2]
            exact List.mem_map_of_mem _ hx
          obtain ⟨r, hr, er⟩ := List.mem_map.1 hin
          exact ha r hr er
        rw [List.filter_append, hnone]
        simp [first_seen]
    · rw [he] at hp
      have hqmem : q ∈ insert_words al [] seq := by rw [hd]; simp
      rcases List.mem_append.1 hp with hm | hm
      · have hpm : p ∈ insert_words al [] seq := by rw [hd]; simp [hm]
        have hne : ¬ kv.1 = key := fun e => h1 p hm (e ▸ hk)
        rw [List.filter_append]
        simp [hne, ih p key hpm hk]
      · rcases List.mem_cons.1 hm with hm | hm
        · subst hm
          have hke : kv.1 = key := by
            rw [word_into_pair_key, hq] at hk
            simpa using hk
          subst hke
          have hl : q.counts.length = q.values.length := (hg q hqmem).1.2.2
          have hqv := ih q kv.1 hqmem hq
          rw [word_into_pair_values q kv.2 hl, List.filter_append, List.map_append]
          have hfil : List.filter (fun x => decide (x.1 = kv.1)) [kv] = [kv] := by simp
          rw [hfil, List.map_singleton, first_seen_snoc, hqv]
          have hiff := mem_some_first_seen
            (List.map Prod.snd (List.filter (fun x => decide (x.1 = kv.1)) seq)) kv.2
          by_cases hin :
              kv.2 ∈ List.map Prod.snd (List.filter (fun x => decide (x.1 = kv.1)) seq)
          · rw [if_pos (hiff.2 hin), if_pos hin]
          · rw [if_neg (fun e => hin (hiff.1 e)), if_neg hin]
            simp
        · have hpm : p ∈ insert_words al [] seq := by rw [hd]; simp [hm]
          have hne : ¬ kv.1 = key := fun e => h2 p hm (e ▸ hk)
          rw [List.filter_append]
          simp [hne, ih p key hpm hk]

/-! ## One call of `insert_file_into_dictionary` -/

theorem insert_file_existing (al : Allocator) (dic : Dictionary) (word file_name : String)
    (count : Int) (hu : unique_keys dic)
    (h : ∃ p ∈ dic, p.key = some word ∧ some file_name ∈ p.values) :
    insert_file_into_dictionary al dic word file_name count = (0, dic) := by
  obtain ⟨p, hp, hk, hv⟩ := h
  obtain ⟨i, hi⟩ := List.mem_iff_getElem?.1 hp
  simp only [insert_file_into_dictionary, (find_key_index_of_get word dic i p hu hi hk).1, hi,
    (value_found_iff file_name p.values).2 hv, if_true]

theorem file_into_pair_count (p : Pair) (file_name : String) (count : Int)
    (hl : p.counts.length = p.values.length) (hv : some file_name ∉ p.values) :
    (file_into_pair p file_name count).count_of file_name = some count := by
  have hb : ¬ value_found file_name p.values = true :=
    fun e => hv ((value_found_iff _ _).1 e)
  have hz : (p.values ++ [some file_name]).zip (p.counts ++ [count]) =
      p.values.zip p.counts ++ [(some file_name, count)] := by
    rw [List.zip_append hl.symm]; rfl
  unfold file_into_pair
  simp only [hb, count_of_def, Bool.false_eq_true, if_false]
  rw [hz, List.find?_append, lookup_absent file_name p.values p.counts hv]
  simp

/-- Inserting a pair that is not there (no allocation failure) stores it with
the given count, keeps the keys unique, and makes the pair present. -/
theorem insert_file_fresh (al : Allocator) (hal : ∀ n, al.ok n = true) (dic : Dictionary)
    (word file_name : String) (count : Int) (hu : unique_keys dic) (hw : well_formed dic)
    (h : ∀ p ∈ dic, p.key = some word → some file_name ∉ p.values) :
    stored_count (insert_file_into_dictionary al dic word file_name count).2 word file_name =
        some count ∧
      unique_keys (insert_file_into_dictionary al dic word file_name count).2 ∧
      ∃ p ∈ (insert_file_into_dictionary al dic word file_name count).2,
        p.key = some word ∧ some file_name ∈ p.values := by
  rcases insert_file_shape al hal dic word file_name count hu with
    ⟨ha, he⟩ | ⟨l1, p, l2, hd, hp, h1, -, he⟩
  · rw [he]
    refine ⟨?_, unique_keys_snoc dic _ word rfl hu ha,
      ⟨{ key := some word, values := [some file_name], counts := [count] }, by simp, rfl,
        by simp⟩⟩
    rw [stored_count_snoc dic _ word word file_name rfl ha]
    simp [count_of_def]
  · rw [he]
    subst hd
    have hpm : p ∈ l1 ++ p :: l2 := by simp
    have hv : some file_name ∉ p.values := h p hpm hp
    have hk2 := (file_into_pair_key p file_name count).trans hp
    refine ⟨?_, unique_keys_replace l1 l2 p _ (file_into_pair_key p file_name count) hu,
      ⟨file_into_pair p file_name count, by simp, hk2, ?_⟩⟩
    · rw [stored_count_at_split l1 l2 _ word file_name hk2 h1]
      exact file_into_pair_count p file_name count (hw p hpm).2.2 hv
    · rw [file_into_pair_values, if_neg hv]
      simp

/-! ## The bounds sent in the reduce phase -/

theorem to_char_add (sg : Bool) (x y : Int) :
    to_char sg (to_char sg x + y) = to_char sg (x + y) := by
  cases sg <;> simp only [to_char, if_true, Bool.false_eq_true, if_false] <;> omega

theorem to_char_small (sg : Bool) (x : Int) (h0 : 0 ≤ x) (h1 : x ≤ 127) : to_char sg x = x := by
  cases sg <;> simp only [to_char, if_true, Bool.false_eq_true, if_false] <;> omega

theorem reduce_send_loop_length (sg : Bool) (step n i : Nat) (bounds : Int × Int) :
    (reduce_send_loop sg step n i bounds).length = n := by
  induction n generalizing i bounds with
  | zero => rfl
  | succ n ih => simp [reduce_send_loop, ih]

theorem reduce_send_loop_get (sg : Bool) (step n i : Nat) (bounds : Int × Int) (j : Nat)
    (m : BoundsMessage) (h : (reduce_send_loop sg step n i bounds)[j]? = some m) :
    m.dest = i + j + 1 ∧ m.tag = TAG_WORK ∧
      m.lo = to_char sg (bounds.2 + 1 + (j : Int) * step) ∧
      m.hi = to_char sg (bounds.2 + ((j : Int) + 1) * step) := by
  induction n generalizing i bounds j with
  | zero => simp [reduce_send_loop] at h
  | succ n ih =>
    cases j with
    | zero =>
      simp only [reduce_send_loop, List.getElem?_cons_zero, Option.some.injEq] at h
      subst h
      refine ⟨rfl, rfl, by simp, ?_⟩
      simp only [Nat.cast_zero, zero_add, one_mul]
      rw [sub_eq_add_neg, add_assoc, to_char_add]
      congr 1
      ring
    | succ j =>
      simp only [reduce_send_loop, List.getElem?_cons_succ] at h
      obtain ⟨h1, h2, h3, h4⟩ := ih (i + 1) _ j h
      refine ⟨by omega, h2, ?_, ?_⟩
      · rw [h3]
        simp only []
        rw [sub_eq_add_neg, add_assoc, to_char_add, add_assoc, add_assoc, to_char_add]
        congr 1
        push_cast
        ring
      · rw [h4]
        simp only []
        rw [sub_eq_add_neg, add_assoc, to_char_add, add_assoc, to_char_add]
        congr 1
        push_cast
        ring

/-- Closed form of the message for worker `i + 1`. -/
theorem master_reduce_phase_get (sg : Bool) (n i : Nat) (m : BoundsMessage)
    (h : (master_reduce_phase sg n)[i]? = some m) :
    i < n ∧ m.dest = i + 1 ∧ m.tag = TAG_WORK ∧
      m.lo = to_char sg (97 + (i : Int) * bounds_step n) ∧
      m.hi = to_char sg (96 + ((i : Int) + 1) * bounds_step n) := by
  have hlt : i < n := by
    have := (List.getElem?_eq_some.1 h).1
    rwa [master_reduce_phase, reduce_send_loop_length] at this
  obtain ⟨h1, h2, h3, h4⟩ := reduce_send_loop_get sg _ n 0 _ i m h
  have ha : (('a'.toNat : Int) - 1) = 96 := by decide
  simp only [ha] at h3 h4
  refine ⟨hlt, by omega, h2, ?_, h4⟩
  rw [h3]
  congr 1

theorem master_reduce_phase_length (sg : Bool) (n : Nat) :
    (master_reduce_phase sg n).length = n := by
  simp [master_reduce_phase, reduce_send_loop_length]

theorem alphabet_size : ENGLISH_ALPHABET_SIZE = 26 := by decide

theorem bounds_step_ceil (n : Nat) (hn : 1 ≤ n) :
    bounds_step n = ⌈(ENGLISH_ALPHABET_SIZE : ℚ) / n⌉₊ := by
  have hpos : (0 : ℚ) < n := by exact_mod_cast hn
  have hdm : n * (26 / n) + 26 % n = 26 := Nat.div_add_mod 26 n
  have hml : 26 % n < n := Nat.mod_lt 26 hn
  symm
  rw [alphabet_size]
  unfold bounds_step
  rw [alphabet_size]
  generalize hq : 26 / n = q at hdm ⊢
  generalize hr : 26 % n = r at hdm hml ⊢
  by_cases h0 : r = 0
  · have hx : ¬ (0 ≠ r) := by simp [h0]
    rw [if_neg hx]
    have he : ((26 : ℕ) : ℚ) / n = ((q : ℕ) : ℚ) := by
      rw [eq_comm, eq_div_iff hpos.ne.symm]
      have : q * n = 26 := by rw [h0, Nat.add_zero, Nat.mul_comm] at hdm; exact hdm
      exact_mod_cast this
    rw [he, Nat.ceil_natCast]
  · have hx : 0 ≠ r := fun e => h0 e.symm
    rw [if_pos hx, Nat.ceil_eq_iff (Nat.succ_ne_zero q)]
    have hnq : n * q = q * n := Nat.mul_comm n q
    constructor
    · rw [lt_div_iff₀ hpos]
      have : (q + 1 - 1) * n < 26 := by
        rw [Nat.add_sub_cancel]
        omega
      exact_mod_cast this
    · rw [div_le_iff₀ hpos]
      have : 26 ≤ (q + 1) * n := by
        rw [Nat.add_mul, Nat.one_mul]
        omega
      exact_mod_cast this

/-! ## The claims on the dictionary -/

/-- Claim C3: after any sequence of `insert_word_into_dictionary` calls on the
empty dictionary (no allocation failure) the keys of the entries are the
distinct keys of the sequence in the order of their first occurrence, and the
values of the entry of a key are the distinct values inserted under that key
in the order of their first occurrence; nothing is sorted. -/
theorem insert_words_first_seen_order (al : Allocator) (hal : ∀ n, al.ok n = true)
    (seq : List (String × String)) :
    (insert_words al [] seq).map Pair.key = (first_seen (seq.map Prod.fst)).map some ∧
      ∀ p ∈ insert_words al [] seq, ∀ key, p.key = some key →
        p.values =
          (first_seen ((seq.filter (fun kv => kv.1 = key)).map Prod.snd)).map some :=
  ⟨keys_insert_words al hal seq, fun p hp key hk => values_insert_words al hal seq p key hp hk⟩

theorem insert_words_first_seen_order_witness :
    (insert_words Allocator.reliable [] [("g", "z"), ("f", "b"), ("g", "a"), ("g", "z")]).map
        Pair.key = [some "g", some "f"] ∧
      insert_words Allocator.reliable [] [("g", "z"), ("f", "b"), ("g", "a"), ("g", "z")] =
        [⟨some "g", [some "z", some "a"], [2, 1]⟩, ⟨some "f", [some "b"], [1]⟩] :=
  ⟨(insert_words_first_seen_order Allocator.reliable (fun _ => rfl)
      [("g", "z"), ("f", "b"), ("g", "a"), ("g", "z")]).1.trans (by decide), by decide⟩

/-- Claim C4, where it fails: after `2 ^ 31` insertions of the same pair the
stored count is `INT_MIN`, not the number of occurrences. -/
theorem insert_words_count_wraps :
    (List.replicate 2147483648 ("f", "w")).count ("f", "w") = 2147483648 ∧
      stored_count (insert_words Allocator.reliable [] (List.replicate 2147483648 ("f", "w")))
        "f" "w" = some (-2147483648) := by
  refine ⟨List.count_replicate_self _ _, ?_⟩
  rw [stored_count_insert_words_int Allocator.reliable (fun _ => rfl),
    List.count_replicate_self]
  decide

/-- Claim C4, amended: two sequences of insertions that are permutations of one
another, applied with `insert_word_into_dictionary` to the empty dictionary (no
allocation failure), store the same count for every `(key, value)`; for a pair
that occurs at most `INT_MAX` times this is the number of occurrences of the
pair in the sequence (nothing is stored for a pair that does not occur). -/
theorem insert_words_counts_commute (al : Allocator) (hal : ∀ n, al.ok n = true)
    (seq1 seq2 : List (String × String)) (hperm : seq1.Perm seq2) (key value : String) :
    stored_count (insert_words al [] seq1) key value =
        stored_count (insert_words al [] seq2) key value ∧
      ((seq1.count (key, value) : Int) ≤ INT_MAX →
        stored_count (insert_words al [] seq1) key value =
          if seq1.count (key, value) = 0 then none
          else some (seq1.count (key, value) : Int)) := by
  refine ⟨?_, stored_count_insert_words al hal seq1 key value⟩
  have hcount : seq1.count (key, value) = seq2.count (key, value) := by
    simp only [List.count]
    exact hperm.countP_eq _
  rw [stored_count_insert_words_int al hal seq1, stored_count_insert_words_int al hal seq2,
    hcount]

theorem insert_words_counts_commute_witness :
    [("f", "a"), ("g", "b"), ("f", "a")].Perm [("g", "b"), ("f", "a"), ("f", "a")] ∧
      stored_count (insert_words Allocator.reliable [] [("f", "a"), ("g", "b"), ("f", "a")])
          "f" "a" =
        stored_count (insert_words Allocator.reliable [] [("g", "b"), ("f", "a"), ("f", "a")])
          "f" "a" ∧
      insert_words Allocator.reliable [] [("f", "a"), ("g", "b"), ("f", "a")] ≠
        insert_words Allocator.reliable [] [("g", "b"), ("f", "a"), ("f", "a")] ∧
      stored_count (insert_words Allocator.reliable [] [("f", "a"), ("g", "b"), ("f", "a")])
          "f" "a" = some 2 :=
  ⟨by decide,
    (insert_words_counts_commute Allocator.reliable (fun _ => rfl)
      [("f", "a"), ("g", "b"), ("f", "a")] [("g", "b"), ("f", "a"), ("f", "a")]
      (by decide) "f" "a").1, by decide,
    ((insert_words_counts_commute Allocator.reliable (fun _ => rfl)
      [("f", "a"), ("g", "b"), ("f", "a")] [("g", "b"), ("f", "a"), ("f", "a")]
      (by decide) "f" "a").2 (by decide)).trans (by decide)⟩

/-- Claim C5, evaluated where it fails: on the dictionary `f ↦ [(a, 1)]` the
call `insert_word_into_dictionary(dic, "f", "b")` with every allocation
succeeding appends `(b, 1)` and returns `-1`, not 0; the same existing-key,
new-value call of `insert_file_into_dictionary` returns 0, and so do the other
two cases of `insert_word_into_dictionary`. -/
theorem insert_word_new_value_returns_error :
    insert_word_into_dictionary Allocator.reliable [⟨some "f", [some "a"], [1]⟩] "f" "b" =
        (-1, [⟨some "f", [some "a", some "b"], [1, 1]⟩]) ∧
      insert_file_into_dictionary Allocator.reliable [⟨some "f", [some "a"], [1]⟩] "f" "b" 1 =
        (0, [⟨some "f", [some "a", some "b"], [1, 1]⟩]) ∧
      insert_word_into_dictionary Allocator.reliable [⟨some "f", [some "a"], [1]⟩] "g" "b" =
        (0, [⟨some "f", [some "a"], [1]⟩, ⟨some "g", [some "b"], [1]⟩]) ∧
      insert_word_into_dictionary Allocator.reliable [⟨some "f", [some "a"], [1]⟩] "f" "a" =
        (0, [⟨some "f", [some "a"], [2]⟩]) := by
  decide

/-- Claim C6, evaluated where it fails: when `realloc` of `elements` succeeds
and the `calloc` of the key fails, `insert_word_into_dictionary` on the empty
dictionary returns `-1` and leaves `elements_length = 1` with an entry whose
key is `NULL`; when the last `calloc` fails in `insert_file_into_dictionary`
on `w ↦ [(a.txt, 3)]`, the call returns `-1` and leaves `values_length = 2`
with a `NULL` value and an uninitialised count.  Only a failure of the first
`realloc` leaves the dictionary as it was. -/
theorem insert_leaves_partial_entry :
    insert_word_into_dictionary ⟨fun n => decide (n ≠ 1), 7⟩ [] "f" "w" =
        (-1, [⟨none, [], []⟩]) ∧
      elements_length
          (insert_word_into_dictionary ⟨fun n => decide (n ≠ 1), 7⟩ [] "f" "w").2 = 1 ∧
      insert_file_into_dictionary ⟨fun n => decide (n ≠ 2), 7⟩
          [⟨some "w", [some "a.txt"], [3]⟩] "w" "b.txt" 5 =
        (-1, [⟨some "w", [some "a.txt", none], [3, 7]⟩]) ∧
      (insert_file_into_dictionary ⟨fun n => decide (n ≠ 2), 7⟩
          [⟨some "w", [some "a.txt"], [3]⟩] "w" "b.txt" 5).2.map Pair.values_length = [2] ∧
      insert_word_into_dictionary ⟨fun n => decide (n ≠ 0), 7⟩ [] "f" "w" = (-1, []) := by
  decide

/-- Claim C7, where it fails: the dictionary `f ↦ [(a, INT_MAX)]` has the
invariant; the call `insert_word_into_dictionary(dic, "f", "a")` returns 0 and
leaves the count `INT_MIN`, which is not at least 1. -/
theorem insert_word_breaks_invariant :
    well_formed [⟨some "f", [some "a"], [2147483647]⟩] ∧
      dictionary_invariant [⟨some "f", [some "a"], [2147483647]⟩] ∧
      (insert_word_into_dictionary Allocator.reliable [⟨some "f", [some "a"], [2147483647]⟩]
          "f" "a").1 = 0 ∧
      ¬ dictionary_invariant
        (insert_word_into_dictionary Allocator.reliable [⟨some "f", [some "a"], [2147483647]⟩]
          "f" "a").2 := by
  decide

/-- Claim C7, amended: the invariant (unique keys, unique values per entry, at
least one pair per entry, every count at least 1) holds for the empty
dictionary, and on a well-formed dictionary it is kept, together with
well-formedness, by every `insert_word_into_dictionary` call that returns 0 or
in which no allocation fails, when the count of the pair inserted, if the pair
is there, is below `INT_MAX`, and by every `insert_file_into_dictionary` call
that returns 0 with a count argument of at least 1. -/
theorem dictionary_invariant_preserved (al : Allocator) (dic : Dictionary)
    (key value : String) (count : Int) (hw : well_formed dic) (hi : dictionary_invariant dic) :
    dictionary_invariant [] ∧
    ((∀ c, stored_count dic key value = some c → c < INT_MAX) →
      ((insert_word_into_dictionary al dic key value).1 = 0 ∨ ∀ n, al.ok n = true) →
        well_formed (insert_word_into_dictionary al dic key value).2 ∧
          dictionary_invariant (insert_word_into_dictionary al dic key value).2) ∧
    (1 ≤ count → (insert_file_into_dictionary al dic key value count).1 = 0 →
        well_formed (insert_file_into_dictionary al dic key value count).2 ∧
          dictionary_invariant (insert_file_into_dictionary al dic key value count).2) := by
  have hg := good_of_invariant dic hw hi
  refine ⟨⟨List.nodup_nil, by simp [unique_values], by simp, by simp⟩, ?_, ?_⟩
  · rintro hb (h | h)
    · rw [insert_word_rc_zero al dic key value h]
      obtain ⟨h1, h2⟩ :=
        insert_word_keeps Allocator.reliable (fun _ => rfl) dic key value hi.1 hg hb
      exact invariant_of_good _ h1 h2
    · obtain ⟨h1, h2⟩ := insert_word_keeps al h dic key value hi.1 hg hb
      exact invariant_of_good _ h1 h2
  · intro hc h
    rw [insert_file_rc_zero al dic key value count h]
    obtain ⟨h1, h2⟩ :=
      insert_file_keeps Allocator.reliable (fun _ => rfl) dic key value count hc hi.1 hg
    exact invariant_of_good _ h1 h2

theorem dictionary_invariant_preserved_witness :
    well_formed [⟨some "w", [some "a.txt"], [3]⟩, ⟨some "v", [some "a.txt"], [2147483647]⟩] ∧
      dictionary_invariant
        [⟨some "w", [some "a.txt"], [3]⟩, ⟨some "v", [some "a.txt"], [2147483647]⟩] ∧
      stored_count [⟨some "w", [some "a.txt"], [3]⟩, ⟨some "v", [some "a.txt"], [2147483647]⟩]
        "w" "a.txt" = some 3 ∧
      dictionary_invariant
        (insert_word_into_dictionary Allocator.reliable
          [⟨some "w", [some "a.txt"], [3]⟩, ⟨some "v", [some "a.txt"], [2147483647]⟩]
          "w" "a.txt").2 ∧
      dictionary_invariant
        (insert_file_into_dictionary Allocator.reliable
          [⟨some "w", [some "a.txt"], [3]⟩, ⟨some "v", [some "a.txt"], [2147483647]⟩]
          "w" "b.txt" 2).2 :=
  ⟨by decide, by decide, by decide,
    ((dictionary_invariant_preserved Allocator.reliable
      [⟨some "w", [some "a.txt"], [3]⟩, ⟨some "v", [some "a.txt"], [2147483647]⟩]
      "w" "a.txt" 2 (by decide) (by decide)).2.1
      (fun c hc => by
        have e : c = 3 := (Option.some.inj hc).symm
        rw [e]
        decide)
      (Or.inl (by decide))).2,
    ((dictionary_invariant_preserved Allocator.reliable
      [⟨some "w", [some "a.txt"], [3]⟩, ⟨some "v", [some "a.txt"], [2147483647]⟩]
      "w" "b.txt" 2 (by decide) (by decide)).2.2 (by decide) (by decide)).2⟩

/-! ## The claims on the reduce phase -/

theorem bounds_step_pos (n : Nat) (hn : 1 ≤ n) : 1 ≤ bounds_step n := by
  unfold bounds_step
  rw [alphabet_size]
  by_cases h : 0 ≠ 26 % n
  · rw [if_pos h]; exact Nat.succ_le_succ (Nat.zero_le _)
  · rw [if_neg h]
    have h0 : 26 % n = 0 := by
      by_contra hc
      exact h (fun e => hc e.symm)
    have hle : n ≤ 26 := Nat.le_of_dvd (by decide) (Nat.dvd_of_mod_eq_zero h0)
    exact Nat.div_pos hle hn

theorem master_reduce_phase_some (sg : Bool) (n i : Nat) (h : i < n) :
    ∃ m, (master_reduce_phase sg n)[i]? = some m := by
  have hl : i < (master_reduce_phase sg n).length := by
    rw [master_reduce_phase_length]; exact h
  exact ⟨_, List.getElem?_eq_getElem hl⟩

/-- Claim C8: for `N ≥ 1` workers, `bounds_step` is `ceil(26 / N)`, the master
sends exactly one bound pair to each worker `1 .. N` in rank order, the first
lower bound is `'a'`, every upper bound is `lo + step - 1` and every next lower
bound is the previous upper bound plus 1, both computed in `char`; as long as
the values fit a `char` (`96 + (i + 1) * step ≤ 127`) these are the plain
integers `97 + i * step` and `96 + (i + 1) * step`. -/
theorem master_reduce_phase_contiguous (sg : Bool) (n : Nat) (hn : 1 ≤ n) :
    bounds_step n = ⌈(ENGLISH_ALPHABET_SIZE : ℚ) / n⌉₊ ∧
    (master_reduce_phase sg n).length = n ∧
    ∀ i, i < n → ∃ m, (master_reduce_phase sg n)[i]? = some m ∧
      m.dest = i + 1 ∧ m.tag = TAG_WORK ∧
      (i = 0 → m.lo = ('a'.toNat : Int)) ∧
      m.hi = to_char sg (m.lo + bounds_step n - 1) ∧
      (∀ m2, (master_reduce_phase sg n)[i + 1]? = some m2 → m2.lo = to_char sg (m.hi + 1)) ∧
      (96 + ((i : Int) + 1) * bounds_step n ≤ 127 →
        m.lo = 97 + (i : Int) * bounds_step n ∧ m.hi = 96 + ((i : Int) + 1) * bounds_step n) := by
  refine ⟨bounds_step_ceil n hn, master_reduce_phase_length sg n, ?_⟩
  intro i hi
  obtain ⟨m, hm⟩ := master_reduce_phase_some sg n i hi
  obtain ⟨-, hd, ht, hlo, hhi⟩ := master_reduce_phase_get sg n i m hm
  have hstep : (1 : Int) ≤ bounds_step n := by exact_mod_cast bounds_step_pos n hn
  have hi0 : (0 : Int) ≤ (i : Int) * bounds_step n :=
    mul_nonneg (Int.natCast_nonneg _) (Int.natCast_nonneg _)
  refine ⟨m, hm, hd, ht, ?_, ?_, ?_, ?_⟩
  · intro h0
    subst h0
    rw [hlo]
    simp only [Nat.cast_zero, zero_mul, add_zero]
    cases sg <;> decide
  · rw [hhi, hlo, sub_eq_add_neg, add_assoc, to_char_add]
    congr 1
    ring
  · intro m2 hm2
    obtain ⟨-, -, -, hlo2, -⟩ := master_reduce_phase_get sg n (i + 1) m2 hm2
    rw [hlo2, hhi, to_char_add]
    congr 1
    push_cast
    ring
  · intro hfit
    have e : 96 + ((i : Int) + 1) * bounds_step n = 96 + (i : Int) * bounds_step n + bounds_step n := by
      ring
    rw [hlo, hhi, e]
    rw [e] at hfit
    exact ⟨to_char_small sg _ (by omega) (by omega), to_char_small sg _ (by omega) (by omega)⟩

theorem master_reduce_phase_contiguous_witness :
    1 ≤ 4 ∧ bounds_step 4 = 7 ∧
      master_reduce_phase true 4 =
        [⟨97, 103, 1, 0⟩, ⟨104, 110, 2, 0⟩, ⟨111, 117, 3, 0⟩, ⟨118, 124, 4, 0⟩] ∧
      (master_reduce_phase true 4).length = 4 :=
  ⟨by decide, by decide, by decide,
    (master_reduce_phase_contiguous true 4 (by decide)).2.1⟩

theorem divisors_of_alphabet (n : Nat) (hn : 1 ≤ n) (hdiv : ENGLISH_ALPHABET_SIZE % n = 0) :
    n = 1 ∨ n = 2 ∨ n = 13 ∨ n = 26 := by
  rw [alphabet_size] at hdiv
  have hle : n ≤ 26 := Nat.le_of_dvd (by decide) (Nat.dvd_of_mod_eq_zero hdiv)
  interval_cases n <;> simp at hdiv <;> simp

theorem tiling_closed_form (sg : Bool) (n step : Nat) (hs : bounds_step n = step)
    (hns : n * step = 26) (h1s : 1 ≤ step) (i : Nat) (m : BoundsMessage)
    (hm : (master_reduce_phase sg n)[i]? = some m) :
    i < n ∧ m.lo = 97 + (i : Int) * step ∧ m.hi = 96 + ((i : Int) + 1) * step := by
  obtain ⟨hlt, -, -, hlo, hhi⟩ := master_reduce_phase_get sg n i m hm
  rw [hs] at hlo hhi
  have h1 : (i + 1) * step ≤ n * step := Nat.mul_le_mul_right _ hlt
  have h2 : (((i + 1) * step : Nat) : Int) ≤ 26 := by
    rw [hns] at h1
    exact_mod_cast h1
  have h3 : ((i : Int) + 1) * step = (i : Int) * step + step := by ring
  have h4 : (0 : Int) ≤ (i : Int) * step := mul_nonneg (Int.natCast_nonneg _) (Int.natCast_nonneg _)
  have h5 : (1 : Int) ≤ step := by exact_mod_cast h1s
  push_cast at h2
  rw [h3] at h2
  refine ⟨hlt, ?_, ?_⟩
  · rw [hlo]
    exact to_char_small sg _ (by omega) (by omega)
  · rw [hhi, h3]
    exact to_char_small sg _ (by omega) (by omega)

theorem ranges_apart (step i j : Nat) (c : Int) (hij : i < j)
    (h1 : c ≤ 96 + ((i : Int) + 1) * step) (h2 : 97 + (j : Int) * step ≤ c) : False := by
  have h : (i + 1) * step ≤ j * step := Nat.mul_le_mul_right _ hij
  have h3 : (((i + 1) * step : Nat) : Int) ≤ ((j * step : Nat) : Int) := by exact_mod_cast h
  push_cast at h3
  omega

/-- Claim C9: when 26 is divisible by the number of workers `N ≥ 1` (so `N` is
1, 2, 13 or 26), the last upper bound sent by `master_reduce_phase` is `'z'`,
a character lies in some range exactly when it is one of `'a' .. 'z'`, and no
character lies in the ranges of two different workers. -/
theorem master_reduce_phase_exact_tiling (sg : Bool) (n : Nat) (hn : 1 ≤ n)
    (hdiv : ENGLISH_ALPHABET_SIZE % n = 0) :
    (n = 1 ∨ n = 2 ∨ n = 13 ∨ n = 26) ∧
    (∃ m, (master_reduce_phase sg n)[n - 1]? = some m ∧ m.hi = ('z'.toNat : Int)) ∧
    (∀ c : Int, (∃ m ∈ master_reduce_phase sg n, m.lo ≤ c ∧ c ≤ m.hi) ↔
        (('a'.toNat : Int) ≤ c ∧ c ≤ ('z'.toNat : Int))) ∧
    ∀ (i j : Nat) (mi mj : BoundsMessage) (c : Int), (master_reduce_phase sg n)[i]? = some mi →
      (master_reduce_phase sg n)[j]? = some mj →
      mi.lo ≤ c → c ≤ mi.hi → mj.lo ≤ c → c ≤ mj.hi → i = j := by
  have hd26 : 26 % n = 0 := by rw [alphabet_size] at hdiv; exact hdiv
  have hs : bounds_step n = 26 / n := by
    unfold bounds_step
    rw [alphabet_size, if_neg (by simp [hd26])]
  have hns : n * (26 / n) = 26 := Nat.mul_div_cancel' (Nat.dvd_of_mod_eq_zero hd26)
  have h1s : 1 ≤ 26 / n := by rw [← hs]; exact bounds_step_pos n hn
  have hcf := tiling_closed_form sg n (26 / n) hs hns h1s
  have ha : (('a'.toNat : Nat) : Int) = 97 := by decide
  have hz : (('z'.toNat : Nat) : Int) = 122 := by decide
  have hnsz : ((n : Int)) * ((26 / n : Nat) : Int) = 26 := by exact_mod_cast hns
  rw [ha, hz]
  generalize 26 / n = step at hs hns h1s hcf hnsz
  refine ⟨divisors_of_alphabet n hn hdiv, ?_, ?_, ?_⟩
  · obtain ⟨m, hm⟩ := master_reduce_phase_some sg n (n - 1) (by omega)
    obtain ⟨-, -, hhi⟩ := hcf (n - 1) m hm
    refine ⟨m, hm, ?_⟩
    have e : (((n - 1 : Nat) : Int) + 1) = (n : Int) := by omega
    rw [hhi, e, hnsz]
    rfl
  · intro c
    constructor
    · rintro ⟨m, hm, h1, h2⟩
      obtain ⟨i, hi⟩ := List.mem_iff_getElem?.1 hm
      obtain ⟨hlt, hlo, hhi⟩ := hcf i m hi
      have h3 : (i + 1) * step ≤ n * step := Nat.mul_le_mul_right _ hlt
      have h4 : (((i + 1) * step : Nat) : Int) ≤ 26 := by
        rw [hns] at h3
        exact_mod_cast h3
      have h5 : (0 : Int) ≤ (i : Int) * step :=
        mul_nonneg (Int.natCast_nonneg _) (Int.natCast_nonneg _)
      push_cast at h4
      omega
    · rintro ⟨h1, h2⟩
      obtain ⟨k, hk⟩ := Int.eq_ofNat_of_zero_le (show (0 : Int) ≤ c - 97 by omega)
      have hk26 : k < n * step := by rw [hns]; omega
      have hpos : 0 < step := h1s
      have hlt : k / step < n := by
        rw [Nat.div_lt_iff_lt_mul hpos]
        exact hk26
      have h3 : k / step * step ≤ k := Nat.div_mul_le_self k step
      have h4 : k < (k / step + 1) * step := by
        have := Nat.div_add_mod k step
        have hm2 := Nat.mod_lt k hpos
        rw [Nat.add_mul, Nat.one_mul, Nat.mul_comm]
        omega
      generalize k / step = q at hlt h3 h4
      obtain ⟨m, hm⟩ := master_reduce_phase_some sg n q hlt
      obtain ⟨-, hlo, hhi⟩ := hcf q m hm
      have h3z : (((q * step : Nat)) : Int) ≤ k := by exact_mod_cast h3
      have h4z : (k : Int) < (((q + 1) * step : Nat) : Int) := by exact_mod_cast h4
      push_cast at h3z h4z
      refine ⟨m, List.getElem?_mem hm, ?_, ?_⟩
      · rw [hlo]; omega
      · rw [hhi]; omega
  · intro i j mi mj c hi hj h1 h2 h3 h4
    obtain ⟨-, hloi, hhii⟩ := hcf i mi hi
    obtain ⟨-, hloj, hhij⟩ := hcf j mj hj
    rw [hloi] at h1
    rw [hhii] at h2
    rw [hloj] at h3
    rw [hhij] at h4
    rcases Nat.lt_trichotomy i j with h | h | h
    · exact (ranges_apart step i j c h h2 h3).elim
    · exact h
    · exact (ranges_apart step j i c h h4 h1).elim

theorem master_reduce_phase_exact_tiling_witness :
    1 ≤ 13 ∧ ENGLISH_ALPHABET_SIZE % 13 = 0 ∧
      ∃ m, (master_reduce_phase true 13)[13 - 1]? = some m ∧ m.hi = ('z'.toNat : Int) :=
  ⟨by decide, by decide,
    (master_reduce_phase_exact_tiling true 13 (by decide) (by decide)).2.1⟩

/-! ## The map phase when there is at least one regular file -/

theorem get_next_file_none (l l2 : List File) (h : get_next_file_from_dir l = (none, l2)) :
    regular_files l = [] ∧ l2 = [] := by
  induction l with
  | nil =>
    simp only [get_next_file_from_dir, Prod.mk.injEq, true_and] at h
    exact ⟨rfl, h.symm⟩
  | cons f rest ih =>
    by_cases hf : DT_REG = f.d_type
    · simp [get_next_file_from_dir, hf] at h
    · simp only [get_next_file_from_dir, hf, if_false] at h
      obtain ⟨h1, h2⟩ := ih h
      exact ⟨by simp [regular_files, hf, List.filter_cons] at h1 ⊢; exact h1, h2⟩

theorem get_next_file_some (l l2 : List File) (f : File)
    (h : get_next_file_from_dir l = (some f, l2)) :
    DT_REG = f.d_type ∧ regular_files l = f :: regular_files l2 := by
  induction l with
  | nil => simp [get_next_file_from_dir] at h
  | cons g rest ih =>
    by_cases hg : DT_REG = g.d_type
    · simp only [get_next_file_from_dir, hg, if_true, Prod.mk.injEq, Option.some.injEq] at h
      obtain ⟨h1, h2⟩ := h
      subst h1 h2
      exact ⟨hg, by simp [regular_files, hg, List.filter_cons]⟩
    · simp only [get_next_file_from_dir, hg, if_false] at h
      obtain ⟨h1, h2⟩ := ih h
      exact ⟨h1, by simpa [regular_files, hg, List.filter_cons] using h2⟩

/-- After the first loop: the counter grew by the number of files handed out,
which is the number of notices in flight that were added, nothing was received,
and files are left only if every worker got one. -/
theorem map_first_round_state (path : String) (n i : Nat) (st : MapState) :
    (map_first_round path n i st).files_count =
        st.files_count + (min n (regular_files st.dir).length : Nat) ∧
      (map_first_round path n i st).in_flight.length =
        st.in_flight.length + min n (regular_files st.dir).length ∧
      (regular_files (map_first_round path n i st).dir).length =
        (regular_files st.dir).length - min n (regular_files st.dir).length ∧
      (map_first_round path n i st).received = st.received := by
  induction n generalizing i st with
  | zero => simp [map_first_round]
  | succ n ih =>
    cases hg : get_next_file_from_dir st.dir with
    | mk o l2 =>
      cases o with
      | none =>
        obtain ⟨h1, h2⟩ := get_next_file_none _ _ hg
        subst h2
        simp only [map_first_round, hg]
        obtain ⟨a, b, c, d⟩ := ih (i + 1)
          { st with dir := [], sent := st.sent ++ [⟨INVALID_FILE, i + 1, TAG_SLEEP⟩] }
        have hr : regular_files ([] : List File) = [] := rfl
        dsimp only at a b c d
        rw [hr] at a b c
        rw [a, b, c, d, h1]
        simp
      | some f =>
        obtain ⟨h1, h2⟩ := get_next_file_some _ _ f hg
        simp only [map_first_round, hg]
        obtain ⟨a, b, c, d⟩ := ih (i + 1)
          { st with
            dir := l2
            sent := st.sent ++ [⟨input_file_path path f.d_name, i + 1, TAG_WORK⟩]
            in_flight := st.in_flight ++ [(i + 1, input_file_path path f.d_name)]
            files_count := st.files_count + 1 }
        dsimp only at a b c d
        rw [List.length_append, List.length_singleton] at b
        rw [a, b, c, d, h2, List.length_cons, Nat.succ_min_succ]
        refine ⟨?_, ?_, ?_, rfl⟩
        · push_cast
          ring
        · omega
        · omega

/-- One pass of the reply loop started with the counter equal to the number of
notices in flight, at least one: the receive is matched, the counter stays
non-negative and equal to the number of notices in flight, one more notice has
been received, and the notices still to come are one fewer. -/
theorem map_reply_pass (path : String) (choice : Nat) (st : MapState)
    (hc : st.files_count = st.in_flight.length) (h1 : 1 ≤ st.in_flight.length) :
    ∃ st1, map_reply path choice st = some st1 ∧
      st1.files_count = st1.in_flight.length ∧
      st1.received.length = st.received.length + 1 ∧
      (regular_files st1.dir).length + st1.in_flight.length + 1 =
        (regular_files st.dir).length + st.in_flight.length ∧
      (st1.in_flight = [] → regular_files st1.dir = []) := by
  have hlt : choice % st.in_flight.length < st.in_flight.length := Nat.mod_lt _ h1
  have hget : st.in_flight[choice % st.in_flight.length]? =
      some (st.in_flight[choice % st.in_flight.length]) := List.getElem?_eq_getElem hlt
  have hlen : (st.in_flight.eraseIdx (choice % st.in_flight.length)).length =
      st.in_flight.length - 1 := List.length_eraseIdx_of_lt hlt
  cases hg : get_next_file_from_dir st.dir with
  | mk o l2 =>
    cases o with
    | none =>
      obtain ⟨h2, h3⟩ := get_next_file_none _ _ hg
      subst h3
      have hr : map_reply path choice st = some
          { dir := [], files_count := st.files_count - 1,
            sent := st.sent ++
              [⟨INVALID_FILE, (st.in_flight[choice % st.in_flight.length]).1, TAG_SLEEP⟩],
            in_flight := st.in_flight.eraseIdx (choice % st.in_flight.length),
            received := st.received ++ [st.in_flight[choice % st.in_flight.length]] } := by
        simp only [map_reply, hget, hg]
      have hr0 : regular_files ([] : List File) = [] := rfl
      refine ⟨_, hr, ?_, by simp, ?_, ?_⟩
      · dsimp only
        rw [hlen, hc]
        omega
      · dsimp only
        rw [hlen, h2, hr0]
        simp only [List.length_nil]
        omega
      · intro _
        rfl
    | some f =>
      obtain ⟨h2, h3⟩ := get_next_file_some _ _ f hg
      have hr : map_reply path choice st = some
          { dir := l2, files_count := st.files_count - 1 + 1,
            sent := st.sent ++
              [⟨input_file_path path f.d_name, (st.in_flight[choice % st.in_flight.length]).1,
                TAG_WORK⟩],
            in_flight := st.in_flight.eraseIdx (choice % st.in_flight.length) ++
              [((st.in_flight[choice % st.in_flight.length]).1,
                input_file_path path f.d_name)],
            received := st.received ++ [st.in_flight[choice % st.in_flight.length]] } := by
        simp only [map_reply, hget, hg, h2, if_true]
      refine ⟨_, hr, ?_, by simp, ?_, ?_⟩
      · dsimp only
        rw [List.length_append, List.length_singleton, hlen, hc]
        omega
      · dsimp only
        rw [List.length_append, List.length_singleton, hlen, h3, List.length_cons]
        omega
      · intro he
        simp at he

/-- The reply loop started with the counter equal to the number of notices in
flight, at least one, returns; it has then received one notice per notice in
flight and per regular file left, and its counter is exactly 0. -/
theorem map_reply_loop_returns (path : String) (schedule : Nat → Nat) (steps : Nat)
    (st : MapState) (hc : st.files_count = st.in_flight.length)
    (h1 : 1 ≤ st.in_flight.length)
    (hs : (regular_files st.dir).length + st.in_flight.length ≤ steps) :
    ∃ st2, map_reply_loop path schedule steps st = MapOutcome.returned st2 ∧
      st2.files_count = 0 ∧ st2.in_flight = [] ∧ regular_files st2.dir = [] ∧
      st2.received.length =
        st.received.length + (regular_files st.dir).length + st.in_flight.length := by
  induction steps generalizing st with
  | zero => omega
  | succ steps ih =>
    obtain ⟨st1, hr, hc1, hrec, hmeas, hdone⟩ :=
      map_reply_pass path (schedule st.received.length) st hc h1
    simp only [map_reply_loop, hr]
    by_cases hpos : 0 < st1.files_count
    · rw [if_pos hpos]
      have h11 : 1 ≤ st1.in_flight.length := by
        rw [hc1] at hpos
        omega
      obtain ⟨st2, e, a, b, c, d⟩ := ih st1 hc1 h11 (by omega)
      exact ⟨st2, e, a, b, c, by omega⟩
    · rw [if_neg hpos]
      have h0 : st1.in_flight.length = 0 := by
        rw [hc1] at hpos
        omega
      have hnil : st1.in_flight = [] := List.length_eq_zero.1 h0
      refine ⟨st1, rfl, by rw [hc1, h0]; rfl, hnil, hdone hnil, ?_⟩
      have := hdone hnil
      rw [this] at hmeas
      simp only [List.length_nil] at hmeas
      omega

/-- With at least one worker and at least one regular file in the directory,
`master_map_phase` returns for every arrival order; it has then received
exactly one notice per regular file and `files_count` is exactly 0. -/
theorem master_map_phase_returns (schedule : Nat → Nat) (entries : List File) (path : String)
    (n : Nat) (hn : 1 ≤ n) (hm : 1 ≤ (regular_files entries).length) :
    ∃ st, master_map_phase schedule (some entries) path n = MapOutcome.returned st ∧
      st.files_count = 0 ∧ st.in_flight = [] ∧
      st.received.length = (regular_files entries).length := by
  obtain ⟨a, b, c, d⟩ := map_first_round_state path n 0 ⟨entries, 0, [], [], []⟩
  simp only [List.length_nil, Nat.zero_add, zero_add] at a b c
  have hle : (regular_files entries).length ≤ entries.length := List.length_filter_le _ _
  obtain ⟨st, e, f, g, -, k⟩ := map_reply_loop_returns path schedule (entries.length + 1)
    (map_first_round path n 0 ⟨entries, 0, [], [], []⟩) (by rw [a, b])
    (by rw [b]; omega) (by rw [b, c]; omega)
  refine ⟨st, e, f, g, ?_⟩
  rw [k, b, c, d]
  simp only [List.length_nil]
  omega

/-! ## The claims on the map phase -/

/-- Claim C10, evaluated where it fails: when the input directory holds no
regular file (here: empty, one worker; or only `.` and `..`, two workers),
`master_map_phase` sends `TAG_SLEEP` to every worker in its first loop, keeps
`files_count = 0`, and then enters the body of its `do ... while` loop, where
`MPI_Recv` waits for a completion notice although none is in flight: the call
does not return, whatever the arrival order. -/
theorem master_map_phase_blocks_without_files :
    (∀ schedule : Nat → Nat, master_map_phase schedule (some []) "in" 1 =
        MapOutcome.blocked ⟨[], 0, [⟨INVALID_FILE, 1, TAG_SLEEP⟩], [], []⟩) ∧
    (∀ schedule : Nat → Nat,
      master_map_phase schedule (some [⟨".", 4⟩, ⟨"..", 4⟩]) "in" 2 =
        MapOutcome.blocked
          ⟨[], 0, [⟨INVALID_FILE, 1, TAG_SLEEP⟩, ⟨INVALID_FILE, 2, TAG_SLEEP⟩], [], []⟩) :=
  ⟨fun _ => rfl, fun _ => rfl⟩

/-! ## The files handed out in the map phase -/

theorem work_paths_snoc (sent : List Message) (m : Message) :
    work_paths (sent ++ [m]) =
      work_paths sent ++ (if m.tag = TAG_WORK then [m.payload] else []) := by
  unfold work_paths
  by_cases h : m.tag = TAG_WORK
  · simp [List.filter_append, h]
  · simp [List.filter_append, h]

/-- The first loop sends the files in enumeration order: the paths sent so far
followed by the paths of the files not yet fetched stay the same list. -/
theorem map_first_round_paths (path : String) (n i : Nat) (st : MapState) :
    work_paths (map_first_round path n i st).sent ++
        (regular_files (map_first_round path n i st).dir).map
          (fun f => input_file_path path f.d_name) =
      work_paths st.sent ++
        (regular_files st.dir).map (fun f => input_file_path path f.d_name) := by
  induction n generalizing i st with
  | zero => rfl
  | succ n ih =>
    cases hg : get_next_file_from_dir st.dir with
    | mk o l2 =>
      cases o with
      | none =>
        obtain ⟨h1, h2⟩ := get_next_file_none _ _ hg
        subst h2
        simp only [map_first_round, hg]
        rw [ih]
        dsimp only
        rw [work_paths_snoc, h1]
        simp [TAG_SLEEP, TAG_WORK, regular_files]
      | some f =>
        obtain ⟨h1, h2⟩ := get_next_file_some _ _ f hg
        simp only [map_first_round, hg]
        rw [ih]
        dsimp only
        rw [work_paths_snoc, h2]
        simp

theorem map_reply_paths (path : String) (choice : Nat) (st st1 : MapState)
    (h : map_reply path choice st = some st1) :
    work_paths st1.sent ++ (regular_files st1.dir).map (fun f => input_file_path path f.d_name) =
      work_paths st.sent ++
        (regular_files st.dir).map (fun f => input_file_path path f.d_name) := by
  unfold map_reply at h
  cases hq : st.in_flight[choice % st.in_flight.length]? with
  | none => simp [hq] at h
  | some notice =>
    simp only [hq] at h
    cases hg : get_next_file_from_dir st.dir with
    | mk o l2 =>
      cases o with
      | none =>
        obtain ⟨h1, h2⟩ := get_next_file_none _ _ hg
        subst h2
        simp only [hg, Option.some.injEq] at h
        subst h
        dsimp only
        rw [work_paths_snoc, h1]
        simp [TAG_SLEEP, TAG_WORK, regular_files]
      | some f =>
        obtain ⟨h1, h2⟩ := get_next_file_some _ _ f hg
        simp only [hg, h1, if_true, Option.some.injEq] at h
        subst h
        dsimp only
        rw [work_paths_snoc, h2]
        simp

theorem map_reply_loop_paths (path : String) (schedule : Nat → Nat) (steps : Nat)
    (st : MapState) :
    work_paths (map_reply_loop path schedule steps st).state.sent ++
        (regular_files (map_reply_loop path schedule steps st).state.dir).map
          (fun f => input_file_path path f.d_name) =
      work_paths st.sent ++
        (regular_files st.dir).map (fun f => input_file_path path f.d_name) := by
  induction steps generalizing st with
  | zero => rfl
  | succ steps ih =>
    cases hr : map_reply path (schedule st.received.length) st with
    | none => simp only [map_reply_loop, hr, MapOutcome.state]
    | some st1 =>
      simp only [map_reply_loop, hr]
      by_cases hpos : 0 < st1.files_count
      · rw [if_pos hpos, ih]
        exact map_reply_paths path _ st st1 hr
      · rw [if_neg hpos]
        exact map_reply_paths path _ st st1 hr

theorem master_map_phase_paths (schedule : Nat → Nat) (entries : List File)
    (path : String) (n : Nat) (hn : 1 ≤ n) :
    work_paths (master_map_phase schedule (some entries) path n).state.sent =
      (regular_files entries).map (fun f => input_file_path path f.d_name) := by
  have h0 := map_first_round_paths path n 0 ⟨entries, 0, [], [], []⟩
  have hl := map_reply_loop_paths path schedule (entries.length + 1)
    (map_first_round path n 0 ⟨entries, 0, [], [], []⟩)
  rw [h0] at hl
  simp only [work_paths, List.filter_nil, List.map_nil, List.nil_append] at hl
  have hm : master_map_phase schedule (some entries) path n =
      map_reply_loop path schedule (entries.length + 1)
        (map_first_round path n 0 ⟨entries, 0, [], [], []⟩) := rfl
  rw [hm]
  by_cases hM : 1 ≤ (regular_files entries).length
  · obtain ⟨a, b, c, d⟩ := map_first_round_state path n 0 ⟨entries, 0, [], [], []⟩
    simp only [List.length_nil, Nat.zero_add, zero_add] at a b c
    have hle : (regular_files entries).length ≤ entries.length := List.length_filter_le _ _
    obtain ⟨st, e, -, -, k, -⟩ := map_reply_loop_returns path schedule (entries.length + 1)
      (map_first_round path n 0 ⟨entries, 0, [], [], []⟩) (by rw [a, b])
      (by rw [b]; omega) (by rw [b, c]; omega)
    rw [e] at hl ⊢
    simp only [MapOutcome.state] at hl ⊢
    rw [k] at hl
    simpa [work_paths] using hl
  · have hnil : regular_files entries = [] := by
      apply List.length_eq_zero.1
      omega
    rw [hnil] at hl ⊢
    simp only [List.map_nil] at hl ⊢
    exact (List.append_eq_nil.1 hl).1

theorem input_file_path_fits (path d_name : String)
    (h : (path_of_entry path d_name).length < MAX_PATH) :
    input_file_path path d_name = path_of_entry path d_name := by
  have h2 : (path_of_entry path d_name).data.length ≤ MAX_PATH - 1 := by
    have : (path_of_entry path d_name).length = (path_of_entry path d_name).data.length := rfl
    unfold MAX_PATH at h ⊢
    omega
  have h3 : input_file_path path d_name = (path_of_entry path d_name).take (MAX_PATH - 1) := rfl
  rw [h3, String.take_eq, List.take_of_length_le h2]

theorem path_of_entry_injective (path a b : String)
    (h : path_of_entry path a = path_of_entry path b) : a = b := by
  unfold path_of_entry at h
  apply String.ext
  by_cases hb : path.back ≠ '/'
  · rw [if_pos hb, if_pos hb] at h
    have hd := congrArg String.data h
    simpa [String.data_append] using hd
  · rw [if_neg hb, if_neg hb] at h
    have hd := congrArg String.data h
    simpa [String.data_append] using hd

theorem replicate_back (n : Nat) : (String.mk (List.replicate (n + 1) 'd')).back = 'd' := by
  rw [String.back_eq, List.replicate_succ']
  simp [List.getLastD_eq_getLast?]

theorem long_dir_path_back : long_dir_path.back ≠ '/' := by
  have h : long_dir_path = String.mk (List.replicate (254 + 1) 'd') := rfl
  rw [h, replicate_back]
  decide

theorem long_dir_path_length : long_dir_path.data.length = 255 :=
  List.length_replicate 255 'd'

/-- Under a directory path of 255 characters nothing of the entry name is left
in the buffer. -/
theorem input_file_path_cut (d_name : String) :
    input_file_path long_dir_path d_name = long_dir_path ++ "/" := by
  have hb := long_dir_path_back
  apply String.ext
  have h1 : (input_file_path long_dir_path d_name).data =
      ((long_dir_path.data ++ ['/']) ++ d_name.data).take (MAX_PATH - 1) := by
    simp only [input_file_path, hb, ne_eq, not_false_eq_true, if_true, String.data_take,
      String.data_append]
  have h2 : (long_dir_path ++ "/").data = long_dir_path.data ++ ['/'] := by
    simp only [String.data_append]
  rw [h1, h2]
  apply List.take_left'
  rw [List.length_append, long_dir_path_length]
  rfl

theorem path_of_entry_long (d_name : String) :
    path_of_entry long_dir_path d_name = long_dir_path ++ "/" ++ d_name := by
  have hb := long_dir_path_back
  simp only [path_of_entry, hb, ne_eq, not_false_eq_true, if_true]

/-- Claim C11, where it fails: under a directory path of 255 characters the
paths of the regular files `a` and `b` are both cut to the directory path and
the `/`; the two `TAG_WORK` messages carry the same text, which is the path of
neither file. -/
theorem master_map_phase_cuts_paths :
    (regular_files [⟨"a", DT_REG⟩, ⟨"b", DT_REG⟩]).map
        (fun f => path_of_entry long_dir_path f.d_name) =
        [long_dir_path ++ "/" ++ "a", long_dir_path ++ "/" ++ "b"] ∧
      work_paths (master_map_phase (fun t => t) (some [⟨"a", DT_REG⟩, ⟨"b", DT_REG⟩])
          long_dir_path 1).state.sent =
        [long_dir_path ++ "/", long_dir_path ++ "/"] ∧
      ¬ (work_paths (master_map_phase (fun t => t) (some [⟨"a", DT_REG⟩, ⟨"b", DT_REG⟩])
          long_dir_path 1).state.sent).Nodup := by
  have hr : regular_files [⟨"a", DT_REG⟩, ⟨"b", DT_REG⟩] = [⟨"a", DT_REG⟩, ⟨"b", DT_REG⟩] := by
    decide
  have hs : work_paths (master_map_phase (fun t => t) (some [⟨"a", DT_REG⟩, ⟨"b", DT_REG⟩])
      long_dir_path 1).state.sent = [long_dir_path ++ "/", long_dir_path ++ "/"] := by
    rw [master_map_phase_paths _ _ _ 1 (Nat.le_refl 1), hr]
    simp only [List.map_cons, List.map_nil, input_file_path_cut]
  refine ⟨?_, hs, ?_⟩
  · rw [hr]
    simp only [List.map_cons, List.map_nil, path_of_entry_long]
  · rw [hs]
    simp

/-- Claim C11, amended: with at least one worker, for every directory listing
in which the path of every regular file (directory path, `/`, name) fits the
buffer of `MAX_PATH` bytes, and every arrival order of the completion notices,
the paths carried by the `TAG_WORK` messages that `master_map_phase` sends
(first loop, then reply loop) are, in sending order, exactly the paths of the
regular files of the directory in enumeration order: none skipped, no other
entry, and none twice (the paths sent are distinct when the names are). -/
theorem master_map_phase_work_order (schedule : Nat → Nat) (entries : List File)
    (path : String) (n : Nat) (hn : 1 ≤ n)
    (hfit : ∀ f ∈ regular_files entries, (path_of_entry path f.d_name).length < MAX_PATH) :
    work_paths (master_map_phase schedule (some entries) path n).state.sent =
        (regular_files entries).map (fun f => path_of_entry path f.d_name) ∧
      (((regular_files entries).map File.d_name).Nodup →
        (work_paths (master_map_phase schedule (some entries) path n).state.sent).Nodup) := by
  have hs : work_paths (master_map_phase schedule (some entries) path n).state.sent =
      (regular_files entries).map (fun f => path_of_entry path f.d_name) := by
    rw [master_map_phase_paths schedule entries path n hn]
    apply List.map_congr_left
    intro f hf
    exact input_file_path_fits path f.d_name (hfit f hf)
  refine ⟨hs, ?_⟩
  intro hnd
  rw [hs]
  have hm : (regular_files entries).map (fun f => path_of_entry path f.d_name) =
      ((regular_files entries).map File.d_name).map (fun name => path_of_entry path name) := by
    rw [List.map_map]
    rfl
  rw [hm]
  exact hnd.map (fun a b h => path_of_entry_injective path a b h)

set_option maxRecDepth 100000 in
theorem master_map_phase_work_order_witness :
    1 ≤ 2 ∧
      (∀ f ∈ regular_files [⟨".", 4⟩, ⟨"a.txt", 8⟩, ⟨"..", 4⟩, ⟨"b.txt", 8⟩, ⟨"c.txt", 8⟩],
        (path_of_entry "in" f.d_name).length < MAX_PATH) ∧
      work_paths (master_map_phase (fun t => t)
          (some [⟨".", 4⟩, ⟨"a.txt", 8⟩, ⟨"..", 4⟩, ⟨"b.txt", 8⟩, ⟨"c.txt", 8⟩]) "in" 2).state.sent =
        ["in/a.txt", "in/b.txt", "in/c.txt"] ∧
      (work_paths (master_map_phase (fun t => t)
          (some [⟨".", 4⟩, ⟨"a.txt", 8⟩, ⟨"..", 4⟩, ⟨"b.txt", 8⟩, ⟨"c.txt", 8⟩]) "in"
          2).state.sent).Nodup :=
  ⟨by decide, by decide,
    (master_map_phase_work_order (fun t => t)
      [⟨".", 4⟩, ⟨"a.txt", 8⟩, ⟨"..", 4⟩, ⟨"b.txt", 8⟩, ⟨"c.txt", 8⟩] "in" 2 (by decide)
      (by decide)).1.trans (by decide),
    (master_map_phase_work_order (fun t => t)
      [⟨".", 4⟩, ⟨"a.txt", 8⟩, ⟨"..", 4⟩, ⟨"b.txt", 8⟩, ⟨"c.txt", 8⟩] "in" 2 (by decide)
      (by decide)).2 (by decide)⟩

/-- Claim C12, evaluated where it fails: when the input directory cannot be
opened, `master_map_phase` returns at once; it has sent no message at all, so
no worker got the `TAG_SLEEP` sentinel, whatever the number of workers. -/
theorem master_map_phase_unopened_sends_nothing :
    ∀ (schedule : Nat → Nat) (input_dir_path : String) (number_of_workers : Nat),
      master_map_phase schedule none input_dir_path number_of_workers =
        MapOutcome.returned ⟨[], 0, [], [], []⟩ :=
  fun _ _ _ => rfl

/-! ## The store phase -/

theorem master_store_loop_trace (schedule : Nat → Nat) (dir name : String) (n i : Nat)
    (st : StoreState) (h : st.in_flight = []) :
    master_store_loop schedule dir name n i st =
      StoreOutcome.returned
        { trace := st.trace ++ (List.range' i n).flatMap (handshake dir name),
          in_flight := [] } := by
  induction n generalizing i st with
  | zero =>
    cases st with
    | mk tr fl =>
      simp only at h
      subst h
      simp [master_store_loop]
  | succ n ih =>
    simp only [master_store_loop, h, List.nil_append, List.length_singleton, Nat.mod_one,
      List.getElem?_cons_zero]
    rw [ih _ _ (by simp)]
    simp [List.range'_succ, handshake, List.append_assoc]

theorem awaiting_handshake (dir name : String) (i : Nat) :
    (handshake dir name i).foldl awaiting_step [] = [] := by
  simp [handshake, awaiting_step, TAG_WORK, TAG_SLEEP]

theorem awaiting_prefix (dir name : String) (l : List Nat) (k : Nat) :
    ((l.flatMap (handshake dir name)).take k |>.foldl awaiting_step []).length ≤ 1 := by
  induction l generalizing k with
  | nil => simp
  | cons i rest ih =>
    rw [List.flatMap_cons, List.take_append_eq_append_take, List.foldl_append]
    have hlen : (handshake dir name i).length = 3 := rfl
    rcases Nat.lt_or_ge k 3 with hk | hk
    · have hz : k - (handshake dir name i).length = 0 := by omega
      rw [hz, List.take_zero, List.foldl_nil]
      interval_cases k <;> simp [handshake, awaiting_step, TAG_WORK, TAG_SLEEP]
    · rw [List.take_of_length_le (by omega), awaiting_handshake]
      exact ih _

/-- Claim C13: `master_store_result_phase` returns, and its trace is, for
worker 1, 2, ..., N in this order, the three events: send the result file name
with `TAG_WORK`, receive the acknowledgment of that worker, send the dismissal
with `TAG_SLEEP`.  After every prefix of the trace at most one worker has been
told to write the result file without having acknowledged. -/
theorem master_store_result_phase_handshake (schedule : Nat → Nat)
    (output_dir_path output_file_name : String) (n : Nat) :
    master_store_result_phase schedule output_dir_path output_file_name n =
        StoreOutcome.returned
          { trace := (List.range n).flatMap (handshake output_dir_path output_file_name),
            in_flight := [] } ∧
      ∀ k, (awaiting_ack
        (((List.range n).flatMap (handshake output_dir_path output_file_name)).take k)).length
          ≤ 1 := by
  refine ⟨?_, fun k => awaiting_prefix output_dir_path output_file_name (List.range n) k⟩
  unfold master_store_result_phase
  rw [master_store_loop_trace schedule output_dir_path output_file_name n 0 ⟨[], []⟩ rfl,
    List.range_eq_range']
  simp

/-! ## Every letter has one worker -/

theorem bounds_step_mul (n : Nat) (hn : 1 ≤ n) :
    26 ≤ n * bounds_step n ∧ n * bounds_step n < 26 + n := by
  have hdm : n * (26 / n) + 26 % n = 26 := Nat.div_add_mod 26 n
  have hml : 26 % n < n := Nat.mod_lt 26 hn
  unfold bounds_step
  rw [alphabet_size]
  generalize 26 / n = q at hdm ⊢
  generalize 26 % n = r at hdm hml ⊢
  by_cases h0 : r = 0
  · rw [if_neg (by simp [h0])]
    omega
  · rw [if_pos (fun e => h0 e.symm), Nat.mul_add, Nat.mul_one]
    omega

theorem to_char_wrapped (x : Int) (h0 : 128 ≤ x) (h1 : x ≤ 255) :
    to_char true x = x - 256 ∧ to_char false x = x := by
  constructor <;> simp only [to_char, if_true, Bool.false_eq_true, if_false] <;> omega

theorem letter_worker (sg : Bool) (n : Nat) (h1 : 1 ≤ n) (h26 : n ≤ 26) (c : Int)
    (ha : ('a'.toNat : Int) ≤ c) (hz : c ≤ ('z'.toNat : Int)) :
    ∃! i : Nat, ∃ m : BoundsMessage,
      (master_reduce_phase sg n)[i]? = some m ∧ m.lo ≤ c ∧ c ≤ m.hi := by
  have ha2 : (('a'.toNat : Nat) : Int) = 97 := by decide
  have hz2 : (('z'.toNat : Nat) : Int) = 122 := by decide
  rw [ha2] at ha
  rw [hz2] at hz
  obtain ⟨hm1, hm2⟩ := bounds_step_mul n h1
  have hs1 := bounds_step_pos n h1
  have hget := master_reduce_phase_get sg n
  have hsome := master_reduce_phase_some sg n
  generalize bounds_step n = s at hm1 hm2 hs1 hget
  obtain ⟨k, hk⟩ := Int.eq_ofNat_of_zero_le (show (0 : Int) ≤ c - 97 by omega)
  have hk25 : k ≤ 25 := by omega
  -- the worker of the letter
  have hq1 : k / s * s ≤ k := Nat.div_mul_le_self k s
  have hq2 : k < (k / s + 1) * s := by
    have := Nat.div_add_mod k s
    have hm3 := Nat.mod_lt k hs1
    rw [Nat.add_mul, Nat.one_mul, Nat.mul_comm]
    omega
  have hqn : k / s < n := by
    rw [Nat.div_lt_iff_lt_mul hs1]
    omega
  generalize k / s = q at hq1 hq2 hqn
  have hqs : (q + 1) * s ≤ n * s := Nat.mul_le_mul_right _ hqn
  have hfit : (q + 1) * s ≤ 31 := by
    rcases Nat.lt_or_ge s 7 with h7 | h7
    · rw [Nat.add_mul, Nat.one_mul]
      omega
    · have : n * 7 ≤ n * s := Nat.mul_le_mul_left _ h7
      omega
  have hq1z : (((q * s : Nat)) : Int) ≤ k := by exact_mod_cast hq1
  have hq2z : (k : Int) < (((q + 1) * s : Nat) : Int) := by exact_mod_cast hq2
  have hfitz : ((((q + 1) * s : Nat)) : Int) ≤ 31 := by exact_mod_cast hfit
  push_cast at hq1z hq2z hfitz
  have hqpos : (0 : Int) ≤ (q : Int) * s := mul_nonneg (Int.natCast_nonneg _) (Int.natCast_nonneg _)
  obtain ⟨m, hm⟩ := hsome q hqn
  obtain ⟨-, -, -, hlo, hhi⟩ := hget q m hm
  refine ⟨q, ⟨m, hm, ?_, ?_⟩, ?_⟩
  · rw [hlo, to_char_small sg _ (by omega) (by omega)]
    omega
  · rw [hhi, to_char_small sg _ (by omega) (by omega)]
    omega
  · rintro j ⟨mj, hmj, hj1, hj2⟩
    obtain ⟨hjn, -, -, hloj, hhij⟩ := hget j mj hmj
    have hjs : (j + 1) * s ≤ n * s := Nat.mul_le_mul_right _ hjn
    have hjsz : ((((j + 1) * s : Nat)) : Int) ≤ ((n * s : Nat) : Int) := by exact_mod_cast hjs
    have hnsz : (((n * s : Nat)) : Int) < 26 + 26 := by
      have : n * s < 26 + 26 := by omega
      exact_mod_cast this
    have hjpos : (0 : Int) ≤ (j : Int) * s :=
      mul_nonneg (Int.natCast_nonneg _) (Int.natCast_nonneg _)
    have hs1z : (1 : Int) ≤ s := by exact_mod_cast hs1
    push_cast at hjsz hnsz
    have e : ((j : Int) + 1) * s = (j : Int) * s + s := by ring
    rw [e] at hjsz hhij
    generalize hL : (j : Int) * s = L at hloj hhij hjsz hjpos
    rw [← add_assoc] at hhij
    -- the unwrapped bounds contain the letter
    have hin : 97 + L ≤ c ∧ c ≤ 96 + L + s := by
      rcases Int.lt_or_le (96 + L + s) 128 with hH | hH
      · rw [hloj, to_char_small sg _ (by omega) (by omega)] at hj1
        rw [hhij, to_char_small sg _ (by omega) (by omega)] at hj2
        exact ⟨hj1, hj2⟩
      · obtain ⟨w1, w2⟩ := to_char_wrapped (96 + L + s) hH (by omega)
        cases sg
        · rw [hhij, w2] at hj2
          rcases Int.lt_or_le (97 + L) 128 with hLo | hLo
          · rw [hloj, to_char_small false _ (by omega) (by omega)] at hj1
            exact ⟨hj1, hj2⟩
          · rw [hloj, (to_char_wrapped (97 + L) hLo (by omega)).2] at hj1
            omega
        · rw [hhij, w1] at hj2
          omega
    subst hL
    rcases Nat.lt_trichotomy j q with h | h | h
    · exact (ranges_apart s j q c h (by rw [e]; omega) (by omega)).elim
    · exact h
    · have e2 : ((q : Int) + 1) * s = (q : Int) * s + s := by ring
      exact (ranges_apart s q j c h (by rw [e2]; omega) (by omega)).elim

theorem bounds_step_many (n : Nat) (h : 27 ≤ n) : bounds_step n = 1 := by
  unfold bounds_step
  rw [alphabet_size, Nat.div_eq_of_lt (by omega), Nat.mod_eq_of_lt (by omega)]
  rfl

/-- With 27 to 256 workers every worker gets a single character, and the
characters of two workers differ. -/
theorem letter_worker_wide (sg : Bool) (n : Nat) (h27 : 27 ≤ n) (h256 : n ≤ 256) (c : Int)
    (ha : ('a'.toNat : Int) ≤ c) (hz : c ≤ ('z'.toNat : Int)) :
    ∃! i : Nat, ∃ m : BoundsMessage,
      (master_reduce_phase sg n)[i]? = some m ∧ m.lo ≤ c ∧ c ≤ m.hi := by
  have ha2 : (('a'.toNat : Nat) : Int) = 97 := by decide
  have hz2 : (('z'.toNat : Nat) : Int) = 122 := by decide
  rw [ha2] at ha
  rw [hz2] at hz
  have hs := bounds_step_many n h27
  have hget := master_reduce_phase_get sg n
  rw [hs] at hget
  obtain ⟨k, hk⟩ := Int.eq_ofNat_of_zero_le (show (0 : Int) ≤ c - 97 by omega)
  obtain ⟨m, hm⟩ := master_reduce_phase_some sg n k (by omega)
  obtain ⟨-, -, -, hlo, hhi⟩ := hget k m hm
  refine ⟨k, ⟨m, hm, ?_, ?_⟩, ?_⟩
  · rw [hlo, to_char_small sg _ (by push_cast; omega) (by push_cast; omega)]
    push_cast
    omega
  · rw [hhi, to_char_small sg _ (by push_cast; omega) (by push_cast; omega)]
    push_cast
    omega
  · rintro j ⟨mj, hmj, hj1, hj2⟩
    obtain ⟨hjn, -, -, hloj, hhij⟩ := hget j mj hmj
    rw [hloj] at hj1
    rw [hhij] at hj2
    push_cast at hj1 hj2
    have hj256 : (j : Int) < 256 := by exact_mod_cast (show j < 256 by omega)
    have hj0 : (0 : Int) ≤ (j : Int) := Int.natCast_nonneg _
    have e : (96 : Int) + ((j : Int) + 1) * 1 = 97 + (j : Int) * 1 := by ring
    rw [e] at hj2
    rw [mul_one] at hj1 hj2
    have : (j : Int) = k := by
      cases sg
      · simp only [to_char, Bool.false_eq_true, if_false] at hj1 hj2
        omega
      · simp only [to_char, if_true] at hj1 hj2
        omega
    exact_mod_cast this

theorem letter_worker_any (sg : Bool) (n : Nat) (h1 : 1 ≤ n) (h256 : n ≤ 256) (c : Int)
    (ha : ('a'.toNat : Int) ≤ c) (hz : c ≤ ('z'.toNat : Int)) :
    ∃! i : Nat, ∃ m : BoundsMessage,
      (master_reduce_phase sg n)[i]? = some m ∧ m.lo ≤ c ∧ c ≤ m.hi := by
  by_cases h : n ≤ 26
  · exact letter_worker sg n h1 h c ha hz
  · exact letter_worker_wide sg n (by omega) h256 c ha hz

/-- Claim C20: for `1 ≤ N ≤ 26` workers and every lowercase letter `c`, exactly
one of the bound pairs sent by `master_reduce_phase` satisfies
`lo ≤ c ≤ hi`, for signed and for unsigned `char`. -/
theorem letter_in_one_range (sg : Bool) (n : Nat) (h1 : 1 ≤ n) (h26 : n ≤ 26) (c : Int)
    (ha : ('a'.toNat : Int) ≤ c) (hz : c ≤ ('z'.toNat : Int)) :
    ∃! i : Nat, ∃ m : BoundsMessage,
      (master_reduce_phase sg n)[i]? = some m ∧ m.lo ≤ c ∧ c ≤ m.hi :=
  letter_worker sg n h1 h26 c ha hz

theorem letter_in_one_range_witness :
    1 ≤ 4 ∧ 4 ≤ 26 ∧ (master_reduce_phase true 4)[3]? = some ⟨118, 124, 4, 0⟩ ∧
      ∃! i : Nat, ∃ m : BoundsMessage,
        (master_reduce_phase true 4)[i]? = some m ∧ m.lo ≤ 122 ∧ 122 ≤ m.hi :=
  ⟨by decide, by decide, by decide,
    letter_in_one_range true 4 (by decide) (by decide) 122 (by decide) (by decide)⟩

/-! ## The result lines -/

theorem string_join_cons (s : String) (l : List String) :
    String.join (s :: l) = s ++ String.join l := by
  have h : ∀ (l : List String) (acc : String),
      List.foldl (fun r s => r ++ s) acc l = acc ++ String.join l := by
    intro l
    induction l with
    | nil => intro acc; simp [String.join]
    | cons x rest ih =>
      intro acc
      simp only [String.join, List.foldl_cons] at ih ⊢
      rw [ih, ih ("" ++ x)]
      simp [String.append_assoc]
  simp only [String.join, List.foldl_cons]
  rw [h]
  simp [String.join]

theorem result_groups_of_pairs (pairs : List (String × Int)) :
    result_groups (pairs.map (fun vc => some vc.1)) (pairs.map Prod.snd) =
      String.join (pairs.map (fun dc => format_group dc.1 dc.2)) := by
  induction pairs with
  | nil => rfl
  | cons x rest ih =>
    simp only [List.map_cons, result_groups, string_join_cons, ih, format_group, print_s,
      Option.getD_some]

theorem result_lines_of_pairs (entries : List (String × List (String × Int))) :
    result_lines (entries.map (fun e => Pair.of_pairs e.1 e.2)) =
      String.join (entries.map (fun e => format_line e.1 e.2)) := by
  induction entries with
  | nil => rfl
  | cons x rest ih =>
    rw [List.map_cons, List.map_cons, string_join_cons, ← ih]
    simp only [result_lines]
    congr 1
    simp only [format_line, Pair.of_pairs, print_s, Option.getD_some, result_groups_of_pairs]

/-- Every dictionary without `NULL` pointers and with arrays of equal length
is the dictionary of a list of entries. -/
theorem well_formed_of_pairs (dic : Dictionary) (h : well_formed dic) :
    ∃ entries : List (String × List (String × Int)),
      dic = entries.map (fun e => Pair.of_pairs e.1 e.2) := by
  induction dic with
  | nil => exact ⟨[], rfl⟩
  | cons p rest ih =>
    obtain ⟨es, hes⟩ := ih (fun q hq => h q (List.mem_cons_of_mem _ hq))
    obtain ⟨hk, hv, hl⟩ := h p (List.mem_cons_self _ _)
    have hpairs : ∀ (vs : List (Option String)) (cs : List Int), none ∉ vs →
        cs.length = vs.length →
        ∃ pairs : List (String × Int),
          vs = pairs.map (fun vc => some vc.1) ∧ cs = pairs.map Prod.snd := by
      intro vs
      induction vs with
      | nil =>
        intro cs _ hl
        exact ⟨[], rfl, by simpa using hl⟩
      | cons v vs ihv =>
        intro cs hn hl
        cases cs with
        | nil => simp at hl
        | cons c cs =>
          obtain ⟨ps, h1, h2⟩ := ihv cs (fun e => hn (List.mem_cons_of_mem _ e))
            (by simpa using hl)
          cases v with
          | none => exact absurd (List.mem_cons_self _ _) hn
          | some w => exact ⟨(w, c) :: ps, by simp [h1], by simp [h2]⟩
    obtain ⟨ps, h1, h2⟩ := hpairs p.values p.counts hv hl
    cases hkey : p.key with
    | none => exact absurd hkey hk
    | some k =>
      refine ⟨(k, ps) :: es, ?_⟩
      rw [List.map_cons, ← hes]
      congr 1
      cases p
      simp only [Pair.of_pairs] at *
      simp [hkey, h1, h2]

/-! ## Tokens -/

theorem split_runs_cons (sep : Char → Bool) (c : Char) (cs : List Char) :
    split_runs sep (c :: cs) =
      if sep c then split_runs sep cs
      else
        match cs with
        | [] => [[c]]
        | d :: _ =>
            if sep d then [c] :: split_runs sep cs
            else
              match split_runs sep cs with
              | run :: more => (c :: run) :: more
              | [] => [[c]] := by
  cases cs <;> rfl

theorem split_runs_sep (sep : Char → Bool) (c : Char) (cs : List Char) (h : sep c = true) :
    split_runs sep (c :: cs) = split_runs sep cs := by
  rw [split_runs_cons, if_pos h]

theorem split_runs_single (sep : Char → Bool) (c : Char) (h : sep c = false) :
    split_runs sep [c] = [[c]] := by
  rw [split_runs_cons, if_neg (by simp [h])]

theorem split_runs_end (sep : Char → Bool) (c d : Char) (ds : List Char) (h : sep c = false)
    (hd : sep d = true) : split_runs sep (c :: d :: ds) = [c] :: split_runs sep (d :: ds) := by
  rw [split_runs_cons, if_neg (by simp [h])]
  simp only [hd, if_true]

theorem split_runs_more (sep : Char → Bool) (c d : Char) (ds r : List Char)
    (t : List (List Char)) (h : sep c = false) (hd : sep d = false)
    (hr : split_runs sep (d :: ds) = r :: t) :
    split_runs sep (c :: d :: ds) = (c :: r) :: t := by
  rw [split_runs_cons, if_neg (by simp [h])]
  simp only [hd, hr, Bool.false_eq_true, if_false]

theorem split_runs_head (sep : Char → Bool) (d : Char) (ds : List Char) (h : sep d = false) :
    ∃ r t, split_runs sep (d :: ds) = (d :: r) :: t := by
  cases ds with
  | nil => exact ⟨[], [], split_runs_single sep d h⟩
  | cons e es =>
    cases he : sep e with
    | true => exact ⟨[], _, split_runs_end sep d e es h he⟩
    | false =>
      cases hs : split_runs sep (e :: es) with
      | nil =>
        refine ⟨[], [], ?_⟩
        rw [split_runs_cons, if_neg (by simp [h])]
        simp only [he, hs, Bool.false_eq_true, if_false]
      | cons run more => exact ⟨run, more, split_runs_more sep d e es run more h he hs⟩

/-- Splitting at the characters of either kind is splitting at the first kind
and then splitting every run at the second kind. -/
theorem split_runs_or (p q : Char → Bool) (l : List Char) :
    split_runs (fun c => p c || q c) l = (split_runs p l).flatMap (split_runs q) := by
  induction l with
  | nil => rfl
  | cons c cs ih =>
    cases hp : p c with
    | true =>
      rw [split_runs_sep _ c cs (by simp [hp]), split_runs_sep p c cs hp, ih]
    | false =>
      cases cs with
      | nil =>
        rw [split_runs_single p c hp]
        cases hq : q c with
        | true => simp [split_runs, hp, hq]
        | false => simp [split_runs, hp, hq]
      | cons d ds =>
        cases hpd : p d with
        | true =>
          rw [split_runs_end p c d ds hp hpd, List.flatMap_cons, ← ih]
          cases hq : q c with
          | true =>
            rw [split_runs_sep _ c _ (by simp [hq]), split_runs_sep q c [] hq]
            rfl
          | false =>
            rw [split_runs_end _ c d ds (by simp [hp, hq]) (by simp [hpd]),
              split_runs_single q c hq]
            rfl
        | false =>
          obtain ⟨r, t, hr⟩ := split_runs_head p d ds hpd
          rw [split_runs_more p c d ds _ t hp hpd hr, List.flatMap_cons]
          rw [hr, List.flatMap_cons] at ih
          cases hq : q c with
          | true =>
            rw [split_runs_sep _ c _ (by simp [hq]), ih, split_runs_sep q c _ hq]
          | false =>
            cases hqd : q d with
            | true =>
              rw [split_runs_end _ c d ds (by simp [hp, hq]) (by simp [hqd]), ih,
                split_runs_end q c d r hq hqd]
              rfl
            | false =>
              obtain ⟨r2, t2, hr2⟩ := split_runs_head q d r hqd
              rw [hr2] at ih
              rw [split_runs_more _ c d ds _ _ (by simp [hp, hq]) (by simp [hpd, hqd]) ih,
                split_runs_more q c d r _ t2 hq hqd hr2]
              rfl

/-- A run is not empty and holds characters of the text that are not
separators. -/
theorem split_runs_mem (sep : Char → Bool) (l : List Char) :
    ∀ r ∈ split_runs sep l, r ≠ [] ∧ ∀ c ∈ r, c ∈ l ∧ sep c = false := by
  induction l with
  | nil => simp [split_runs]
  | cons c cs ih =>
    intro r hr
    cases hc : sep c with
    | true =>
      rw [split_runs_sep sep c cs hc] at hr
      obtain ⟨h1, h2⟩ := ih r hr
      exact ⟨h1, fun x hx => ⟨List.mem_cons_of_mem _ (h2 x hx).1, (h2 x hx).2⟩⟩
    | false =>
      cases cs with
      | nil =>
        rw [split_runs_single sep c hc] at hr
        simp at hr
        subst hr
        simp [hc]
      | cons d ds =>
        cases hd : sep d with
        | true =>
          rw [split_runs_end sep c d ds hc hd] at hr
          rcases List.mem_cons.1 hr with e | e
          · subst e
            simp [hc]
          · obtain ⟨h1, h2⟩ := ih r e
            exact ⟨h1, fun x hx => ⟨List.mem_cons_of_mem _ (h2 x hx).1, (h2 x hx).2⟩⟩
        | false =>
          obtain ⟨r0, t, hr0⟩ := split_runs_head sep d ds hd
          rw [split_runs_more sep c d ds _ t hc hd hr0] at hr
          rcases List.mem_cons.1 hr with e | e
          · subst e
            obtain ⟨-, h2⟩ := ih (d :: r0) (by rw [hr0]; simp)
            refine ⟨by simp, ?_⟩
            intro x hx
            rcases List.mem_cons.1 hx with e2 | e2
            · subst e2
              exact ⟨List.mem_cons_self _ _, hc⟩
            · exact ⟨List.mem_cons_of_mem _ (h2 x e2).1, (h2 x e2).2⟩
          · obtain ⟨h1, h2⟩ := ih r (by rw [hr0]; exact List.mem_cons_of_mem _ e)
            exact ⟨h1, fun x hx => ⟨List.mem_cons_of_mem _ (h2 x hx).1, (h2 x hx).2⟩⟩

theorem c_string_of_no_nul (buffer : List Char) (h : '\x00' ∉ buffer) :
    c_string buffer = buffer := by
  unfold c_string
  rw [List.takeWhile_eq_self_iff]
  intro c hc
  have : c ≠ '\x00' := fun e => h (e ▸ hc)
  simpa using this

theorem flatMap_buffer_words (chunks : List (List Char))
    (h : ∀ chunk ∈ chunks, c_string chunk = chunk) :
    chunks.flatMap buffer_words =
      ((chunks.flatMap (split_runs is_delimiter)).filter
        (fun run => MIN_WORD_SIZE ≤ run.length)).map
          (fun run => String.mk (utils_strlwr run)) := by
  induction chunks with
  | nil => rfl
  | cons x rest ih =>
    rw [List.flatMap_cons, List.flatMap_cons, List.filter_append, List.map_append,
      ih (fun c hc => h c (List.mem_cons_of_mem _ hc))]
    unfold buffer_words
    rw [h x (List.mem_cons_self _ _)]

theorem parse_words_eq (text : List Char)
    (hfit : ∀ chunk ∈ split_runs isspace text, chunk.length < MAX_WORD_SIZE)
    (hnul : '\x00' ∉ text) : parse_words text = some (retained_tokens text) := by
  unfold parse_words retained_tokens
  have hall : (split_runs isspace text).all (fun chunk => chunk.length < MAX_WORD_SIZE) = true := by
    rw [List.all_eq_true]
    intro chunk hc
    simpa using hfit chunk hc
  rw [if_pos hall, split_runs_or, flatMap_buffer_words]
  intro chunk hc
  apply c_string_of_no_nul
  intro hm
  exact hnul ((split_runs_mem isspace text chunk hc).2 _ hm).1

theorem utils_strlwr_length (l : List Char) : (utils_strlwr l).length = l.length := by
  induction l with
  | nil => rfl
  | cons c rest ih => simp [utils_strlwr, ih]

theorem utils_strlwr_mem (l : List Char) (c : Char) (h : c ∈ utils_strlwr l) :
    ∃ d ∈ l, c = tolower d := by
  induction l with
  | nil => simp [utils_strlwr] at h
  | cons x rest ih =>
    simp only [utils_strlwr, List.mem_cons] at h
    rcases h with e | e
    · exact ⟨x, List.mem_cons_self _ _, e⟩
    · obtain ⟨d, hd, hc⟩ := ih e
      exact ⟨d, List.mem_cons_of_mem _ hd, hc⟩

/-- `tolower` of an upper case letter, by its code. -/
theorem tolower_upper (c : Char) (h : 65 ≤ c.toNat ∧ c.toNat ≤ 90) :
    ∃ k, 65 ≤ k ∧ k ≤ 90 ∧ c = Char.ofNat k ∧ tolower c = Char.ofNat (k + 32) := by
  refine ⟨c.toNat, h.1, h.2, (Char.ofNat_toNat c).symm, ?_⟩
  unfold tolower
  rw [if_pos h]

/-- Lower-casing keeps a character that is neither white space nor delimiter
that way, and leaves no upper case letter. -/
theorem tolower_props (d : Char) (h1 : isspace d = false) (h2 : is_delimiter d = false) :
    isspace (tolower d) = false ∧ is_delimiter (tolower d) = false ∧
      (tolower d).isDigit = false ∧ ¬ (65 ≤ (tolower d).toNat ∧ (tolower d).toNat ≤ 90) := by
  by_cases hu : 65 ≤ d.toNat ∧ d.toNat ≤ 90
  · obtain ⟨k, hk1, hk2, -, hk⟩ := tolower_upper d hu
    rw [hk]
    interval_cases k <;> decide
  · have e : tolower d = d := by
      unfold tolower
      rw [if_neg hu]
    rw [e]
    refine ⟨h1, h2, ?_, hu⟩
    by_contra hd
    have hd2 : d.isDigit = true := by simpa using hd
    have h48 : 48 ≤ d.toNat ∧ d.toNat ≤ 57 := by
      simp only [Char.isDigit, Bool.and_eq_true, decide_eq_true_eq] at hd2
      exact ⟨hd2.1, hd2.2⟩
    have hdk : d = Char.ofNat d.toNat := (Char.ofNat_toNat d).symm
    obtain ⟨k1, k2⟩ := h48
    generalize d.toNat = k at hdk k1 k2
    subst hdk
    interval_cases k <;> (revert h2; decide)

theorem tolower_ne_nul (d : Char) (h : d ≠ '\x00') : tolower d ≠ '\x00' := by
  by_cases hu : 65 ≤ d.toNat ∧ d.toNat ≤ 90
  · obtain ⟨k, hk1, hk2, -, hk⟩ := tolower_upper d hu
    rw [hk]
    interval_cases k <;> decide
  · have e : tolower d = d := by
      unfold tolower
      rw [if_neg hu]
    rw [e]
    exact h

theorem count_map_pair (path : String) (words : List String) (word : String) :
    (words.map (fun w => (path, w))).count (path, word) = words.count word := by
  induction words with
  | nil => rfl
  | cons x rest ih =>
    rw [List.map_cons, List.count_cons, List.count_cons, ih]
    by_cases h : x = word
    · simp [h]
    · simp [h]

/-- A list of at most `INT_MAX` elements holds no element more often than
that. -/
theorem count_le_int_max (words : List String) (h : words.length ≤ 2147483647) (w : String) :
    (words.count w : Int) ≤ INT_MAX := by
  have h1 : words.count w ≤ words.length := List.count_le_length _ _
  unfold INT_MAX
  omega

theorem stored_count_file_words (al : Allocator) (hal : ∀ n, al.ok n = true) (path : String)
    (words : List String) (word : String) (hc : (words.count word : Int) ≤ INT_MAX) :
    stored_count (file_words al path words) path word =
      if words.count word = 0 then none else some (words.count word : Int) := by
  unfold file_words
  rw [stored_count_insert_words al hal _ _ _ (by rw [count_map_pair]; exact hc), count_map_pair]

theorem stored_count_file_words_int (al : Allocator) (hal : ∀ n, al.ok n = true) (path : String)
    (words : List String) (word : String) :
    stored_count (file_words al path words) path word =
      if words.count word = 0 then none else some (to_int (words.count word : Int)) := by
  unfold file_words
  rw [stored_count_insert_words_int al hal, count_map_pair]

theorem retained_tokens_mem (text : List Char) (w : String) (h : w ∈ retained_tokens text) :
    MIN_WORD_SIZE ≤ w.length ∧
      ∀ c ∈ w.data, isspace c = false ∧ is_delimiter c = false ∧ c.isDigit = false ∧
        ¬ (65 ≤ c.toNat ∧ c.toNat ≤ 90) := by
  unfold retained_tokens at h
  obtain ⟨run, hr, e⟩ := List.mem_map.1 h
  obtain ⟨hr1, hr2⟩ := List.mem_filter.1 hr
  have hlen : MIN_WORD_SIZE ≤ run.length := by simpa using hr2
  obtain ⟨-, hchars⟩ := split_runs_mem _ text run hr1
  subst e
  refine ⟨?_, ?_⟩
  · show MIN_WORD_SIZE ≤ (utils_strlwr run).length
    rw [utils_strlwr_length]
    exact hlen
  · intro c hc
    obtain ⟨d, hd, e⟩ := utils_strlwr_mem run c hc
    have hs := (hchars d hd).2
    simp only [Bool.or_eq_false_iff] at hs
    rw [e]
    exact tolower_props d hs.1 hs.2

/-- Claim C15 as stated fails for a text that holds a NUL: in `abc(NUL)def`
the only blank-separated chunk has 7 characters and is itself a maximal run
without white space and delimiter, but `strtok` takes the buffer for a C
string, which ends at the NUL, and the only word inserted is `abc`.  It also
fails for a word that occurs `2 ^ 31` times: the count stored for it is
`INT_MIN`. -/
theorem parse_words_stops_at_nul :
    (∀ chunk ∈ split_runs isspace "abc\x00def".data, chunk.length < MAX_WORD_SIZE) ∧
      split_runs (fun c => isspace c || is_delimiter c) "abc\x00def".data =
        ["abc\x00def".data] ∧
      retained_tokens "abc\x00def".data = ["abc\x00def"] ∧
      parse_words "abc\x00def".data = some ["abc"] ∧
      parse_words "abc\x00def".data ≠ some (retained_tokens "abc\x00def".data) ∧
      (List.replicate 2147483648 "cat").count "cat" = 2147483648 ∧
      stored_count (file_words Allocator.reliable "in/A" (List.replicate 2147483648 "cat"))
        "in/A" "cat" = some (-2147483648) := by
  refine ⟨by decide, by decide, by decide, by decide, by decide,
    List.count_replicate_self _ _, ?_⟩
  rw [stored_count_file_words_int Allocator.reliable (fun _ => rfl), List.count_replicate_self]
  decide

/-- Claim C15, amended: for a text without NUL whose blank-separated chunks fit
the read buffer, the words `worker_parse_file` inserts are, in order, the maximal runs
of characters that are neither white space nor in `WORD_DELIMITER`, restricted
to length at least 3 and folded to lower case; every such word has length at
least 3 and holds no white space, no delimiter, no digit and no upper case
ASCII letter; and the count stored for a word in the dictionary of the file is
its number of occurrences among these words, for a word that occurs at most
`INT_MAX` times. -/
theorem parse_words_tokens (text : List Char)
    (hfit : ∀ chunk ∈ split_runs isspace text, chunk.length < MAX_WORD_SIZE)
    (hnul : '\x00' ∉ text) :
    parse_words text = some (retained_tokens text) ∧
    (∀ w ∈ retained_tokens text, MIN_WORD_SIZE ≤ w.length ∧
      ∀ c ∈ w.data, isspace c = false ∧ is_delimiter c = false ∧ c.isDigit = false ∧
        ¬ (65 ≤ c.toNat ∧ c.toNat ≤ 90)) ∧
    ∀ al : Allocator, (∀ n, al.ok n = true) → ∀ path word : String,
      ((retained_tokens text).count word : Int) ≤ INT_MAX →
      stored_count (file_words al path (retained_tokens text)) path word =
        if (retained_tokens text).count word = 0 then none
        else some ((retained_tokens text).count word : Int) :=
  ⟨parse_words_eq text hfit hnul, retained_tokens_mem text,
    fun al hal path word hc =>
      stored_count_file_words al hal path (retained_tokens text) word hc⟩

theorem parse_words_tokens_witness :
    (∀ chunk ∈ split_runs isspace "The cat, sat on the-mat 12ab34cde x\n".data,
        chunk.length < MAX_WORD_SIZE) ∧
      '\x00' ∉ "The cat, sat on the-mat 12ab34cde x\n".data ∧
      parse_words "The cat, sat on the-mat 12ab34cde x\n".data =
        some ["the", "cat", "sat", "the", "mat", "cde"] ∧
      stored_count
          (file_words Allocator.reliable "in/A"
            (retained_tokens "The cat, sat on the-mat 12ab34cde x\n".data)) "in/A" "the" =
        some 2 :=
  ⟨by decide, by decide,
    (parse_words_tokens "The cat, sat on the-mat 12ab34cde x\n".data (by decide)
      (by decide)).1.trans (by decide),
    ((parse_words_tokens "The cat, sat on the-mat 12ab34cde x\n".data (by decide)
      (by decide)).2.2 Allocator.reliable (fun _ => rfl) "in/A" "the" (by decide)).trans
      (by decide)⟩

/-- Claim C17: for a dictionary without `NULL` pointers, the text
`worker_store_result_phase` appends is one line per entry, in entry order; the
line of the entry with key `w` and pairs `(d1, c1), ..., (dk, ck)` is
`w: <d1: c1>...<dk: ck>` and a newline, the groups in the order of the pairs
with nothing between them and nothing after the last one. -/
theorem worker_store_result_phase_lines (result : Dictionary) (h : well_formed result) :
    ∃ entries : List (String × List (String × Int)),
      result = entries.map (fun e => Pair.of_pairs e.1 e.2) ∧
      worker_store_result_phase true result =
        String.join (entries.map (fun e => format_line e.1 e.2)) ∧
      (entries.map (fun e => format_line e.1 e.2)).length = elements_length result := by
  obtain ⟨entries, he⟩ := well_formed_of_pairs result h
  refine ⟨entries, he, ?_, ?_⟩
  · rw [he]
    simp only [worker_store_result_phase, if_true]
    exact result_lines_of_pairs entries
  · rw [he]
    simp [elements_length]

theorem worker_store_result_phase_lines_witness :
    well_formed [Pair.of_pairs "sat" [("in/A", 1), ("in/B", 1)], Pair.of_pairs "the" [("in/A", 2)]] ∧
      worker_store_result_phase true
          [Pair.of_pairs "sat" [("in/A", 1), ("in/B", 1)], Pair.of_pairs "the" [("in/A", 2)]] =
        "sat: <in/A: 1><in/B: 1>\nthe: <in/A: 2>\n" ∧
      ∃ entries : List (String × List (String × Int)),
        [Pair.of_pairs "sat" [("in/A", 1), ("in/B", 1)], Pair.of_pairs "the" [("in/A", 2)]] =
            entries.map (fun e => Pair.of_pairs e.1 e.2) ∧
          worker_store_result_phase true
              [Pair.of_pairs "sat" [("in/A", 1), ("in/B", 1)],
                Pair.of_pairs "the" [("in/A", 2)]] =
            String.join (entries.map (fun e => format_line e.1 e.2)) ∧
          (entries.map (fun e => format_line e.1 e.2)).length =
            elements_length
              [Pair.of_pairs "sat" [("in/A", 1), ("in/B", 1)], Pair.of_pairs "the" [("in/A", 2)]] :=
  ⟨by decide, by decide,
    worker_store_result_phase_lines
      [Pair.of_pairs "sat" [("in/A", 1), ("in/B", 1)], Pair.of_pairs "the" [("in/A", 2)]]
      (by decide)⟩

/-! ## The block written for a file -/

theorem first_seen_constant (path : String) (words : List String) :
    first_seen (words.map (fun _ => path)) = if words = [] then [] else [path] := by
  cases words with
  | nil => rfl
  | cons x rest =>
    simp only [List.map_cons, first_seen, reduceCtorEq, if_false, List.cons.injEq, true_and]
    rw [List.filter_eq_nil_iff]
    intro a ha
    rw [mem_first_seen] at ha
    obtain ⟨_, _, e⟩ := List.mem_map.1 ha
    simp [e.symm]

/-- Parallel arrays with distinct values are determined by the counts found
next to the values. -/
theorem counts_determined (vs : List String) (cs : List Int) (f : String → Int)
    (hn : vs.Nodup) (hl : cs.length = vs.length)
    (h : ∀ v ∈ vs,
      (((vs.map some).zip cs).find? (fun vc => vc.1 == some v)).map Prod.snd = some (f v)) :
    cs = vs.map f := by
  induction vs generalizing cs with
  | nil => simpa using hl
  | cons v rest ih =>
    cases cs with
    | nil => simp at hl
    | cons c cs =>
      have hnd := List.nodup_cons.1 hn
      have h0 := h v (List.mem_cons_self _ _)
      simp [List.find?_cons] at h0
      rw [List.map_cons, h0]
      congr 1
      apply ih cs hnd.2 (by simpa using hl)
      intro w hw
      have hne : ¬ v = w := fun e => hnd.1 (e ▸ hw)
      have := h w (List.mem_cons_of_mem _ hw)
      simpa [List.find?_cons, hne] using this

/-- The dictionary of a file after the insertion of its words: one entry, the
distinct words in first-seen order, each with its number of occurrences as an
`int`. -/
theorem file_words_eq_int (al : Allocator) (hal : ∀ n, al.ok n = true) (path : String)
    (words : List String) :
    file_words al path words =
      if words = [] then []
      else [Pair.of_pairs path
        ((first_seen words).map (fun w => (w, to_int (words.count w : Int))))] := by
  by_cases hw : words = []
  · subst hw
    rfl
  rw [if_neg hw]
  have hkeys := keys_insert_words al hal (words.map (fun w => (path, w)))
  have hvals := values_insert_words al hal (words.map (fun w => (path, w)))
  obtain ⟨-, hgood⟩ := insert_words_sound al hal (words.map (fun w => (path, w)))
  have hcnt := stored_count_file_words_int al hal path words
  unfold file_words at hcnt ⊢
  rw [List.map_map] at hkeys
  have hcomp : (Prod.fst ∘ fun w : String => (path, w)) = fun _ => path := rfl
  rw [hcomp, first_seen_constant, if_neg hw] at hkeys
  generalize insert_words al [] (words.map (fun w => (path, w))) = dic at hkeys hvals hgood hcnt
  cases dic with
  | nil => simp at hkeys
  | cons p rest =>
    cases rest with
    | cons q more => simp at hkeys
    | nil =>
      have hk : p.key = some path := by simpa using hkeys
      have hv := hvals p path (List.mem_cons_self _ _) hk
      have hfil : List.filter (fun kv : String × String => decide (kv.1 = path))
          (words.map (fun w => (path, w))) = words.map (fun w => (path, w)) := by
        rw [List.filter_eq_self]
        intro a ha
        obtain ⟨w, -, e⟩ := List.mem_map.1 ha
        simp [e.symm]
      rw [hfil, List.map_map] at hv
      have hcomp2 : (Prod.snd ∘ fun w : String => (path, w)) = id := rfl
      rw [hcomp2, List.map_id] at hv
      have hl : p.counts.length = p.values.length := (hgood p (List.mem_cons_self _ _)).1.2.2
      have hc : p.counts = (first_seen words).map (fun w => to_int (words.count w : Int)) := by
        apply counts_determined (first_seen words) p.counts _ (first_seen_nodup words)
          (by rw [hl, hv]; simp)
        intro v hv2
        have hmem : v ∈ words := (mem_first_seen words v).1 hv2
        have h1 := hcnt v
        have hpos : ¬ List.count v words = 0 := by
          rw [List.count_eq_zero]
          exact fun e => e hmem
        rw [if_neg hpos] at h1
        simp only [stored_count, List.find?_cons, hk, beq_self_eq_true, count_of_def] at h1
        have h2 : Option.map Prod.snd
            (List.find? (fun vc => vc.1 == some v) (p.values.zip p.counts)) =
              some (to_int (List.count v words : Int)) := h1
        rw [hv] at h2
        exact h2
      cases p with
      | mk k vs cs =>
        simp only at hk hv hc
        subst hk hv hc
        simp [Pair.of_pairs, List.map_map, Function.comp_def]

theorem file_words_eq (al : Allocator) (hal : ∀ n, al.ok n = true) (path : String)
    (words : List String) (hc : ∀ w ∈ words, (words.count w : Int) ≤ INT_MAX) :
    file_words al path words =
      if words = [] then [] else [Pair.of_pairs path (word_counts words)] := by
  rw [file_words_eq_int al hal]
  have e : (first_seen words).map (fun w => (w, to_int (words.count w : Int))) =
      word_counts words := by
    unfold word_counts
    apply List.map_congr_left
    intro w hw
    rw [to_int_small _ (by unfold INT_MIN; omega) (hc w ((mem_first_seen words w).1 hw))]
  rw [e]

theorem first_seen_replicate (n : Nat) (hn : n ≠ 0) (word : String) :
    first_seen (List.replicate n word) = [word] := by
  cases n with
  | zero => exact absurd rfl hn
  | succ n =>
    rw [List.replicate_succ]
    simp only [first_seen, List.cons.injEq, true_and]
    rw [List.filter_eq_nil_iff]
    intro a ha
    rw [mem_first_seen] at ha
    simp [List.eq_of_mem_replicate ha]

/-- The dictionary of a file that holds one word `n` times. -/
theorem file_words_replicate (path word : String) (n : Nat) (hn : n ≠ 0) :
    file_words Allocator.reliable path (List.replicate n word) =
      [⟨some path, [some word], [to_int (n : Int)]⟩] := by
  have hne : List.replicate n word ≠ [] := by
    intro e
    have := congrArg List.length e
    rw [List.length_replicate] at this
    exact hn this
  rw [file_words_eq_int Allocator.reliable (fun _ => rfl), if_neg hne,
    first_seen_replicate n hn word]
  simp only [List.map_cons, List.map_nil, List.count_replicate_self, Pair.of_pairs]

theorem word_lines_of_pairs (pairs : List (String × Int)) :
    word_lines (pairs.map (fun vc => some vc.1)) (pairs.map Prod.snd) =
      String.join (pairs.map (fun wc => format_word_line wc.1 wc.2)) := by
  induction pairs with
  | nil => rfl
  | cons x rest ih =>
    simp only [List.map_cons, word_lines, string_join_cons, ih, format_word_line, print_s,
      Option.getD_some]

theorem intermediate_blocks_single (path key : String) (pairs : List (String × Int)) :
    intermediate_blocks path [Pair.of_pairs key pairs] = format_block path pairs := by
  simp only [intermediate_blocks, Pair.of_pairs, word_lines_of_pairs, format_block,
    String.append_empty]

/-- What `worker_parse_file` appends for a text that is read without overrun:
nothing when no word is retained, else one block. -/
theorem worker_parse_file_eq (al : Allocator) (hal : ∀ n, al.ok n = true) (path : String)
    (text : List Char)
    (hfit : ∀ chunk ∈ split_runs isspace text, chunk.length < MAX_WORD_SIZE)
    (hnul : '\x00' ∉ text)
    (hc : ∀ w ∈ retained_tokens text, ((retained_tokens text).count w : Int) ≤ INT_MAX) :
    worker_parse_file al path (some text) true =
      some (if retained_tokens text = [] then ""
        else format_block path (word_counts (retained_tokens text))) := by
  simp only [worker_parse_file, if_true, parse_words_eq text hfit hnul,
    file_words_eq al hal path _ hc]
  by_cases h : retained_tokens text = []
  · simp [h, intermediate_blocks]
  · simp only [h, if_false, intermediate_blocks_single]

/-! ## Reading an intermediate file -/

theorem reduce_lines_eq (al : Allocator) (sg : Bool) (bounds : Int × Int) (fn : List Char)
    (steps : Nat) (stream : List Char) (result : Dictionary) :
    reduce_lines al sg bounds fn steps stream result =
      (read_lines fn steps stream).map
        (fun rr => (rr.1.foldl (reduce_record al sg bounds) result, rr.2)) := by
  induction steps generalizing stream result with
  | zero => rfl
  | succ steps ih =>
    simp only [reduce_lines, read_lines]
    cases hf : fgets MAX_LINE_SIZE stream with
    | none => rfl
    | some lr =>
      obtain ⟨line, rest⟩ := lr
      simp only
      by_cases hl : c_string line = ['\n']
      · simp [hl]
      · simp only [hl, if_false]
        cases hd : drop_last_char line with
        | none => rfl
        | some text =>
          simp only
          cases hw : sscanf_word_count text with
          | none => rfl
          | some wc =>
            simp only [ih]
            cases hr : read_lines fn steps rest with
            | none => rfl
            | some rr => simp only [Option.map_some', List.foldl_cons]

theorem reduce_blocks_eq (al : Allocator) (sg : Bool) (bounds : Int × Int) (steps : Nat)
    (stream : List Char) (result : Dictionary) :
    reduce_blocks al sg bounds steps stream result =
      (read_blocks steps stream).map (fun rs => rs.foldl (reduce_record al sg bounds) result) := by
  induction steps generalizing stream result with
  | zero => rfl
  | succ steps ih =>
    simp only [reduce_blocks, read_blocks]
    cases hf : fgets MAX_PATH stream with
    | none => rfl
    | some lr =>
      obtain ⟨line, rest⟩ := lr
      simp only
      cases hd : drop_last_char line with
      | none => rfl
      | some name =>
        simp only [reduce_lines_eq]
        cases hr : read_lines name (steps + 1) rest with
        | none => rfl
        | some rr =>
          simp only [Option.map_some', ih]
          cases hb : read_blocks steps rr.2 with
          | none => rfl
          | some records => simp only [Option.map_some', List.foldl_append]

theorem reduce_files_eq (al : Allocator) (sg : Bool) (bounds : Int × Int)
    (files : List (Option (List Char))) (result : Dictionary) :
    reduce_files al sg bounds files result =
      (directory_records files).map (fun rs => rs.foldl (reduce_record al sg bounds) result) := by
  induction files generalizing result with
  | nil => rfl
  | cons f rest ih =>
    cases f with
    | none => simp only [reduce_files, directory_records, ih]
    | some content =>
      simp only [reduce_files, directory_records, reduce_file, reduce_blocks_eq]
      cases hr : read_blocks (content.length + 1) content with
      | none => simp [read_records, hr]
      | some records =>
        simp only [Option.map_some', ih, read_records, hr]
        cases hd : directory_records rest with
        | none => rfl
        | some more => simp only [Option.map_some', List.foldl_append]

/-- The dictionary of the reduce stage is the fold of `reduce_record` over the
records of the files read, in reading order. -/
theorem worker_reduce_phase_eq (al : Allocator) (sg : Bool) (bounds : Int × Int)
    (files : List (Option (List Char))) :
    worker_reduce_phase al sg bounds (some files) =
      (directory_records files).map (fun rs => rs.foldl (reduce_record al sg bounds) []) :=
  reduce_files_eq al sg bounds files []

theorem fgets_chars_le (n : Nat) (stream : List Char) :
    (fgets_chars n stream).2.length ≤ stream.length := by
  induction n generalizing stream with
  | zero => simp [fgets_chars]
  | succ n ih =>
    cases stream with
    | nil => simp [fgets_chars]
    | cons c rest =>
      by_cases hc : c = '\n'
      · simp [fgets_chars, hc]
      · simp only [fgets_chars, hc, if_false, List.length_cons]
        have := ih rest
        omega

/-- A successful `fgets` into a buffer of at least two bytes takes at least one
character off the stream. -/
theorem fgets_shorter (size : Nat) (hsize : 2 ≤ size) (stream line rest : List Char)
    (h : fgets size stream = some (line, rest)) : rest.length < stream.length := by
  unfold fgets at h
  by_cases hs : stream = []
  · simp [hs] at h
  · rw [if_neg hs] at h
    obtain ⟨n, hn⟩ : ∃ n, size - 1 = n + 1 := ⟨size - 2, by omega⟩
    rw [hn] at h
    cases stream with
    | nil => exact absurd rfl hs
    | cons c cs =>
      have h2 : rest = (fgets_chars (n + 1) (c :: cs)).2 := by
        have := congrArg Prod.snd (Option.some.inj h)
        exact this.symm
      rw [h2]
      by_cases hc : c = '\n'
      · simp [fgets_chars, hc]
      · simp only [fgets_chars, hc, if_false, List.length_cons]
        have := fgets_chars_le n cs
        omega

/-- The inner loop stops before its bound on the passes is reached: more
passes change nothing, and the stream does not grow. -/
theorem read_lines_fuel (fn : List Char) (steps k : Nat) (stream : List Char)
    (h : stream.length < steps) :
    read_lines fn (steps + k) stream = read_lines fn steps stream ∧
      ∀ rr, read_lines fn steps stream = some rr → rr.2.length ≤ stream.length := by
  induction steps generalizing stream with
  | zero => omega
  | succ steps ih =>
    have e : steps + 1 + k = (steps + k) + 1 := by omega
    rw [e]
    simp only [read_lines]
    cases hf : fgets MAX_LINE_SIZE stream with
    | none => exact ⟨rfl, fun rr hrr => by obtain rfl := Option.some.inj hrr; exact Nat.le_refl _⟩
    | some lr =>
      obtain ⟨line, rest⟩ := lr
      have hlt := fgets_shorter MAX_LINE_SIZE (by decide) stream line rest hf
      simp only
      by_cases hl : c_string line = ['\n']
      · simp only [hl, if_true]
        exact ⟨trivial, fun rr hrr => by obtain rfl := Option.some.inj hrr; exact Nat.le_of_lt hlt⟩
      · simp only [hl, if_false]
        cases hd : drop_last_char line with
        | none => exact ⟨rfl, fun rr hrr => Option.noConfusion hrr⟩
        | some text =>
          simp only
          cases hw : sscanf_word_count text with
          | none => exact ⟨rfl, fun rr hrr => Option.noConfusion hrr⟩
          | some wc =>
            obtain ⟨i1, i2⟩ := ih rest (by omega)
            simp only [i1]
            refine ⟨trivial, ?_⟩
            intro rr hrr
            cases hr : read_lines fn steps rest with
            | none => rw [hr] at hrr; exact Option.noConfusion hrr
            | some r2 =>
              rw [hr] at hrr
              obtain rfl := Option.some.inj hrr
              have := i2 r2 hr
              simp only
              omega

/-- The outer loop stops before its bound on the passes is reached: more
passes change nothing. -/
theorem read_blocks_fuel (steps k : Nat) (stream : List Char) (h : stream.length < steps) :
    read_blocks (steps + k) stream = read_blocks steps stream := by
  induction steps generalizing stream with
  | zero => omega
  | succ steps ih =>
    have e : steps + 1 + k = (steps + k) + 1 := by omega
    rw [e]
    simp only [read_blocks]
    cases hf : fgets MAX_PATH stream with
    | none => rfl
    | some lr =>
      obtain ⟨line, rest⟩ := lr
      have hlt := fgets_shorter MAX_PATH (by decide) stream line rest hf
      simp only
      cases hd : drop_last_char line with
      | none => rfl
      | some name =>
        simp only
        have e2 : steps + k + 1 = steps + 1 + k := by omega
        obtain ⟨i1, i2⟩ := read_lines_fuel name (steps + 1) k rest (by omega)
        rw [e2, i1]
        cases hr : read_lines name (steps + 1) rest with
        | none => rfl
        | some rr =>
          simp only
          rw [ih rr.2 (by have := i2 rr hr; omega)]

/-- The bound on the passes in `reduce_file` is never reached: with any larger
bound the loops give the same result. -/
theorem reduce_file_fuel (al : Allocator) (sg : Bool) (bounds : Int × Int)
    (content : List Char) (result : Dictionary) (k : Nat) :
    reduce_blocks al sg bounds (content.length + 1 + k) content result =
      reduce_file al sg bounds content result := by
  unfold reduce_file
  rw [reduce_blocks_eq, reduce_blocks_eq, read_blocks_fuel _ k content (by omega)]

theorem fgets_chars_append (n : Nat) (stream : List Char) :
    (fgets_chars n stream).1 ++ (fgets_chars n stream).2 = stream := by
  induction n generalizing stream with
  | zero => simp [fgets_chars]
  | succ n ih =>
    cases stream with
    | nil => simp [fgets_chars]
    | cons c rest =>
      by_cases hc : c = '\n'
      · simp [fgets_chars, hc]
      · simp only [fgets_chars, hc, if_false, List.cons_append, ih rest]

theorem fgets_chars_newline (n : Nat) (stream : List Char) :
    ∀ c ∈ (fgets_chars n stream).1.dropLast, c ≠ '\n' := by
  induction n generalizing stream with
  | zero => simp [fgets_chars]
  | succ n ih =>
    cases stream with
    | nil => simp [fgets_chars]
    | cons c rest =>
      by_cases hc : c = '\n'
      · simp [fgets_chars, hc]
      · simp only [fgets_chars, hc, if_false]
        intro d hd
        cases hp : (fgets_chars n rest).1 with
        | nil =>
          rw [hp] at hd
          simp at hd
        | cons x xs =>
          rw [hp, List.dropLast_cons₂] at hd
          rcases List.mem_cons.1 hd with e | e
          · rw [e]; exact hc
          · exact ih rest d (by rw [hp]; exact e)

theorem fgets_chars_ne_nil (n : Nat) (c : Char) (stream : List Char) :
    (fgets_chars (n + 1) (c :: stream)).1 ≠ [] := by
  by_cases hc : c = '\n'
  · simp [fgets_chars, hc]
  · simp [fgets_chars, hc]

theorem short_word_parts_mono (l : List Char) (j k : Nat) (hjk : j ≤ k)
    (h : short_word_parts k l = true) : short_word_parts j l = true := by
  induction l generalizing j k with
  | nil => rfl
  | cons c cs ih =>
    by_cases hc : c = ':' ∨ c = '\n'
    · simp only [short_word_parts, hc, if_true] at h ⊢
      exact h
    · simp only [short_word_parts, hc, if_false, Bool.and_eq_true, decide_eq_true_eq] at h ⊢
      exact ⟨by omega, ih (j + 1) (k + 1) (by omega) h.2⟩

theorem short_word_parts_suffix (a b : List Char) (k : Nat)
    (h : short_word_parts k (a ++ b) = true) : short_word_parts 0 b = true := by
  induction a generalizing k with
  | nil => exact short_word_parts_mono b 0 k (Nat.zero_le _) h
  | cons c cs ih =>
    by_cases hc : c = ':' ∨ c = '\n'
    · simp only [List.cons_append, short_word_parts, hc, if_true] at h
      exact ih 0 h
    · simp only [List.cons_append, short_word_parts, hc, if_false, Bool.and_eq_true] at h
      exact ih (k + 1) h.2

theorem short_word_parts_prefix (l r : List Char) (k : Nat)
    (h : short_word_parts k (l ++ r) = true) (hl : ∀ c ∈ l, c ≠ ':' ∧ c ≠ '\n')
    (hne : l ≠ []) : k + l.length < MAX_WORD_SIZE := by
  induction l generalizing k with
  | nil => exact absurd rfl hne
  | cons c cs ih =>
    have hc : ¬ (c = ':' ∨ c = '\n') := by
      have := hl c (List.mem_cons_self _ _)
      intro e
      rcases e with e | e
      · exact this.1 e
      · exact this.2 e
    simp only [List.cons_append, short_word_parts, hc, if_false, Bool.and_eq_true,
      decide_eq_true_eq] at h
    by_cases hcs : cs = []
    · subst hcs
      simp only [List.length_singleton]
      exact h.1
    · have := ih (k + 1) h.2 (fun d hd => hl d (List.mem_cons_of_mem _ hd)) hcs
      simp only [List.length_cons]
      omega

/-- The `sscanf` of a line is defined when the line is the beginning of a text
whose word parts are short. -/
theorem sscanf_word_count_defined (text rest : List Char)
    (h : short_word_parts 0 (text ++ rest) = true) (hn : ∀ c ∈ text, c ≠ '\n') :
    ∃ wc, sscanf_word_count text = some wc := by
  unfold sscanf_word_count
  by_cases he : text.takeWhile (fun c => c ≠ ':') = []
  · exact ⟨_, by rw [if_pos he]⟩
  · rw [if_neg he]
    have hsplit : text.takeWhile (fun c => c ≠ ':') ++ text.dropWhile (fun c => c ≠ ':') =
        text := List.takeWhile_append_dropWhile _ _
    have hlt : 0 + (text.takeWhile (fun c => c ≠ ':')).length < MAX_WORD_SIZE := by
      apply short_word_parts_prefix _ (text.dropWhile (fun c => c ≠ ':') ++ rest) 0
      · rw [← List.append_assoc, hsplit]
        exact h
      · intro c hc
        have h1 := List.mem_takeWhile_imp hc
        have h2 : c ∈ text := (List.takeWhile_sublist (l := text) _).subset hc
        exact ⟨by simpa using h1, hn c h2⟩
      · exact he
    rw [if_neg (by omega)]
    split
    · exact ⟨_, rfl⟩
    · exact ⟨_, rfl⟩

/-- The inner loop is defined on a text without NUL whose word parts are
short, and leaves such a text. -/
theorem read_lines_defined (fn : List Char) (steps : Nat) (stream : List Char)
    (hnul : '\x00' ∉ stream) (h : short_word_parts 0 stream = true) :
    ∃ rr, read_lines fn steps stream = some rr ∧ '\x00' ∉ rr.2 ∧
      short_word_parts 0 rr.2 = true := by
  induction steps generalizing stream with
  | zero => exact ⟨([], stream), rfl, hnul, h⟩
  | succ steps ih =>
    simp only [read_lines]
    cases hf : fgets MAX_LINE_SIZE stream with
    | none => exact ⟨([], stream), rfl, hnul, h⟩
    | some lr =>
      obtain ⟨line, rest⟩ := lr
      unfold fgets at hf
      by_cases hs : stream = []
      · simp [hs] at hf
      · rw [if_neg hs] at hf
        have hline : line = (fgets_chars (MAX_LINE_SIZE - 1) stream).1 :=
          (congrArg Prod.fst (Option.some.inj hf)).symm
        have hrest : rest = (fgets_chars (MAX_LINE_SIZE - 1) stream).2 :=
          (congrArg Prod.snd (Option.some.inj hf)).symm
        have happ : line ++ rest = stream := by
          rw [hline, hrest]
          exact fgets_chars_append _ _
        have hnl : '\x00' ∉ line := fun e => hnul (happ ▸ List.mem_append_left _ e)
        have hnr : '\x00' ∉ rest := fun e => hnul (happ ▸ List.mem_append_right _ e)
        have hsr : short_word_parts 0 rest = true :=
          short_word_parts_suffix line rest 0 (happ ▸ h)
        have hne : line ≠ [] := by
          rw [hline]
          cases stream with
          | nil => exact absurd rfl hs
          | cons c cs => exact fgets_chars_ne_nil _ c cs
        simp only
        by_cases hl : c_string line = ['\n']
        · simp only [hl, if_true]
          exact ⟨([], rest), rfl, hnr, hsr⟩
        · simp only [hl, if_false]
          have hd : drop_last_char line = some line.dropLast := by
            unfold drop_last_char
            rw [c_string_of_no_nul line hnl, if_neg hne]
          rw [hd]
          simp only
          have hpre : line.dropLast ++ (line.drop (line.length - 1) ++ rest) = stream := by
            rw [← List.append_assoc, List.dropLast_eq_take, List.take_append_drop]
            exact happ
          obtain ⟨wc, hwc⟩ := sscanf_word_count_defined line.dropLast
            (line.drop (line.length - 1) ++ rest) (hpre ▸ h)
            (by rw [hline]; exact fgets_chars_newline _ _)
          rw [hwc]
          simp only
          obtain ⟨rr, hrr, h1, h2⟩ := ih rest hnr hsr
          rw [hrr]
          exact ⟨_, rfl, h1, h2⟩

/-- The outer loop is defined on a text without NUL whose word parts are
short. -/
theorem read_blocks_defined (steps : Nat) (stream : List Char)
    (hnul : '\x00' ∉ stream) (h : short_word_parts 0 stream = true) :
    ∃ records, read_blocks steps stream = some records := by
  induction steps generalizing stream with
  | zero => exact ⟨[], rfl⟩
  | succ steps ih =>
    simp only [read_blocks]
    cases hf : fgets MAX_PATH stream with
    | none => exact ⟨[], rfl⟩
    | some lr =>
      obtain ⟨line, rest⟩ := lr
      unfold fgets at hf
      by_cases hs : stream = []
      · simp [hs] at hf
      · rw [if_neg hs] at hf
        have hline : line = (fgets_chars (MAX_PATH - 1) stream).1 :=
          (congrArg Prod.fst (Option.some.inj hf)).symm
        have hrest : rest = (fgets_chars (MAX_PATH - 1) stream).2 :=
          (congrArg Prod.snd (Option.some.inj hf)).symm
        have happ : line ++ rest = stream := by
          rw [hline, hrest]
          exact fgets_chars_append _ _
        have hnl : '\x00' ∉ line := fun e => hnul (happ ▸ List.mem_append_left _ e)
        have hnr : '\x00' ∉ rest := fun e => hnul (happ ▸ List.mem_append_right _ e)
        have hsr : short_word_parts 0 rest = true :=
          short_word_parts_suffix line rest 0 (happ ▸ h)
        have hne : line ≠ [] := by
          rw [hline]
          cases stream with
          | nil => exact absurd rfl hs
          | cons c cs => exact fgets_chars_ne_nil _ c cs
        have hd : drop_last_char line = some line.dropLast := by
          unfold drop_last_char
          rw [c_string_of_no_nul line hnl, if_neg hne]
        simp only [hd]
        obtain ⟨rr, hrr, h1, h2⟩ := read_lines_defined line.dropLast (steps + 1) rest hnr hsr
        rw [hrr]
        simp only
        obtain ⟨records, hrec⟩ := ih rr.2 h1 h2
        rw [hrec]
        exact ⟨_, rfl⟩

/-- The reading of a file without NUL whose word parts are short is defined. -/
theorem read_records_defined (content : List Char) (hnul : '\x00' ∉ content)
    (h : short_word_parts 0 content = true) : ∃ records, read_records content = some records :=
  read_blocks_defined _ content hnul h

theorem directory_records_nil : directory_records [] = some [] := rfl

theorem directory_records_cons_some (content : List Char) (files : List (Option (List Char)))
    (records more : List Record) (h1 : read_records content = some records)
    (h2 : directory_records files = some more) :
    directory_records (some content :: files) = some (records ++ more) := by
  simp only [directory_records, h1, h2]

/-- What `fgets` read is cut to the line without its newline when it holds no
NUL. -/
theorem drop_last_char_line (l : List Char) (h : '\x00' ∉ l) :
    drop_last_char (l ++ ['\n']) = some l := by
  have hn : '\x00' ∉ l ++ ['\n'] := by
    intro hm
    rcases List.mem_append.1 hm with e | e
    · exact h e
    · simp at e
  unfold drop_last_char
  rw [c_string_of_no_nul _ hn, if_neg (by simp), List.dropLast_concat]

theorem fgets_chars_line (l rest : List Char) (n : Nat) (h1 : '\n' ∉ l) (h2 : l.length < n) :
    fgets_chars n (l ++ '\n' :: rest) = (l ++ ['\n'], rest) := by
  induction l generalizing n with
  | nil =>
    cases n with
    | zero => omega
    | succ n => simp [fgets_chars]
  | cons c cs ih =>
    cases n with
    | zero => simp at h2
    | succ n =>
      have hc : ¬ c = '\n' := fun e => h1 (by simp [e])
      have hcs : '\n' ∉ cs := fun e => h1 (List.mem_cons_of_mem _ e)
      have e := ih n hcs (by simpa using h2)
      show fgets_chars (n + 1) (c :: (cs ++ '\n' :: rest)) = (c :: (cs ++ ['\n']), rest)
      simp only [fgets_chars, hc, if_false, e]

theorem fgets_line (size : Nat) (l rest : List Char) (h1 : '\n' ∉ l)
    (h2 : l.length + 1 < size) :
    fgets size (l ++ '\n' :: rest) = some (l ++ ['\n'], rest) := by
  unfold fgets
  rw [if_neg (by simp), fgets_chars_line l rest (size - 1) h1 (by omega)]

theorem digitChar_props (k : Nat) (h : k < 10) :
    (Nat.digitChar k).isDigit = true ∧ (Nat.digitChar k).toNat - 48 = k ∧
      isspace (Nat.digitChar k) = false ∧ Nat.digitChar k ≠ '-' ∧ Nat.digitChar k ≠ '+' ∧
      Nat.digitChar k ≠ '\n' := by
  interval_cases k <;> decide

theorem toDigitsCore_props (fuel n : Nat) (ds : List Char) (h : n < fuel)
    (hd : ∀ c ∈ ds, c.isDigit = true) :
    (∀ c ∈ Nat.toDigitsCore 10 fuel n ds, c.isDigit = true) ∧
      (Nat.toDigitsCore 10 fuel n ds).foldl (fun a c => 10 * a + (c.toNat - 48)) 0 =
        ds.foldl (fun a c => 10 * a + (c.toNat - 48)) n ∧
      ∃ k, k < 10 ∧ ∃ t, Nat.toDigitsCore 10 fuel n ds = Nat.digitChar k :: t := by
  induction fuel generalizing n ds with
  | zero => omega
  | succ fuel ih =>
    have hmod : n % 10 < 10 := Nat.mod_lt _ (by decide)
    obtain ⟨p1, p2, -⟩ := digitChar_props (n % 10) hmod
    by_cases h0 : n / 10 = 0
    · simp only [Nat.toDigitsCore, h0, if_true]
      refine ⟨?_, ?_, ⟨n % 10, hmod, ds, rfl⟩⟩
      · intro c hc
        rcases List.mem_cons.1 hc with e | e
        · rw [e]; exact p1
        · exact hd c e
      · rw [List.foldl_cons, p2]
        congr 1
        omega
    · simp only [Nat.toDigitsCore, h0, if_false]
      have hlt : n / 10 < fuel := by omega
      obtain ⟨q1, q2, q3⟩ := ih (n / 10) (Nat.digitChar (n % 10) :: ds) hlt (by
        intro c hc
        rcases List.mem_cons.1 hc with e | e
        · rw [e]; exact p1
        · exact hd c e)
      refine ⟨q1, ?_, q3⟩
      rw [q2, List.foldl_cons, p2]
      congr 1
      omega

/-- Reading back with `%d` what `%d` printed for an `int` that is not
negative. -/
theorem sscanf_d_print_d (n : Nat) (hn : (n : Int) ≤ INT_MAX) :
    sscanf_d (print_d (n : Int)).data = some (n : Int) := by
  have hval : to_int ((min n LONG_MAX : Nat) : Int) = (n : Int) := by
    have h1 : min n LONG_MAX = n := by
      apply Nat.min_eq_left
      unfold INT_MAX at hn
      unfold LONG_MAX
      omega
    rw [h1]
    exact to_int_small _ (by unfold INT_MIN; omega) hn
  have hdata : (print_d (n : Int)).data = Nat.toDigitsCore 10 (n + 1) n [] := rfl
  obtain ⟨h1, h2, k, hk, t, h3⟩ := toDigitsCore_props (n + 1) n [] (by omega) (by simp)
  rw [hdata]
  obtain ⟨-, -, k1, k2, k3, -⟩ := digitChar_props k hk
  have hall : (Nat.toDigitsCore 10 (n + 1) n []).takeWhile Char.isDigit =
      Nat.toDigitsCore 10 (n + 1) n [] := by
    rw [List.takeWhile_eq_self_iff]
    exact h1
  have hdrop : (Nat.toDigitsCore 10 (n + 1) n []).dropWhile isspace =
      Nat.toDigitsCore 10 (n + 1) n [] := by
    rw [h3, List.dropWhile_cons, k1]
    rfl
  unfold sscanf_d
  rw [hdrop]
  generalize hD : Nat.toDigitsCore 10 (n + 1) n [] = D at h2 h3 hall
  subst h3
  split
  · rename_i he
    exact absurd (List.cons.inj he).1 k2
  · rename_i he
    exact absurd (List.cons.inj he).1 k3
  · rw [hall, if_neg (by simp)]
    have hv : digits_value (Nat.digitChar k :: t) = n := by
      simp only [digits_value, h2, List.foldl_nil]
    simp only [strtol, hv, Bool.false_eq_true, if_false, hval]

theorem takeWhile_until {α : Type} (p : α → Bool) (l : List α) (a : α) (r : List α)
    (hl : ∀ x ∈ l, p x = true) (ha : p a = false) :
    (l ++ a :: r).takeWhile p = l ∧ (l ++ a :: r).dropWhile p = a :: r := by
  induction l with
  | nil => simp [List.takeWhile, List.dropWhile, ha]
  | cons x rest ih =>
    have hx := hl x (List.mem_cons_self _ _)
    obtain ⟨h1, h2⟩ := ih (fun y hy => hl y (List.mem_cons_of_mem _ hy))
    simp [List.takeWhile, List.dropWhile, hx, h1, h2]

theorem sscanf_word_count_line (w : List Char) (n : Nat) (hw : w ≠ []) (hc : ':' ∉ w)
    (hlen : w.length < MAX_WORD_SIZE) (hn : (n : Int) ≤ INT_MAX) :
    sscanf_word_count (w ++ ':' :: (print_d (n : Int)).data) = some (w, (n : Int)) := by
  obtain ⟨h1, h2⟩ := takeWhile_until (fun c => decide (c ≠ ':')) w ':' (print_d (n : Int)).data
    (by
      intro x hx
      have : x ≠ ':' := fun e => hc (e ▸ hx)
      simpa using this) (by simp)
  unfold sscanf_word_count
  rw [h1, h2, if_neg hw, if_neg (by omega)]
  simp only [sscanf_d_print_d n hn, Option.getD_some]

theorem print_d_no_nul (n : Nat) : '\x00' ∉ (print_d (n : Int)).data := by
  have hdata : (print_d (n : Int)).data = Nat.toDigitsCore 10 (n + 1) n [] := rfl
  obtain ⟨h1, -, -⟩ := toDigitsCore_props (n + 1) n [] (by omega) (by simp)
  rw [hdata]
  intro hm
  have := h1 _ hm
  revert this
  decide

theorem line_chars_no_nul (wc : String × Int) (h : readable_pair wc) :
    '\x00' ∉ line_chars wc := by
  obtain ⟨-, -, -, h4, -, h6, -⟩ := h
  obtain ⟨n, hn⟩ := Int.eq_ofNat_of_zero_le h4
  unfold line_chars
  rw [hn]
  intro hm
  rcases List.mem_append.1 hm with e | e
  · exact h6 e
  · rcases List.mem_cons.1 e with e2 | e2
    · revert e2; decide
    · exact print_d_no_nul n e2

theorem print_d_no_newline (n : Nat) : '\n' ∉ (print_d (n : Int)).data := by
  have hdata : (print_d (n : Int)).data = Nat.toDigitsCore 10 (n + 1) n [] := rfl
  obtain ⟨h1, -, -⟩ := toDigitsCore_props (n + 1) n [] (by omega) (by simp)
  rw [hdata]
  intro hm
  have := h1 _ hm
  simp at this

theorem line_chars_no_newline (wc : String × Int) (h : readable_pair wc) :
    '\n' ∉ line_chars wc := by
  obtain ⟨-, -, h3, h4, -⟩ := h
  obtain ⟨n, hn⟩ := Int.eq_ofNat_of_zero_le h4
  unfold line_chars
  rw [hn]
  intro hm
  rcases List.mem_append.1 hm with e | e
  · exact h3 e
  · rcases List.mem_cons.1 e with e2 | e2
    · simp at e2
    · exact print_d_no_newline n e2

theorem string_mk_data (s : String) : String.mk s.data = s := rfl

/-- The inner loop reads back the word lines of a block, up to and including
the empty line. -/
theorem read_lines_block (fn : List Char) (wcs : List (String × Int)) (rest : List Char)
    (steps : Nat) (hs : wcs.length < steps) (h : ∀ wc ∈ wcs, readable_pair wc) :
    read_lines fn steps
        (wcs.flatMap (fun wc => line_chars wc ++ ['\n']) ++ '\n' :: rest) =
      some (wcs.map (fun wc => (⟨String.mk fn, wc.1, wc.2⟩ : Record)), rest) := by
  induction wcs generalizing steps with
  | nil =>
    cases steps with
    | zero => simp at hs
    | succ steps =>
      have hf : fgets MAX_LINE_SIZE ('\n' :: rest) = some (['\n'], rest) :=
        fgets_line MAX_LINE_SIZE [] rest (by simp) (by decide)
      have hc : c_string ['\n'] = ['\n'] := by decide
      simp only [List.flatMap_nil, List.nil_append, read_lines, hf, hc, if_true, List.map_nil]
  | cons wc more ih =>
    cases steps with
    | zero => simp at hs
    | succ steps =>
      have hwc := h wc (List.mem_cons_self _ _)
      have hnl := line_chars_no_newline wc hwc
      have hnul := line_chars_no_nul wc hwc
      obtain ⟨h1, h2, h3, h4, h5, h6, h7, h8⟩ := hwc
      obtain ⟨n, hn⟩ := Int.eq_ofNat_of_zero_le h4
      have hstream : (wc :: more).flatMap (fun wc => line_chars wc ++ ['\n']) ++ '\n' :: rest =
          line_chars wc ++ '\n' ::
            (more.flatMap (fun wc => line_chars wc ++ ['\n']) ++ '\n' :: rest) := by
        simp [List.flatMap_cons, List.append_assoc]
      have hf := fgets_line MAX_LINE_SIZE (line_chars wc)
        (more.flatMap (fun wc => line_chars wc ++ ['\n']) ++ '\n' :: rest) hnl h5
      have hne : ¬ c_string (line_chars wc ++ ['\n']) = ['\n'] := by
        rw [c_string_of_no_nul _ (by
          intro hm
          rcases List.mem_append.1 hm with e | e
          · exact hnul e
          · simp at e)]
        intro e
        have hlen := congrArg List.length e
        have hpos : 0 < wc.1.data.length := List.length_pos.2 h1
        simp [line_chars] at hlen
        omega
      have hscan : sscanf_word_count (line_chars wc) = some (wc.1.data, wc.2) := by
        unfold line_chars
        rw [hn]
        exact sscanf_word_count_line wc.1.data n h1 h2 h7 (hn ▸ h8)
      rw [hstream]
      simp only [read_lines, hf, hne, if_false, drop_last_char_line _ hnul, hscan,
        string_mk_data, List.map_cons]
      rw [ih steps (by simpa using hs) (fun x hx => h x (List.mem_cons_of_mem _ hx))]

/-- The characters of a block. -/
theorem format_block_data (path : String) (wcs : List (String × Int)) :
    (format_block path wcs).data =
      path.data ++ '\n' :: (wcs.flatMap (fun wc => line_chars wc ++ ['\n']) ++ ['\n']) := by
  have hj : ∀ l : List (String × Int),
      (String.join (l.map (fun wc => format_word_line wc.1 wc.2))).data =
        l.flatMap (fun wc => line_chars wc ++ ['\n']) := by
    intro l
    induction l with
    | nil => rfl
    | cons x rest ih =>
      rw [List.map_cons, string_join_cons, String.data_append, ih, List.flatMap_cons]
      simp [format_word_line, line_chars, String.data_append]
  unfold format_block
  simp only [String.data_append, hj]
  simp

/-- The outer loop reads back one block and goes on with what follows it. -/
theorem read_blocks_block (path : String) (wcs : List (String × Int)) (rest : List Char)
    (steps : Nat) (hs : wcs.length ≤ steps) (hp : readable_path path)
    (h : ∀ wc ∈ wcs, readable_pair wc) :
    read_blocks (steps + 1) ((format_block path wcs).data ++ rest) =
      (read_blocks steps rest).map
        (fun records => wcs.map (fun wc => (⟨path, wc.1, wc.2⟩ : Record)) ++ records) := by
  have hstream : (format_block path wcs).data ++ rest =
      path.data ++ '\n' ::
        (wcs.flatMap (fun wc => line_chars wc ++ ['\n']) ++ '\n' :: rest) := by
    rw [format_block_data]
    simp [List.append_assoc]
  have hf := fgets_line MAX_PATH path.data
    (wcs.flatMap (fun wc => line_chars wc ++ ['\n']) ++ '\n' :: rest) hp.1 hp.2.1
  rw [hstream]
  simp only [read_blocks, hf, drop_last_char_line _ hp.2.2,
    read_lines_block path.data wcs rest (steps + 1) (by omega) h, string_mk_data]
  cases read_blocks steps rest <;> rfl

theorem read_blocks_nil (steps : Nat) : read_blocks steps [] = some [] := by
  cases steps <;> rfl

/-! ## The claims on the intermediate file -/

/-- Claim C14 as stated fails when no word is retained: for the text
`a bb 12` every token is shorter than `MIN_WORD_SIZE`, the dictionary of the
file stays empty, the print loop runs zero times and `worker_parse_file`
appends nothing, not the path line followed by the blank line.  It also fails
for a word that occurs `2 ^ 31` times: the block written for the dictionary of
the file holds the count `INT_MIN`, not the number of occurrences. -/
theorem worker_parse_file_without_words :
    parse_words "a bb 12".data = some [] ∧
      worker_parse_file Allocator.reliable "in/A" (some "a bb 12".data) true = some "" ∧
      format_block "in/A" [] = "in/A\n\n" ∧
      worker_parse_file Allocator.reliable "in/A" (some "a bb 12".data) true ≠
        some (format_block "in/A" []) ∧
      (List.replicate 2147483648 "cat").count "cat" = 2147483648 ∧
      intermediate_blocks "in/A"
          (file_words Allocator.reliable "in/A" (List.replicate 2147483648 "cat")) =
        "in/A\ncat:-2147483648\n\n" := by
  refine ⟨by decide, by decide, by decide, by decide, List.count_replicate_self _ _, ?_⟩
  rw [file_words_replicate "in/A" "cat" 2147483648 (by decide)]
  decide

theorem parse_words_fit (text : List Char)
    (hfit : ∀ chunk ∈ split_runs isspace text, chunk.length < MAX_WORD_SIZE) :
    parse_words text = some ((split_runs isspace text).flatMap buffer_words) := by
  unfold parse_words
  have hall : (split_runs isspace text).all (fun chunk => chunk.length < MAX_WORD_SIZE) = true := by
    rw [List.all_eq_true]
    intro chunk hc
    simpa using hfit chunk hc
  rw [if_pos hall]

theorem worker_parse_file_words (al : Allocator) (hal : ∀ n, al.ok n = true) (path : String)
    (text : List Char) (words : List String) (hw : parse_words text = some words)
    (hc : ∀ w ∈ words, (words.count w : Int) ≤ INT_MAX) :
    worker_parse_file al path (some text) true =
      some (if words = [] then "" else format_block path (word_counts words)) := by
  simp only [worker_parse_file, if_true, hw, file_words_eq al hal path _ hc]
  by_cases h : words = []
  · simp [h, intermediate_blocks]
  · simp only [h, if_false, intermediate_blocks_single]

/-- Claim C14, amended: for a source file that opens, whose blank-separated
chunks fit the read buffer and in which no retained word occurs more than
`INT_MAX` times, an intermediate file that opens and no allocation failure,
one call of `worker_parse_file` appends nothing when no word is retained, and
else exactly one block: the line of the source path, one line `<word>:<count>`
per distinct retained word in first-seen order with its number of occurrences,
then one empty line. -/
theorem worker_parse_file_block (al : Allocator) (hal : ∀ n, al.ok n = true) (path : String)
    (text : List Char)
    (hfit : ∀ chunk ∈ split_runs isspace text, chunk.length < MAX_WORD_SIZE)
    (hcount : ∀ w, (((parse_words text).getD []).count w : Int) ≤ INT_MAX) :
    ∃ words : List String, parse_words text = some words ∧
      file_words al path words =
        (if words = [] then [] else [Pair.of_pairs path (word_counts words)]) ∧
      worker_parse_file al path (some text) true =
        some (if words = [] then "" else format_block path (word_counts words)) := by
  have hw := parse_words_fit text hfit
  have hc : ∀ w ∈ (split_runs isspace text).flatMap buffer_words,
      ((((split_runs isspace text).flatMap buffer_words).count w : Nat) : Int) ≤ INT_MAX := by
    intro w _
    have := hcount w
    rw [hw] at this
    exact this
  exact ⟨_, hw, file_words_eq al hal path _ hc, worker_parse_file_words al hal path text _ hw hc⟩

theorem worker_parse_file_block_witness :
    (∀ chunk ∈ split_runs isspace "the cat sat on the mat".data,
        chunk.length < MAX_WORD_SIZE) ∧
      worker_parse_file Allocator.reliable "in/A" (some "the cat sat on the mat".data) true =
        some "in/A\nthe:2\ncat:1\nsat:1\nmat:1\n\n" ∧
      ∃ words : List String, parse_words "the cat sat on the mat".data = some words ∧
        file_words Allocator.reliable "in/A" words =
          (if words = [] then [] else [Pair.of_pairs "in/A" (word_counts words)]) ∧
        worker_parse_file Allocator.reliable "in/A" (some "the cat sat on the mat".data) true =
          some (if words = [] then "" else format_block "in/A" (word_counts words)) :=
  ⟨by decide, by decide,
    worker_parse_file_block Allocator.reliable (fun _ => rfl) "in/A"
      "the cat sat on the mat".data (by decide) (count_le_int_max _ (by decide))⟩

theorem read_records_block (path : String) (wcs : List (String × Int))
    (hp : readable_path path) (h : ∀ wc ∈ wcs, readable_pair wc) :
    read_records (format_block path wcs).data =
      some (wcs.map (fun wc => (⟨path, wc.1, wc.2⟩ : Record))) := by
  have hflat : ∀ l : List (String × Int),
      l.length ≤ (l.flatMap (fun wc => line_chars wc ++ ['\n'])).length := by
    intro l
    induction l with
    | nil => simp
    | cons x rest ih =>
      rw [List.flatMap_cons, List.length_append, List.length_append, List.length_cons]
      simp only [List.length_singleton]
      omega
  have hlen : wcs.length ≤ (format_block path wcs).data.length := by
    rw [format_block_data]
    have := hflat wcs
    simp only [List.length_append, List.length_cons]
    omega
  have := read_blocks_block path wcs [] (format_block path wcs).data.length hlen hp h
  rw [List.append_nil, read_blocks_nil, Option.map_some', List.append_nil] at this
  exact this

/-- Claim C16 as stated fails for a source path that holds a newline: for the
file `in/a(newline)b` with the text `cat cat` the map stage writes the block of
the dictionary `cat ↦ 2`; the reduce stage reads the path line up to the
newline, takes `b` for a word line without count, and recovers the records
`(in/a, b, 0)` and `(in/a, cat, 2)` instead of the path and the single pair
`(cat, 2)`. -/
theorem read_records_newline_in_path :
    worker_parse_file Allocator.reliable "in/a\nb" (some "cat cat".data) true =
        some (intermediate_blocks "in/a\nb" [Pair.of_pairs "in/a\nb" [("cat", 2)]]) ∧
      read_records (intermediate_blocks "in/a\nb" [Pair.of_pairs "in/a\nb" [("cat", 2)]]).data =
        some [⟨"in/a", "b", 0⟩, ⟨"in/a", "cat", 2⟩] ∧
      read_records (intermediate_blocks "in/a\nb" [Pair.of_pairs "in/a\nb" [("cat", 2)]]).data ≠
        some [⟨"in/a\nb", "cat", 2⟩] := by
  decide

/-- Claim C16, amended: for a source path without newline and NUL and of at
most 255 characters, and pairs whose words are not empty, hold neither `:` nor
a newline nor a NUL and have at most `MAX_WORD_SIZE - 1` characters, whose
counts lie between 0 and `INT_MAX` and whose lines fit the line buffer, the
record parser of `worker_reduce_phase` applied to the block `worker_parse_file`
writes for the dictionary of the path reads it without overrun and recovers
the path and exactly the pairs, in the same order. -/
theorem read_records_round_trip (path : String) (wcs : List (String × Int))
    (hp : readable_path path) (h : ∀ wc ∈ wcs, readable_pair wc) :
    read_records (intermediate_blocks path [Pair.of_pairs path wcs]).data =
      some (wcs.map (fun wc => (⟨path, wc.1, wc.2⟩ : Record))) := by
  rw [intermediate_blocks_single]
  exact read_records_block path wcs hp h

theorem read_records_round_trip_witness :
    readable_path "in/A" ∧ (∀ wc ∈ [("the", (2 : Int)), ("cat", 1)], readable_pair wc) ∧
      read_records (intermediate_blocks "in/A" [Pair.of_pairs "in/A" [("the", 2), ("cat", 1)]]).data =
        some [⟨"in/A", "the", 2⟩, ⟨"in/A", "cat", 1⟩] :=
  ⟨by decide, by decide,
    read_records_round_trip "in/A" [("the", 2), ("cat", 1)] (by decide) (by decide)⟩

/-! ## The keys of the reduce stage -/

theorem keys_insert_file (al : Allocator) (hal : ∀ n, al.ok n = true) (dic : Dictionary)
    (word file_name : String) (count : Int) (hu : unique_keys dic) :
    (insert_file_into_dictionary al dic word file_name count).2.map Pair.key =
      if some word ∈ dic.map Pair.key then dic.map Pair.key
      else dic.map Pair.key ++ [some word] := by
  rcases insert_file_shape al hal dic word file_name count hu with
    ⟨ha, he⟩ | ⟨l1, p, l2, hd, hp, -, -, he⟩
  · have : some word ∉ dic.map Pair.key := by
      intro hm
      obtain ⟨q, hq, e⟩ := List.mem_map.1 hm
      exact ha q hq e
    rw [he, if_neg this]
    simp
  · have : some word ∈ dic.map Pair.key := by
      rw [hd]
      simp [hp]
    rw [he, if_pos this, hd]
    simp [file_into_pair_key]

theorem unique_keys_insert_file (al : Allocator) (hal : ∀ n, al.ok n = true) (dic : Dictionary)
    (word file_name : String) (count : Int) (hu : unique_keys dic) :
    unique_keys (insert_file_into_dictionary al dic word file_name count).2 := by
  unfold unique_keys
  rw [keys_insert_file al hal dic word file_name count hu]
  by_cases hm : some word ∈ dic.map Pair.key
  · rw [if_pos hm]
    exact hu
  · rw [if_neg hm]
    exact nodup_snoc _ _ hu hm

theorem reduce_fold_keys (al : Allocator) (hal : ∀ n, al.ok n = true) (sg : Bool)
    (bounds : Int × Int) (recs : List Record) (dic : Dictionary) (hu : unique_keys dic) :
    unique_keys (recs.foldl (reduce_record al sg bounds) dic) ∧
      ∀ w : String, some w ∈ (recs.foldl (reduce_record al sg bounds) dic).map Pair.key ↔
        some w ∈ dic.map Pair.key ∨ ∃ r ∈ recs, r.word = w ∧ in_bounds sg bounds r.word = true := by
  induction recs generalizing dic with
  | nil => exact ⟨hu, fun w => by simp⟩
  | cons r rest ih =>
    rw [List.foldl_cons]
    by_cases hb : in_bounds sg bounds r.word = true
    · have hu2 := unique_keys_insert_file al hal dic r.word r.file_name r.count hu
      have hk := keys_insert_file al hal dic r.word r.file_name r.count hu
      have e : reduce_record al sg bounds dic r =
          (insert_file_into_dictionary al dic r.word r.file_name r.count).2 := by
        simp [reduce_record, hb]
      rw [e]
      refine ⟨(ih _ hu2).1, fun w => ?_⟩
      rw [(ih _ hu2).2 w, hk]
      by_cases hm : some r.word ∈ dic.map Pair.key
      · rw [if_pos hm]
        constructor
        · rintro (h | ⟨r2, h2, h3⟩)
          · exact Or.inl h
          · exact Or.inr ⟨r2, List.mem_cons_of_mem _ h2, h3⟩
        · rintro (h | ⟨r2, h2, h3, h4⟩)
          · exact Or.inl h
          · rcases List.mem_cons.1 h2 with e2 | e2
            · subst e2
              exact Or.inl (h3 ▸ hm)
            · exact Or.inr ⟨r2, e2, h3, h4⟩
      · rw [if_neg hm]
        constructor
        · rintro (h | ⟨r2, h2, h3⟩)
          · rcases List.mem_append.1 h with h5 | h5
            · exact Or.inl h5
            · simp only [List.mem_singleton, Option.some.injEq] at h5
              exact Or.inr ⟨r, List.mem_cons_self _ _, h5.symm, hb⟩
          · exact Or.inr ⟨r2, List.mem_cons_of_mem _ h2, h3⟩
        · rintro (h | ⟨r2, h2, h3, h4⟩)
          · exact Or.inl (List.mem_append_left _ h)
          · rcases List.mem_cons.1 h2 with e2 | e2
            · subst e2
              exact Or.inl (List.mem_append_right _ (by simp [h3]))
            · exact Or.inr ⟨r2, e2, h3, h4⟩
    · have e : reduce_record al sg bounds dic r = dic := by
        simp [reduce_record, hb]
      rw [e]
      refine ⟨(ih _ hu).1, fun w => ?_⟩
      rw [(ih _ hu).2 w]
      constructor
      · rintro (h | ⟨r2, h2, h3⟩)
        · exact Or.inl h
        · exact Or.inr ⟨r2, List.mem_cons_of_mem _ h2, h3⟩
      · rintro (h | ⟨r2, h2, h3, h4⟩)
        · exact Or.inl h
        · rcases List.mem_cons.1 h2 with e2 | e2
          · subst e2
            exact absurd h4 hb
          · exact Or.inr ⟨r2, e2, h3, h4⟩

theorem reduce_stage_eq (al : Allocator) (sg : Bool) (n : Nat) (files : List (Option (List Char)))
    (i : Nat) :
    reduce_stage al sg n files i =
      (directory_records files).map
        (fun rs => rs.foldl (reduce_record al sg (worker_bounds sg n i)) []) :=
  worker_reduce_phase_eq al sg (worker_bounds sg n i) files

theorem in_bounds_letter (sg : Bool) (bounds : Int × Int) (word : String) (c : Char)
    (rest : List Char) (hw : word.data = c :: rest) (hc : c.toNat ≤ 127) :
    in_bounds sg bounds word = true ↔ bounds.1 ≤ (c.toNat : Int) ∧ (c.toNat : Int) ≤ bounds.2 := by
  have h0 : (0 : Int) ≤ (c.toNat : Int) := Int.natCast_nonneg _
  have h1 : (c.toNat : Int) ≤ 127 := by exact_mod_cast hc
  simp [in_bounds, hw, first_char, char_value, to_char_small sg _ h0 h1]

/-- The records of a directory that is read without overrun: every file that
opens is read without overrun, and the records are those of the files. -/
theorem directory_records_mem (files : List (Option (List Char))) (recs : List Record)
    (h : directory_records files = some recs) :
    (∀ content, some content ∈ files → ∃ recs1, read_records content = some recs1) ∧
      ∀ r, r ∈ recs ↔
        ∃ content recs1, some content ∈ files ∧ read_records content = some recs1 ∧ r ∈ recs1 := by
  induction files generalizing recs with
  | nil =>
    simp only [directory_records, Option.some.injEq] at h
    subst h
    simp
  | cons f rest ih =>
    cases f with
    | none =>
      simp only [directory_records] at h
      obtain ⟨h1, h2⟩ := ih recs h
      refine ⟨?_, ?_⟩
      · intro content hc
        rcases List.mem_cons.1 hc with e | e
        · simp at e
        · exact h1 content e
      · intro r
        rw [h2 r]
        constructor
        · rintro ⟨content, recs1, hc, hr, hm⟩
          exact ⟨content, recs1, List.mem_cons_of_mem _ hc, hr, hm⟩
        · rintro ⟨content, recs1, hc, hr, hm⟩
          rcases List.mem_cons.1 hc with e | e
          · simp at e
          · exact ⟨content, recs1, e, hr, hm⟩
    | some content0 =>
      simp only [directory_records] at h
      cases hr0 : read_records content0 with
      | none => simp [hr0] at h
      | some recs0 =>
        cases hd : directory_records rest with
        | none => simp [hr0, hd] at h
        | some more =>
          simp only [hr0, hd, Option.some.injEq] at h
          subst h
          obtain ⟨h1, h2⟩ := ih more hd
          refine ⟨?_, ?_⟩
          · intro content hc
            rcases List.mem_cons.1 hc with e | e
            · simp only [Option.some.injEq] at e
              subst e
              exact ⟨recs0, hr0⟩
            · exact h1 content e
          · intro r
            rw [List.mem_append, h2 r]
            constructor
            · rintro (hm | ⟨content, recs1, hc, hr, hm⟩)
              · exact ⟨content0, recs0, List.mem_cons_self _ _, hr0, hm⟩
              · exact ⟨content, recs1, List.mem_cons_of_mem _ hc, hr, hm⟩
            · rintro ⟨content, recs1, hc, hr, hm⟩
              rcases List.mem_cons.1 hc with e | e
              · simp only [Option.some.injEq] at e
                subst e
                rw [hr0] at hr
                simp only [Option.some.injEq] at hr
                subst hr
                exact Or.inl hm
              · exact Or.inr ⟨content, recs1, e, hr, hm⟩

theorem directory_records_defined (files : List (Option (List Char)))
    (h : ∀ content, some content ∈ files → ∃ recs1, read_records content = some recs1) :
    ∃ recs, directory_records files = some recs := by
  induction files with
  | nil => exact ⟨[], rfl⟩
  | cons f rest ih =>
    obtain ⟨more, hm⟩ := ih (fun content hc => h content (List.mem_cons_of_mem _ hc))
    cases f with
    | none => exact ⟨more, by simp only [directory_records, hm]⟩
    | some content0 =>
      obtain ⟨recs0, hr0⟩ := h content0 (List.mem_cons_self _ _)
      exact ⟨recs0 ++ more, by simp only [directory_records, hr0, hm]⟩

/-- The order in which the files are read decides neither whether the reading
is defined nor which records are read. -/
theorem directory_records_perm (l1 l2 : List (Option (List Char))) (h : l1.Perm l2)
    (recs1 : List Record) (h1 : directory_records l1 = some recs1) :
    ∃ recs2, directory_records l2 = some recs2 ∧ ∀ r, r ∈ recs2 ↔ r ∈ recs1 := by
  obtain ⟨ha, hb⟩ := directory_records_mem l1 recs1 h1
  obtain ⟨recs2, h2⟩ := directory_records_defined l2
    (fun content hc => ha content (h.mem_iff.2 hc))
  obtain ⟨-, hd⟩ := directory_records_mem l2 recs2 h2
  refine ⟨recs2, h2, fun r => ?_⟩
  rw [hb r, hd r]
  constructor
  · rintro ⟨content, rs, hc, hr, hm⟩
    exact ⟨content, rs, h.mem_iff.2 hc, hr, hm⟩
  · rintro ⟨content, rs, hc, hr, hm⟩
    exact ⟨content, rs, h.mem_iff.1 hc, hr, hm⟩

theorem one_entry_of_key (dic : Dictionary) (k : Option String) (hu : unique_keys dic)
    (hm : k ∈ dic.map Pair.key) : (dic.filter (fun p => p.key = k)).length = 1 := by
  unfold unique_keys at hu
  induction dic with
  | nil => simp at hm
  | cons p rest ih =>
    rw [List.map_cons, List.nodup_cons] at hu
    by_cases hk : p.key = k
    · have hnone : rest.filter (fun p => p.key = k) = [] := by
        rw [List.filter_eq_nil_iff]
        intro q hq e
        simp only [decide_eq_true_eq] at e
        exact hu.1 (List.mem_map.2 ⟨q, hq, e.trans hk.symm⟩)
      simp [List.filter_cons, hk, hnone]
    · have hm2 : k ∈ rest.map Pair.key := by
        rw [List.map_cons] at hm
        rcases List.mem_cons.1 hm with e | e
        · exact absurd e.symm hk
        · exact e
      simp [List.filter_cons, hk, ih hu.2 hm2]

/-- Among the workers of a run with `1 ≤ n ≤ 256`, exactly one holds a word
that starts with a lowercase letter and occurs in the records read. -/
theorem reduce_stage_keys (al : Allocator) (hal : ∀ n, al.ok n = true) (sg : Bool) (n : Nat)
    (h1 : 1 ≤ n) (h256 : n ≤ 256) (listing : Nat → List (Option (List Char)))
    (word : String) (hl : starts_with_letter word)
    (hr : ∀ i < n, ∃ recs, directory_records (listing i) = some recs ∧
      ∃ r ∈ recs, r.word = word) :
    ∃ i0 : Nat, i0 < n ∧
      (∃ dic, reduce_stage al sg n (listing i0) i0 = some dic ∧
        (dic.filter (fun p => p.key = some word)).length = 1) ∧
      in_bounds sg (worker_bounds sg n i0) word = true ∧
      ∀ i : Nat, i < n → i ≠ i0 →
        in_bounds sg (worker_bounds sg n i) word = false ∧
          ∃ dic, reduce_stage al sg n (listing i) i = some dic ∧
            some word ∉ dic.map Pair.key := by
  unfold starts_with_letter at hl
  cases hd : word.data with
  | nil => rw [hd] at hl; exact hl.elim
  | cons c rest =>
    rw [hd] at hl
    simp only at hl
    have ha : (('a'.toNat : Nat) : Int) ≤ (c.toNat : Int) := by exact_mod_cast hl.1
    have hz : (c.toNat : Int) ≤ (('z'.toNat : Nat) : Int) := by exact_mod_cast hl.2
    have hz127 : c.toNat ≤ 127 := by
      have : 'z'.toNat = 122 := by decide
      omega
    obtain ⟨i0, ⟨m, hm, hlo, hhi⟩, huniq⟩ := letter_worker_any sg n h1 h256 (c.toNat : Int) ha hz
    have hi0 : i0 < n := (master_reduce_phase_get sg n i0 m hm).1
    have hb0 : worker_bounds sg n i0 = (m.lo, m.hi) := by simp [worker_bounds, hm]
    have hin0 : in_bounds sg (worker_bounds sg n i0) word = true := by
      rw [in_bounds_letter sg _ word c rest hd hz127, hb0]
      exact ⟨hlo, hhi⟩
    have hout : ∀ i : Nat, i < n → i ≠ i0 → in_bounds sg (worker_bounds sg n i) word = false := by
      intro i hi hne
      obtain ⟨mi, hmi⟩ := master_reduce_phase_some sg n i hi
      have hbi : worker_bounds sg n i = (mi.lo, mi.hi) := by simp [worker_bounds, hmi]
      cases hb : in_bounds sg (worker_bounds sg n i) word with
      | false => rfl
      | true =>
        rw [in_bounds_letter sg _ word c rest hd hz127, hbi] at hb
        exact absurd (huniq i ⟨mi, hmi, hb.1, hb.2⟩) hne
    refine ⟨i0, hi0, ?_, hin0, fun i hi hne => ⟨hout i hi hne, ?_⟩⟩
    · obtain ⟨recs, hrec, r, hrm, hrw⟩ := hr i0 hi0
      obtain ⟨hu, hk⟩ := reduce_fold_keys al hal sg (worker_bounds sg n i0) recs []
        (by simp [unique_keys])
      refine ⟨_, by rw [reduce_stage_eq, hrec]; rfl, ?_⟩
      exact one_entry_of_key _ (some word) hu ((hk word).2 (Or.inr ⟨r, hrm, hrw, hrw ▸ hin0⟩))
    · obtain ⟨recs, hrec, -⟩ := hr i hi
      obtain ⟨-, hk⟩ := reduce_fold_keys al hal sg (worker_bounds sg n i) recs []
        (by simp [unique_keys])
      refine ⟨_, by rw [reduce_stage_eq, hrec]; rfl, ?_⟩
      rw [hk word]
      rintro (h | ⟨r, -, hrw, hrb⟩)
      · simp at h
      · rw [hrw, hout i hi hne] at hrb
        exact Bool.noConfusion hrb

/-! ## The claim on the result lines of all workers -/

theorem worker_bounds_eq (sg : Bool) (n i : Nat) (h : i < n) :
    worker_bounds sg n i =
      (to_char sg (97 + (i : Int) * bounds_step n),
        to_char sg (96 + ((i : Int) + 1) * bounds_step n)) := by
  obtain ⟨m, hm⟩ := master_reduce_phase_some sg n i h
  obtain ⟨-, -, -, hlo, hhi⟩ := master_reduce_phase_get sg n i m hm
  simp only [worker_bounds, hm, hlo, hhi]

theorem worker_bounds_wrap (sg : Bool) :
    worker_bounds sg 257 0 = (97, 97) ∧ worker_bounds sg 257 256 = (97, 97) := by
  rw [worker_bounds_eq sg 257 0 (by decide), worker_bounds_eq sg 257 256 (by decide),
    bounds_step_many 257 (by decide)]
  cases sg <;> decide

/-- Claim C19 as stated fails for a word that does not start with a lowercase
letter: from the text `#include` the map stage writes the word `#include`
with count 1 to the intermediate file, and with one worker, whose bounds are
`a` to `z`, the reduce stage reads the record and inserts nothing, so that no
line is written for the word, for signed and for unsigned `char`.  It also
fails for 257 workers: the bounds wrap around, worker 1 and worker 257 both
get `a` to `a`, and both write a line for the word `ant`. -/
theorem reduce_stage_drops_word :
    worker_parse_file Allocator.reliable "in/A" (some "#include".data) true =
        some "in/A\n#include:1\n\n" ∧
      directory_records [some "in/A\n#include:1\n\n".data] =
        some [⟨"in/A", "#include", 1⟩] ∧
      worker_bounds true 1 0 = (97, 122) ∧ worker_bounds false 1 0 = (97, 122) ∧
      reduce_stage Allocator.reliable true 1 [some "in/A\n#include:1\n\n".data] 0 = some [] ∧
      reduce_stage Allocator.reliable false 1 [some "in/A\n#include:1\n\n".data] 0 = some [] ∧
      worker_store_result_phase true [] = "" ∧
      worker_parse_file Allocator.reliable "in/A" (some "ant".data) true =
        some "in/A\nant:1\n\n" ∧
      reduce_stage Allocator.reliable true 257 [some "in/A\nant:1\n\n".data] 0 =
        some [⟨some "ant", [some "in/A"], [1]⟩] ∧
      reduce_stage Allocator.reliable true 257 [some "in/A\nant:1\n\n".data] 256 =
        some [⟨some "ant", [some "in/A"], [1]⟩] ∧
      reduce_stage Allocator.reliable false 257 [some "in/A\nant:1\n\n".data] 0 =
        some [⟨some "ant", [some "in/A"], [1]⟩] ∧
      reduce_stage Allocator.reliable false 257 [some "in/A\nant:1\n\n".data] 256 =
        some [⟨some "ant", [some "in/A"], [1]⟩] := by
  refine ⟨by decide, by decide, by decide, by decide, by decide, by decide, by decide, by decide,
    ?_, ?_, ?_, ?_⟩
  · unfold reduce_stage
    rw [(worker_bounds_wrap true).1]
    decide
  · unfold reduce_stage
    rw [(worker_bounds_wrap true).2]
    decide
  · unfold reduce_stage
    rw [(worker_bounds_wrap false).1]
    decide
  · unfold reduce_stage
    rw [(worker_bounds_wrap false).2]
    decide

/-- Claim C19, amended: for `1 ≤ N ≤ 256` workers, no allocation failure and
every content of the intermediate files that is read without overrun (the
records read are `records`), each worker reading the files in an order of its
own, every word that starts with a lowercase letter and is read from some
intermediate file is the key of exactly one entry, hence of one result line,
of exactly one worker, and of no entry of any other worker. -/
theorem reduce_stage_one_line (al : Allocator) (hal : ∀ n, al.ok n = true) (sg : Bool) (n : Nat)
    (h1 : 1 ≤ n) (h256 : n ≤ 256) (files : List (Option (List Char)))
    (records : List Record) (hrec : directory_records files = some records)
    (listing : Nat → List (Option (List Char))) (hperm : ∀ i < n, (listing i).Perm files)
    (word : String) (hl : starts_with_letter word) (hr : ∃ r ∈ records, r.word = word) :
    ∃ i0 : Nat, i0 < n ∧
      (∃ dic, reduce_stage al sg n (listing i0) i0 = some dic ∧
        (dic.filter (fun p => p.key = some word)).length = 1) ∧
      ∀ i : Nat, i < n → i ≠ i0 →
        ∃ dic, reduce_stage al sg n (listing i) i = some dic ∧
          some word ∉ dic.map Pair.key := by
  obtain ⟨r, hrm, hrw⟩ := hr
  obtain ⟨i0, hi0, hone, -, hrest⟩ := reduce_stage_keys al hal sg n h1 h256 listing word hl
    (fun i hi => by
      obtain ⟨recs, h2, h3⟩ := directory_records_perm files (listing i) (hperm i hi).symm
        records hrec
      exact ⟨recs, h2, r, (h3 r).2 hrm, hrw⟩)
  exact ⟨i0, hi0, hone, fun i hi hne => (hrest i hi hne).2⟩

set_option maxRecDepth 100000 in
theorem reduce_stage_one_line_witness :
    directory_records [some "in/A\ncat:2\nzoo:1\n\n".data] =
        some [⟨"in/A", "cat", 2⟩, ⟨"in/A", "zoo", 1⟩] ∧
      starts_with_letter "zoo" ∧
      ∃ i0 : Nat, i0 < 2 ∧
        (∃ dic, reduce_stage Allocator.reliable true 2 [some "in/A\ncat:2\nzoo:1\n\n".data] i0 =
            some dic ∧ (dic.filter (fun p => p.key = some "zoo")).length = 1) ∧
        ∀ i : Nat, i < 2 → i ≠ i0 →
          ∃ dic, reduce_stage Allocator.reliable true 2 [some "in/A\ncat:2\nzoo:1\n\n".data] i =
            some dic ∧ some "zoo" ∉ dic.map Pair.key :=
  ⟨by decide, by decide,
    reduce_stage_one_line Allocator.reliable (fun _ => rfl) true 2 (by decide) (by decide)
      [some "in/A\ncat:2\nzoo:1\n\n".data] [⟨"in/A", "cat", 2⟩, ⟨"in/A", "zoo", 1⟩]
      (by decide) (fun _ => [some "in/A\ncat:2\nzoo:1\n\n".data])
      (fun _ _ => List.Perm.refl _) "zoo" (by decide) ⟨⟨"in/A", "zoo", 1⟩, by decide, rfl⟩⟩

/-! ## The counts of the reduce stage -/

theorem file_into_pair_count_of (p : Pair) (file_name value : String) (count : Int)
    (hl : p.counts.length = p.values.length) :
    (file_into_pair p file_name count).count_of value =
      if value = file_name then some ((p.count_of file_name).getD count)
      else p.count_of value := by
  by_cases hb : value_found file_name p.values = true
  · have e : file_into_pair p file_name count = p := by simp [file_into_pair, hb]
    rw [e]
    by_cases hv : value = file_name
    · subst hv
      obtain ⟨c0, hc0⟩ := lookup_present value p.values p.counts hl ((value_found_iff _ _).1 hb)
      rw [if_pos rfl, count_of_def, hc0]
      rfl
    · rw [if_neg hv]
  · have hv : some file_name ∉ p.values := fun e => hb ((value_found_iff _ _).2 e)
    by_cases hv2 : value = file_name
    · subst hv2
      rw [if_pos rfl, file_into_pair_count p value count hl hv, count_of_def,
        lookup_absent value p.values p.counts hv]
      rfl
    · rw [if_neg hv2]
      have hz : (p.values ++ [some file_name]).zip (p.counts ++ [count]) =
          p.values.zip p.counts ++ [(some file_name, count)] := by
        rw [List.zip_append hl.symm]; rfl
      have hne : ¬ file_name = value := fun e => hv2 e.symm
      unfold file_into_pair
      simp only [hb, count_of_def, Bool.false_eq_true, if_false]
      rw [hz, List.find?_append]
      cases hf : (p.values.zip p.counts).find? (fun vc => vc.1 == some value) with
      | some x => rfl
      | none => simp [List.find?_cons, hne]

theorem stored_count_insert_file (al : Allocator) (hal : ∀ n, al.ok n = true) (dic : Dictionary)
    (word file_name key value : String) (count : Int) (hu : unique_keys dic)
    (hl : ∀ p ∈ dic, p.counts.length = p.values.length) :
    stored_count (insert_file_into_dictionary al dic word file_name count).2 key value =
      if key = word ∧ value = file_name then
        some ((stored_count dic word file_name).getD count)
      else stored_count dic key value := by
  rcases insert_file_shape al hal dic word file_name count hu with
    ⟨ha, he⟩ | ⟨l1, p, l2, hd, hp, h1, -, he⟩
  · rw [he, stored_count_snoc dic _ word key value rfl ha]
    by_cases hk : key = word
    · subst hk
      by_cases hv : value = file_name
      · subst hv
        simp [stored_count_absent dic key value ha, count_of_def, List.find?_cons]
      · have h2 : ¬ file_name = value := fun e => hv e.symm
        simp [stored_count_absent dic key value ha, count_of_def, List.find?_cons, hv, h2]
    · simp [hk]
  · rw [he]
    subst hd
    have hlp : p.counts.length = p.values.length := hl p (by simp)
    by_cases hk : key = word
    · subst hk
      rw [stored_count_at_split l1 l2 _ key value ((file_into_pair_key p file_name count).trans hp)
          h1,
        stored_count_at_split l1 l2 p key value hp h1,
        stored_count_at_split l1 l2 p key file_name hp h1,
        file_into_pair_count_of p file_name value count hlp]
      by_cases hv : value = file_name <;> simp [hv]
    · rw [stored_count_other_key l1 l2 p _ word key value hp
        ((file_into_pair_key p file_name count).trans hp) hk]
      simp [hk]

theorem lengths_insert_file (al : Allocator) (hal : ∀ n, al.ok n = true) (dic : Dictionary)
    (word file_name : String) (count : Int) (hu : unique_keys dic)
    (hl : ∀ p ∈ dic, p.counts.length = p.values.length) :
    ∀ p ∈ (insert_file_into_dictionary al dic word file_name count).2,
      p.counts.length = p.values.length := by
  rcases insert_file_shape al hal dic word file_name count hu with
    ⟨-, he⟩ | ⟨l1, p, l2, hd, -, -, -, he⟩
  · rw [he]
    intro q hq
    rcases List.mem_append.1 hq with h2 | h2
    · exact hl q h2
    · simp at h2
      subst h2
      rfl
  · rw [he]
    subst hd
    refine forall_mem_replace (fun q => q.counts.length = q.values.length) l1 l2 p _ hl ?_
    have hlp : p.counts.length = p.values.length := hl p (by simp)
    unfold file_into_pair
    by_cases hb : value_found file_name p.values = true
    · simpa [hb] using hlp
    · simp [hb, hlp]

theorem reduce_fold_count (al : Allocator) (hal : ∀ n, al.ok n = true) (sg : Bool)
    (bounds : Int × Int) (recs : List Record) (dic : Dictionary) (hu : unique_keys dic)
    (hl : ∀ p ∈ dic, p.counts.length = p.values.length) (key value : String) :
    stored_count (recs.foldl (reduce_record al sg bounds) dic) key value =
      match stored_count dic key value with
      | some c => some c
      | none =>
          (recs.find? (fun r =>
            decide (r.word = key ∧ r.file_name = value) && in_bounds sg bounds r.word)).map
              Record.count := by
  induction recs generalizing dic with
  | nil =>
    simp only [List.foldl_nil, List.find?_nil, Option.map_none']
    cases stored_count dic key value <;> rfl
  | cons r rest ih =>
    rw [List.foldl_cons]
    by_cases hb : in_bounds sg bounds r.word = true
    · have e : reduce_record al sg bounds dic r =
          (insert_file_into_dictionary al dic r.word r.file_name r.count).2 := by
        simp [reduce_record, hb]
      rw [e, ih _ (unique_keys_insert_file al hal dic r.word r.file_name r.count hu)
        (lengths_insert_file al hal dic r.word r.file_name r.count hu hl),
        stored_count_insert_file al hal dic r.word r.file_name key value r.count hu hl]
      by_cases hm : key = r.word ∧ value = r.file_name
      · obtain ⟨hk, hv⟩ := hm
        subst hk
        subst hv
        simp only [and_self, if_true, List.find?_cons, hb, decide_True, Bool.and_self]
        cases stored_count dic r.word r.file_name <;> rfl
      · have hm2 : ¬ (r.word = key ∧ r.file_name = value) := fun h => hm ⟨h.1.symm, h.2.symm⟩
        simp only [hm, if_false, List.find?_cons, hm2, decide_False, Bool.false_and]
    · have e : reduce_record al sg bounds dic r = dic := by
        simp [reduce_record, hb]
      have hb2 : in_bounds sg bounds r.word = false := by
        cases h : in_bounds sg bounds r.word
        · rfl
        · exact absurd h hb
      rw [e, ih _ hu hl]
      simp only [List.find?_cons, hb2, Bool.and_false]

/-! ## The intermediate files of a run -/

theorem split_runs_length (sep : Char → Bool) (l : List Char) :
    ∀ r ∈ split_runs sep l, r.length ≤ l.length := by
  induction l with
  | nil => simp [split_runs]
  | cons c cs ih =>
    intro r hr
    cases hc : sep c with
    | true =>
      rw [split_runs_sep sep c cs hc] at hr
      have := ih r hr
      simp only [List.length_cons]
      omega
    | false =>
      cases cs with
      | nil =>
        rw [split_runs_single sep c hc] at hr
        simp at hr
        subst hr
        simp
      | cons d ds =>
        cases hd : sep d with
        | true =>
          rw [split_runs_end sep c d ds hc hd] at hr
          rcases List.mem_cons.1 hr with e | e
          · subst e
            simp
          · have := ih r e
            simp only [List.length_cons] at this ⊢
            omega
        | false =>
          obtain ⟨r0, t, hr0⟩ := split_runs_head sep d ds hd
          rw [split_runs_more sep c d ds _ t hc hd hr0] at hr
          rcases List.mem_cons.1 hr with e | e
          · subst e
            have := ih (d :: r0) (by rw [hr0]; simp)
            simp only [List.length_cons] at this ⊢
            omega
          · have := ih r (by rw [hr0]; exact List.mem_cons_of_mem _ e)
            simp only [List.length_cons] at this ⊢
            omega

theorem retained_tokens_short (text : List Char)
    (hfit : ∀ chunk ∈ split_runs isspace text, chunk.length < MAX_WORD_SIZE) (w : String)
    (h : w ∈ retained_tokens text) : w.data.length < MAX_WORD_SIZE := by
  unfold retained_tokens at h
  obtain ⟨run, hr, e⟩ := List.mem_map.1 h
  obtain ⟨hr1, -⟩ := List.mem_filter.1 hr
  rw [split_runs_or, List.mem_flatMap] at hr1
  obtain ⟨chunk, hc1, hc2⟩ := hr1
  have h1 := split_runs_length is_delimiter chunk run hc2
  have h2 := hfit chunk hc1
  subst e
  show (utils_strlwr run).length < MAX_WORD_SIZE
  rw [utils_strlwr_length]
  omega

theorem retained_tokens_no_nul (text : List Char) (hnul : '\x00' ∉ text) (w : String)
    (h : w ∈ retained_tokens text) : '\x00' ∉ w.data := by
  unfold retained_tokens at h
  obtain ⟨run, hr, e⟩ := List.mem_map.1 h
  obtain ⟨hr1, -⟩ := List.mem_filter.1 hr
  obtain ⟨-, hchars⟩ := split_runs_mem _ text run hr1
  subst e
  intro hm
  obtain ⟨d, hd, e⟩ := utils_strlwr_mem run _ hm
  have hdn : d ≠ '\x00' := fun e2 => hnul (e2 ▸ (hchars d hd).1)
  exact tolower_ne_nul d hdn e.symm

theorem small_count_int (n : Nat) (h : n < 100000000) : (n : Int) ≤ INT_MAX := by
  unfold INT_MAX
  omega

theorem print_d_length (n : Nat) (h : n < 100000000) : (print_d (n : Int)).data.length ≤ 8 :=
  Nat.repr_length n 8 (by decide) h

theorem word_counts_readable (text : List Char)
    (hfit : ∀ chunk ∈ split_runs isspace text, chunk.length < MAX_WORD_SIZE)
    (hnul : '\x00' ∉ text)
    (hmany : (retained_tokens text).length < 100000000) :
    ∀ wc ∈ word_counts (retained_tokens text), readable_pair wc := by
  intro wc hwc
  unfold word_counts at hwc
  obtain ⟨w, hw, e⟩ := List.mem_map.1 hwc
  have hwt : w ∈ retained_tokens text := (mem_first_seen _ w).1 hw
  obtain ⟨h3, hch⟩ := retained_tokens_mem text w hwt
  have hshort := retained_tokens_short text hfit w hwt
  have hcount : (retained_tokens text).count w < 100000000 :=
    Nat.lt_of_le_of_lt (List.count_le_length _ _) hmany
  have hdig := print_d_length _ hcount
  subst e
  refine ⟨?_, ?_, ?_, ?_, ?_, retained_tokens_no_nul text hnul w hwt, hshort,
    small_count_int _ hcount⟩
  · intro e
    have : w.length = 0 := by
      show w.data.length = 0
      rw [e]; rfl
    unfold MIN_WORD_SIZE at h3
    omega
  · intro hm
    have := (hch _ hm).2.1
    revert this
    decide
  · intro hm
    have := (hch _ hm).1
    revert this
    decide
  · exact Int.natCast_nonneg _
  · show (w.data ++ ':' :: (print_d ((retained_tokens text).count w : Int)).data).length + 1 <
      MAX_LINE_SIZE
    rw [List.length_append, List.length_cons]
    unfold MAX_WORD_SIZE at hshort
    have : MAX_LINE_SIZE = 138 := by decide
    omega

theorem worker_parse_file_source (al : Allocator) (hal : ∀ n, al.ok n = true)
    (content : String → Option (List Char)) (path : String)
    (h : readable_source content path) :
    worker_parse_file al path (content path) true = some (source_block content path) := by
  unfold readable_source at h
  unfold source_block source_tokens
  cases hc : content path with
  | none => rfl
  | some text =>
    rw [hc] at h
    exact worker_parse_file_eq al hal path text h.2.1 h.2.2.1
      (fun w _ => small_count_int _
        (Nat.lt_of_le_of_lt (List.count_le_length _ _) h.2.2.2))

theorem worker_map_phase_eq (al : Allocator) (hal : ∀ n, al.ok n = true)
    (content : String → Option (List Char)) (tasks : List String)
    (h : ∀ p ∈ tasks, readable_source content p) :
    worker_map_phase al content tasks = some (String.join (tasks.map (source_block content))) := by
  induction tasks with
  | nil => rfl
  | cons p rest ih =>
    simp only [worker_map_phase, worker_parse_file_source al hal content p (h p (by simp)),
      ih (fun q hq => h q (List.mem_cons_of_mem _ hq)), List.map_cons, string_join_cons]

theorem source_records_readable (content : String → Option (List Char)) (path : String)
    (h : readable_source content path) :
    ∀ wc ∈ word_counts (source_tokens content path), readable_pair wc := by
  unfold readable_source at h
  unfold source_tokens
  cases hc : content path with
  | none => intro wc hwc; simp [word_counts, first_seen] at hwc
  | some text =>
    rw [hc] at h
    exact word_counts_readable text h.2.1 h.2.2.1 h.2.2.2

theorem format_block_length (path : String) (wcs : List (String × Int)) :
    wcs.length + 1 ≤ (format_block path wcs).data.length := by
  have hflat : ∀ l : List (String × Int),
      l.length ≤ (l.flatMap (fun wc => line_chars wc ++ ['\n'])).length := by
    intro l
    induction l with
    | nil => simp
    | cons x rest ih =>
      rw [List.flatMap_cons, List.length_append, List.length_append, List.length_cons]
      simp only [List.length_singleton]
      omega
  rw [format_block_data]
  have := hflat wcs
  simp only [List.length_append, List.length_cons]
  omega

theorem read_blocks_join (content : String → Option (List Char)) (tasks : List String)
    (h : ∀ p ∈ tasks, readable_source content p) (steps : Nat)
    (hs : (String.join (tasks.map (source_block content))).data.length + 1 ≤ steps) :
    read_blocks steps (String.join (tasks.map (source_block content))).data =
      some (tasks.flatMap (source_records content)) := by
  induction tasks generalizing steps with
  | nil =>
    have : (String.join (([] : List String).map (source_block content))).data = [] := rfl
    rw [this, read_blocks_nil]
    rfl
  | cons p rest ih =>
    rw [List.map_cons, string_join_cons, String.data_append] at hs ⊢
    rw [List.flatMap_cons]
    have hrest := fun q hq => h q (List.mem_cons_of_mem _ hq)
    by_cases he : source_tokens content p = []
    · have hb : source_block content p = "" := by simp [source_block, he]
      have hr : source_records content p = [] := by simp [source_records, he, word_counts, first_seen]
      rw [hb] at hs ⊢
      rw [hr, List.nil_append]
      exact ih hrest steps (by simpa using hs)
    · have hb : source_block content p =
          format_block p (word_counts (source_tokens content p)) := by
        simp [source_block, he]
      rw [hb] at hs ⊢
      have hlen := format_block_length p (word_counts (source_tokens content p))
      rw [List.length_append] at hs
      obtain ⟨k, hk⟩ : ∃ k, steps = k + 1 := ⟨steps - 1, by omega⟩
      subst hk
      rw [read_blocks_block p _ _ k (by omega) (h p (by simp)).1
        (source_records_readable content p (h p (by simp))), ih hrest k (by omega)]
      rfl

theorem read_records_join (content : String → Option (List Char)) (tasks : List String)
    (h : ∀ p ∈ tasks, readable_source content p) :
    read_records (String.join (tasks.map (source_block content))).data =
      some (tasks.flatMap (source_records content)) :=
  read_blocks_join content tasks h _ (Nat.le_refl _)

/-! ## The index of a run -/

theorem mem_work_paths (sent : List Message) (p : String) :
    p ∈ work_paths sent ↔ ∃ m ∈ sent, m.tag = TAG_WORK ∧ m.payload = p := by
  simp [work_paths, and_assoc]

theorem mem_worker_tasks (sent : List Message) (rank : Nat) (p : String) :
    p ∈ worker_tasks sent rank ↔
      ∃ m ∈ sent, m.tag = TAG_WORK ∧ m.dest = rank ∧ m.payload = p := by
  simp [worker_tasks, and_assoc]

theorem mem_map_ranks (sent : List Message) (rank : Nat) :
    rank ∈ map_ranks sent ↔ ∃ m ∈ sent, m.tag = TAG_WORK ∧ m.dest = rank := by
  simp [map_ranks, mem_first_seen, and_assoc]

theorem map_stage_eq (al : Allocator) (hal : ∀ n, al.ok n = true)
    (content : String → Option (List Char)) (sent : List Message)
    (h : ∀ p ∈ work_paths sent, readable_source content p) (ranks : List Nat) :
    map_stage al content sent ranks =
      some (ranks.map (fun rank =>
        String.join ((worker_tasks sent rank).map (source_block content)))) := by
  induction ranks with
  | nil => rfl
  | cons rank rest ih =>
    have ht : ∀ p ∈ worker_tasks sent rank, readable_source content p := by
      intro p hp
      obtain ⟨m, hm, h1, -, h3⟩ := (mem_worker_tasks sent rank p).1 hp
      exact h p ((mem_work_paths sent p).2 ⟨m, hm, h1, h3⟩)
    simp only [map_stage, worker_map_phase_eq al hal content _ ht, ih, List.map_cons]

theorem directory_records_map_stage (content : String → Option (List Char))
    (sent : List Message) (h : ∀ p ∈ work_paths sent, readable_source content p)
    (ranks : List Nat) :
    directory_records
        ((ranks.map (fun rank =>
          String.join ((worker_tasks sent rank).map (source_block content)))).map
            (fun file => some file.data)) =
      some (ranks.flatMap
        (fun rank => (worker_tasks sent rank).flatMap (source_records content))) := by
  induction ranks with
  | nil => rfl
  | cons rank rest ih =>
    have ht : ∀ p ∈ worker_tasks sent rank, readable_source content p := by
      intro p hp
      obtain ⟨m, hm, h1, -, h3⟩ := (mem_worker_tasks sent rank p).1 hp
      exact h p ((mem_work_paths sent p).2 ⟨m, hm, h1, h3⟩)
    rw [List.map_cons, List.map_cons, List.flatMap_cons]
    exact directory_records_cons_some _ _ _ _ (read_records_join content _ ht) ih

theorem mem_run_records (content : String → Option (List Char)) (sent : List Message)
    (ranks : List Nat) (hperm : ranks.Perm (map_ranks sent)) (r : Record) :
    r ∈ ranks.flatMap (fun rank => (worker_tasks sent rank).flatMap (source_records content)) ↔
      ∃ p ∈ work_paths sent, r ∈ source_records content p := by
  simp only [List.mem_flatMap]
  constructor
  · rintro ⟨rank, -, p, hp, hr⟩
    obtain ⟨m, hm, h1, -, h3⟩ := (mem_worker_tasks sent rank p).1 hp
    exact ⟨p, (mem_work_paths sent p).2 ⟨m, hm, h1, h3⟩, hr⟩
  · rintro ⟨p, hp, hr⟩
    obtain ⟨m, hm, h1, h3⟩ := (mem_work_paths sent p).1 hp
    exact ⟨m.dest, hperm.mem_iff.2 ((mem_map_ranks sent m.dest).2 ⟨m, hm, h1, rfl⟩), p,
      (mem_worker_tasks sent m.dest p).2 ⟨m, hm, h1, rfl, h3⟩, hr⟩

theorem mem_source_records (content : String → Option (List Char)) (path : String) (r : Record) :
    r ∈ source_records content path ↔
      r.file_name = path ∧ r.word ∈ source_tokens content path ∧
        r.count = ((source_tokens content path).count r.word : Int) := by
  unfold source_records word_counts
  simp only [List.map_map, List.mem_map, mem_first_seen, Function.comp]
  constructor
  · rintro ⟨w, hw, e⟩
    subst e
    exact ⟨rfl, hw, rfl⟩
  · rintro ⟨h1, h2, h3⟩
    refine ⟨r.word, h2, ?_⟩
    cases r
    simp only at h1 h3
    subst h1
    subst h3
    rfl

/-- The index a run builds: the reduce stage of every worker is defined, holds
only counts of retained tokens of source files, and the worker of a word's
first letter holds the count of every source file in which the word occurs. -/
theorem index_of_worker_counts (al : Allocator) (hal : ∀ n, al.ok n = true) (sg : Bool)
    (schedule : Nat → Nat) (entries : List File) (input_dir_path : String)
    (content : String → Option (List Char)) (n : Nat) (h1 : 1 ≤ n) (h26 : n ≤ 26)
    (order : Nat → List Nat)
    (hperm : ∀ i < n, (order i).Perm
      (map_ranks (master_map_phase schedule (some entries) input_dir_path n).state.sent))
    (hfiles : ∀ f ∈ regular_files entries,
      readable_source content (input_file_path input_dir_path f.d_name)) :
    (∀ i < n, ∃ dic, index_of_worker al sg schedule entries input_dir_path content n
        (order i) i = some dic) ∧
      (∀ i < n, ∀ dic, index_of_worker al sg schedule entries input_dir_path content n
          (order i) i = some dic →
        ∀ (word d : String) (c : Int), stored_count dic word d = some c →
          (∃ f ∈ regular_files entries, d = input_file_path input_dir_path f.d_name) ∧
            ((source_tokens content d).count word : Int) = c ∧ 1 ≤ c) ∧
      ∀ (word : String), starts_with_letter word → ∀ f ∈ regular_files entries, ∀ c : Int,
        ((source_tokens content (input_file_path input_dir_path f.d_name)).count word : Int) = c →
        1 ≤ c →
        ∃ i, i < n ∧ ∃ dic, index_of_worker al sg schedule entries input_dir_path content n
          (order i) i = some dic ∧
          stored_count dic word (input_file_path input_dir_path f.d_name) = some c := by
  have hpaths := master_map_phase_paths schedule entries input_dir_path n h1
  generalize hsent : (master_map_phase schedule (some entries) input_dir_path n).state.sent = sent
    at hperm hpaths
  have hread : ∀ p ∈ work_paths sent, readable_source content p := by
    intro p hp
    rw [hpaths] at hp
    obtain ⟨f, hf, e⟩ := List.mem_map.1 hp
    exact e ▸ hfiles f hf
  -- the dictionary of worker `i + 1`
  have hrun : ∀ i, index_of_worker al sg schedule entries input_dir_path content n
      (order i) i =
      some (((order i).flatMap (fun rank =>
        (worker_tasks sent rank).flatMap (source_records content))).foldl
          (reduce_record al sg (worker_bounds sg n i)) []) := by
    intro i
    unfold index_of_worker
    rw [hsent, map_stage_eq al hal content sent hread, Option.some_bind, reduce_stage_eq,
      directory_records_map_stage content sent hread, Option.map_some']
  have hcount : ∀ i (word d : String),
      stored_count (((order i).flatMap (fun rank =>
        (worker_tasks sent rank).flatMap (source_records content))).foldl
          (reduce_record al sg (worker_bounds sg n i)) []) word d =
        (((order i).flatMap (fun rank =>
          (worker_tasks sent rank).flatMap (source_records content))).find? (fun r =>
            decide (r.word = word ∧ r.file_name = d) &&
              in_bounds sg (worker_bounds sg n i) r.word)).map Record.count := by
    intro i word d
    rw [reduce_fold_count al hal sg _ _ [] (by simp [unique_keys]) (by simp) word d]
    rfl
  refine ⟨fun i _ => ⟨_, hrun i⟩, ?_, ?_⟩
  · intro i hi dic hdic word d c hc
    rw [hrun i] at hdic
    obtain rfl := Option.some.inj hdic
    rw [hcount i word d] at hc
    obtain ⟨r, hfind, hrc⟩ := Option.map_eq_some'.1 hc
    have hpred := List.find?_some hfind
    have hmem := List.mem_of_find?_eq_some hfind
    simp only [Bool.and_eq_true, decide_eq_true_eq] at hpred
    obtain ⟨⟨hw, hd⟩, -⟩ := hpred
    obtain ⟨p, hp, hrp⟩ := (mem_run_records content sent (order i) (hperm i hi) r).1 hmem
    obtain ⟨e1, e2, e3⟩ := (mem_source_records content p r).1 hrp
    have hpd : p = d := e1.symm.trans hd
    subst hpd
    subst hw
    rw [hpaths] at hp
    obtain ⟨f, hf, e⟩ := List.mem_map.1 hp
    refine ⟨⟨f, hf, e.symm⟩, ?_, ?_⟩
    · rw [← hrc, e3]
    · rw [← hrc, e3]
      have := List.count_pos_iff.2 e2
      exact_mod_cast this
  · intro word hl f hf c hc hc1
    have hd : input_file_path input_dir_path f.d_name ∈ work_paths sent := by
      rw [hpaths]
      exact List.mem_map.2 ⟨f, hf, rfl⟩
    generalize input_file_path input_dir_path f.d_name = d at hc hd
    have hw : word ∈ source_tokens content d := by
      apply List.count_pos_iff.1
      have : (0 : Int) < ((source_tokens content d).count word : Int) := by omega
      exact_mod_cast this
    have hr0 : ∀ i < n, (⟨d, word, c⟩ : Record) ∈ (order i).flatMap (fun rank =>
        (worker_tasks sent rank).flatMap (source_records content)) := by
      intro i hi
      exact (mem_run_records content sent (order i) (hperm i hi) _).2
        ⟨d, hd, (mem_source_records content d _).2 ⟨rfl, hw, hc.symm⟩⟩
    obtain ⟨i0, hi0, -, hin, -⟩ := reduce_stage_keys al hal sg n h1 (by omega)
      (fun i => ((order i).map (fun rank =>
          String.join ((worker_tasks sent rank).map (source_block content)))).map
            (fun file => some file.data)) word hl
      (fun i hi => ⟨_, directory_records_map_stage content sent hread (order i),
        ⟨d, word, c⟩, hr0 i hi, rfl⟩)
    refine ⟨i0, hi0, _, hrun i0, ?_⟩
    rw [hcount i0 word d]
    cases hfind : ((order i0).flatMap (fun rank =>
        (worker_tasks sent rank).flatMap (source_records content))).find? (fun r =>
          decide (r.word = word ∧ r.file_name = d) &&
            in_bounds sg (worker_bounds sg n i0) r.word) with
    | none =>
      have := List.find?_eq_none.1 hfind _ (hr0 i0 hi0)
      simp [hin] at this
    | some r =>
      have hpred := List.find?_some hfind
      have hmem := List.mem_of_find?_eq_some hfind
      simp only [Bool.and_eq_true, decide_eq_true_eq] at hpred
      obtain ⟨⟨hw2, hd2⟩, -⟩ := hpred
      obtain ⟨p, -, hrp⟩ := (mem_run_records content sent (order i0) (hperm i0 hi0) r).1 hmem
      obtain ⟨e1, -, e3⟩ := (mem_source_records content p r).1 hrp
      have hpd : p = d := e1.symm.trans hd2
      subst hpd
      rw [Option.map_some', e3, hw2, hc]

/-! ## The claim on the index -/

/-- The entry the key search selects holds the key. -/
theorem find_key_index_some (key : String) (dic : Dictionary) (i : Nat)
    (h : find_key_index key dic 0 none = some i) :
    ∃ p, dic[i]? = some p ∧ p ∈ dic ∧ p.key = some key := by
  have hex : ∃ p ∈ dic, p.key = some key := by
    by_contra hn
    push_neg at hn
    rw [(find_key_index_eq_none key dic).2 hn] at h
    exact Option.noConfusion h
  obtain ⟨l1, p, l2, hl, hp, h2⟩ := split_at_last_key key dic hex
  rw [hl, find_key_index_last key l1 l2 p 0 none hp h2, Nat.zero_add] at h
  obtain rfl := Option.some.inj h
  refine ⟨p, ?_, ?_, hp⟩
  · rw [hl]
    exact get_at_split l1 l2 p
  · rw [hl]
    simp

theorem append_value_pair (al : Allocator) (p : Pair) (value : String) (count : Int)
    (rc1 rc2 : Int) : (append_value al p value count rc1).2 = (append_value al p value count rc2).2 := by
  unfold append_value
  cases al.ok 0 <;> cases al.ok 1 <;> cases al.ok 2 <;> rfl

theorem insert_fresh_agree (al : Allocator) (dic : Dictionary) (key value : String)
    (h : ∀ p ∈ dic, p.key = some key → some value ∉ p.values) :
    (insert_file_into_dictionary al dic key value 1).2 =
      (insert_word_into_dictionary al dic key value).2 := by
  unfold insert_file_into_dictionary insert_word_into_dictionary
  cases hf : find_key_index key dic 0 none with
  | none => rfl
  | some i =>
    obtain ⟨p, hi, hp, hk⟩ := find_key_index_some key dic i hf
    have hv : some value ∉ p.values := h p hp hk
    have hb : value_found value p.values = false := by
      cases e : value_found value p.values
      · rfl
      · exact absurd ((value_found_iff _ _).1 e) hv
    simp only [hi, hb, bump_not_found value p.values p.counts hv, Bool.false_eq_true, if_false]
    rw [append_value_pair al p value 1 0 (-1)]

/-- Claim C24: for every dictionary `d`, key `k` and value `v` such that the
pair `(k, v)` is not in `d`, `insert_file_into_dictionary(d, k, v, 1)` and
`insert_word_into_dictionary(d, k, v)` leave the same dictionary (the same
entries in the same order with the same values and counts), with no allocation
failure and also when the same requests fail in both calls; so the two
dictionaries differ only when `(k, v)` is in `d`. -/
theorem insert_file_agrees_with_insert_word (al : Allocator) (dic : Dictionary)
    (key value : String) :
    ((∀ p ∈ dic, p.key = some key → some value ∉ p.values) →
        (insert_file_into_dictionary al dic key value 1).2 =
          (insert_word_into_dictionary al dic key value).2) ∧
      ((insert_file_into_dictionary al dic key value 1).2 ≠
          (insert_word_into_dictionary al dic key value).2 →
        ∃ p ∈ dic, p.key = some key ∧ some value ∈ p.values) := by
  refine ⟨insert_fresh_agree al dic key value, fun hne => ?_⟩
  by_contra hn
  push_neg at hn
  exact hne (insert_fresh_agree al dic key value hn)

theorem insert_file_agrees_with_insert_word_witness :
    (∀ p ∈ [(⟨some "w", [some "a.txt"], [3]⟩ : Pair), ⟨some "x", [some "b.txt"], [1]⟩],
        p.key = some "w" → some "b.txt" ∉ p.values) ∧
      (insert_file_into_dictionary Allocator.reliable
          [⟨some "w", [some "a.txt"], [3]⟩, ⟨some "x", [some "b.txt"], [1]⟩] "w" "b.txt" 1).2 =
        [⟨some "w", [some "a.txt", some "b.txt"], [3, 1]⟩, ⟨some "x", [some "b.txt"], [1]⟩] ∧
      (insert_file_into_dictionary Allocator.reliable
          [⟨some "w", [some "a.txt"], [3]⟩, ⟨some "x", [some "b.txt"], [1]⟩] "w" "b.txt" 1).2 =
        (insert_word_into_dictionary Allocator.reliable
          [⟨some "w", [some "a.txt"], [3]⟩, ⟨some "x", [some "b.txt"], [1]⟩] "w" "b.txt").2 :=
  ⟨by decide, by decide,
    (insert_file_agrees_with_insert_word Allocator.reliable
      [⟨some "w", [some "a.txt"], [3]⟩, ⟨some "x", [some "b.txt"], [1]⟩] "w" "b.txt").1
      (by decide)⟩

/-! ## The reduce stage as a fold -/

theorem foldl_reduce_record_filter (al : Allocator) (sg : Bool) (bounds : Int × Int)
    (recs : List Record) (dic : Dictionary) :
    recs.foldl (reduce_record al sg bounds) dic =
      (recs.filter (fun r => in_bounds sg bounds r.word)).foldl
        (fun result r => (insert_file_into_dictionary al result r.word r.file_name r.count).2)
        dic := by
  induction recs generalizing dic with
  | nil => rfl
  | cons r rest ih =>
    rw [List.foldl_cons, ih]
    by_cases hb : in_bounds sg bounds r.word = true
    · simp only [List.filter_cons, hb, if_true, List.foldl_cons, reduce_record]
    · simp only [List.filter_cons, hb, reduce_record, Bool.false_eq_true, if_false]

/-- A pair with a stored count is in the dictionary. -/
theorem present_of_stored_count (dic : Dictionary) (key value : String) (c : Int)
    (h : stored_count dic key value = some c) :
    ∃ p ∈ dic, p.key = some key ∧ some value ∈ p.values := by
  unfold stored_count at h
  cases hf : dic.find? (fun p => p.key == some key) with
  | none => rw [hf] at h; exact Option.noConfusion h
  | some p =>
    rw [hf] at h
    have h : p.count_of value = some c := h
    have hk := List.find?_some hf
    have hm := List.mem_of_find?_eq_some hf
    simp only [beq_iff_eq] at hk
    refine ⟨p, hm, hk, ?_⟩
    rw [count_of_def] at h
    obtain ⟨vc, hvc, -⟩ := Option.map_eq_some'.1 h
    have h1 := List.find?_some hvc
    have h2 := List.mem_of_find?_eq_some hvc
    simp only [beq_iff_eq] at h1
    rw [← h1]
    exact (List.of_mem_zip (a := vc.1) (b := vc.2) h2).1

/-- A record that repeats the word and the path of an earlier record within
the bounds changes nothing. -/
theorem reduce_record_repeated (al : Allocator) (hal : ∀ n, al.ok n = true) (sg : Bool)
    (bounds : Int × Int) (pre : List Record) (r : Record)
    (h : ∃ r0 ∈ pre, r0.word = r.word ∧ r0.file_name = r.file_name ∧
      in_bounds sg bounds r0.word = true) :
    reduce_record al sg bounds (pre.foldl (reduce_record al sg bounds) []) r =
      pre.foldl (reduce_record al sg bounds) [] := by
  obtain ⟨r0, hr0, hw, hf, hb⟩ := h
  have hu := (reduce_fold_keys al hal sg bounds pre [] (by simp [unique_keys])).1
  have hc := reduce_fold_count al hal sg bounds pre [] (by simp [unique_keys]) (by simp)
    r.word r.file_name
  have hs : stored_count ([] : Dictionary) r.word r.file_name = none := rfl
  rw [hs] at hc
  simp only at hc
  cases hfind : pre.find? (fun x =>
      decide (x.word = r.word ∧ x.file_name = r.file_name) && in_bounds sg bounds x.word) with
  | none =>
    have := List.find?_eq_none.1 hfind r0 hr0
    rw [hw] at hb
    simp [hw, hf, hb] at this
  | some x =>
    rw [hfind, Option.map_some'] at hc
    have hpres := present_of_stored_count _ _ _ _ hc
    have hb2 : in_bounds sg bounds r.word = true := hw ▸ hb
    simp only [reduce_record, hb2, if_true]
    rw [insert_file_existing al _ r.word r.file_name r.count hu hpres]

/-- Claim C21: for every bound pair and every content of the intermediate
files, the dictionary `worker_reduce_phase` builds is the left fold of
`insert_file_into_dictionary(result, word, file_name, count)` over the records
read, in reading order, restricted to the records whose first word character
lies within the bounds (and the run of the stage is defined exactly when the
reading of the records is, which is the case for files without NUL in which no
`MAX_WORD_SIZE` consecutive characters are free of `:` and newline); a record
outside the bounds leaves the dictionary as it is; and, with no allocation
failure, a record that repeats the word and the path of an earlier record
within the bounds leaves the dictionary as it is, so that the count stored for
a word and a path is the count of their first record within the bounds.  The
bound on the passes of the loops is never reached: a larger bound gives the
same result for every file. -/
theorem worker_reduce_phase_fold (al : Allocator) (sg : Bool) (bounds : Int × Int)
    (files : List (Option (List Char))) :
    worker_reduce_phase al sg bounds (some files) =
        (directory_records files).map (fun records =>
          (records.filter (fun r => in_bounds sg bounds r.word)).foldl
            (fun result r =>
              (insert_file_into_dictionary al result r.word r.file_name r.count).2)
            []) ∧
      ((∀ content, some content ∈ files →
          '\x00' ∉ content ∧ short_word_parts 0 content = true) →
        ∃ records, directory_records files = some records) ∧
      (∀ (result : Dictionary) (r : Record), in_bounds sg bounds r.word = false →
        reduce_record al sg bounds result r = result) ∧
      ((∀ n, al.ok n = true) →
        ∀ records : List Record, directory_records files = some records →
          (∀ (pre rest : List Record) (r : Record), records = pre ++ r :: rest →
            (∃ r0 ∈ pre, r0.word = r.word ∧ r0.file_name = r.file_name ∧
              in_bounds sg bounds r0.word = true) →
            reduce_record al sg bounds (pre.foldl (reduce_record al sg bounds) []) r =
              pre.foldl (reduce_record al sg bounds) []) ∧
          ∃ dic, worker_reduce_phase al sg bounds (some files) = some dic ∧
            ∀ word path : String,
              stored_count dic word path =
                (records.find? (fun r =>
                  decide (r.word = word ∧ r.file_name = path) &&
                    in_bounds sg bounds r.word)).map Record.count) ∧
      (∀ (content : List Char) (result : Dictionary) (k : Nat),
        reduce_blocks al sg bounds (content.length + 1 + k) content result =
          reduce_file al sg bounds content result) := by
  refine ⟨?_, ?_, ?_, fun hal records hrec => ⟨?_, ?_⟩,
    fun content result k => reduce_file_fuel al sg bounds content result k⟩
  · rw [worker_reduce_phase_eq]
    congr 1
    funext records
    exact foldl_reduce_record_filter al sg bounds records []
  · intro h
    exact directory_records_defined files
      (fun content hc => read_records_defined content (h content hc).1 (h content hc).2)
  · intro result r hb
    simp [reduce_record, hb]
  · intro pre rest r _ h
    exact reduce_record_repeated al hal sg bounds pre r h
  · refine ⟨_, by rw [worker_reduce_phase_eq, hrec]; rfl, ?_⟩
    intro word path
    exact reduce_fold_count al hal sg bounds _ [] (by simp [unique_keys]) (by simp) word path

set_option maxRecDepth 100000 in
theorem worker_reduce_phase_fold_witness :
    directory_records [some "in/A\ncat:2\nzoo:1\n\nin/A\ncat:5\n\n".data] =
        some [⟨"in/A", "cat", 2⟩, ⟨"in/A", "zoo", 1⟩, ⟨"in/A", "cat", 5⟩] ∧
      worker_reduce_phase Allocator.reliable true (97, 109)
          (some [some "in/A\ncat:2\nzoo:1\n\nin/A\ncat:5\n\n".data]) =
        some [⟨some "cat", [some "in/A"], [2]⟩] ∧
      (∃ dic, worker_reduce_phase Allocator.reliable true (97, 109)
          (some [some "in/A\ncat:2\nzoo:1\n\nin/A\ncat:5\n\n".data]) = some dic ∧
        ∀ word path : String,
          stored_count dic word path =
            (([⟨"in/A", "cat", 2⟩, ⟨"in/A", "zoo", 1⟩, ⟨"in/A", "cat", 5⟩] : List Record).find?
              (fun r => decide (r.word = word ∧ r.file_name = path) &&
                in_bounds true (97, 109) r.word)).map Record.count) ∧
      (∃ records, directory_records [some "in/A\ncat:2\nzoo:1\n\nin/A\ncat:5\n\n".data] =
        some records) ∧
      directory_records [some "in/A\ncat:99999999999\n\n".data] =
        some [⟨"in/A", "cat", 1215752191⟩] ∧
      directory_records [some "in/A\n\x00cat:2\n\n".data] = none ∧
      worker_reduce_phase Allocator.reliable true (97, 109)
          (some [some "in/A\n\x00cat:2\n\n".data]) = none :=
  ⟨by decide, by decide,
    (((worker_reduce_phase_fold Allocator.reliable true (97, 109)
      [some "in/A\ncat:2\nzoo:1\n\nin/A\ncat:5\n\n".data]).2.2.2.1 (fun _ => rfl))
      [⟨"in/A", "cat", 2⟩, ⟨"in/A", "zoo", 1⟩, ⟨"in/A", "cat", 5⟩] (by decide)).2,
    (worker_reduce_phase_fold Allocator.reliable true (97, 109)
      [some "in/A\ncat:2\nzoo:1\n\nin/A\ncat:5\n\n".data]).2.1
      (fun content hc => by
        rw [List.mem_singleton, Option.some.injEq] at hc
        subst hc
        decide),
    by decide, by decide,
    (worker_reduce_phase_fold Allocator.reliable true (97, 109)
      [some "in/A\n\x00cat:2\n\n".data]).1.trans (by decide)⟩

/-! ## Every worker is released once -/

theorem messages_to_snoc (sent : List Message) (m : Message) (w : Nat) :
    messages_to (sent ++ [m]) w = messages_to sent w ++ (if m.dest = w then [m] else []) := by
  unfold messages_to
  by_cases h : m.dest = w <;> simp [List.filter_append, h]

theorem sleeps_to_snoc (sent : List Message) (m : Message) (w : Nat) :
    sleeps_to (sent ++ [m]) w =
      sleeps_to sent w + (if m.dest = w ∧ m.tag = TAG_SLEEP then 1 else 0) := by
  unfold sleeps_to
  by_cases h : m.dest = w ∧ m.tag = TAG_SLEEP <;> simp [List.filter_append, h]

theorem notices_of_snoc (l : List (Nat × String)) (x : Nat × String) (w : Nat) :
    notices_of (l ++ [x]) w = notices_of l w + (if x.1 = w then 1 else 0) := by
  unfold notices_of
  by_cases h : x.1 = w <;> simp [List.filter_append, h]

theorem notices_of_eraseIdx (l : List (Nat × String)) (k : Nat) (x : Nat × String)
    (h : l[k]? = some x) (w : Nat) :
    notices_of l w = notices_of (l.eraseIdx k) w + (if x.1 = w then 1 else 0) := by
  induction l generalizing k with
  | nil => simp at h
  | cons y rest ih =>
    cases k with
    | zero =>
      simp only [List.getElem?_cons_zero, Option.some.injEq] at h
      subst h
      unfold notices_of
      by_cases hy : y.1 = w <;> simp [List.filter_cons, hy]
    | succ k =>
      simp only [List.getElem?_cons_succ] at h
      have := ih k h
      unfold notices_of at this ⊢
      by_cases hy : y.1 = w
      · simp only [List.eraseIdx_cons_succ, List.filter_cons, hy, decide_True, if_true,
          List.length_cons] at this ⊢
        omega
      · simp only [List.eraseIdx_cons_succ, List.filter_cons, hy, decide_False,
          Bool.false_eq_true, if_false] at this ⊢
        exact this

theorem notices_of_zero (l : List (Nat × String)) (w : Nat) (h : ∀ x ∈ l, x.1 ≠ w) :
    notices_of l w = 0 := by
  unfold notices_of
  rw [List.length_eq_zero, List.filter_eq_nil_iff]
  intro x hx
  simpa using h x hx

theorem notices_of_pos (l : List (Nat × String)) (x : Nat × String) (hx : x ∈ l) :
    1 ≤ notices_of l x.1 := by
  unfold notices_of
  apply List.length_pos_of_mem (a := x)
  rw [List.mem_filter]
  exact ⟨hx, by simp⟩

theorem mem_eraseIdx_mem {α : Type} (l : List α) (k : Nat) (x : α) (h : x ∈ l.eraseIdx k) :
    x ∈ l := by
  induction l generalizing k with
  | nil => simp at h
  | cons y rest ih =>
    cases k with
    | zero =>
      simp only [List.eraseIdx_cons_zero] at h
      exact List.mem_cons_of_mem _ h
    | succ k =>
      simp only [List.eraseIdx_cons_succ] at h
      rcases List.mem_cons.1 h with e | e
      · exact e ▸ List.mem_cons_self _ _
      · exact List.mem_cons_of_mem _ (ih k e)

/-- One pass of the reply loop: a notice is received and exactly one message,
`TAG_SLEEP` or `TAG_WORK`, goes to its sender; the branch that sends nothing is
not taken. -/
theorem map_reply_answer (path : String) (choice : Nat) (st st1 : MapState)
    (h : map_reply path choice st = some st1) :
    ∃ notice, st.in_flight[choice % st.in_flight.length]? = some notice ∧
      st1.received = st.received ++ [notice] ∧
      ((st1.sent = st.sent ++ [⟨INVALID_FILE, notice.1, TAG_SLEEP⟩] ∧
          st1.in_flight = st.in_flight.eraseIdx (choice % st.in_flight.length)) ∨
        ∃ p, st1.sent = st.sent ++ [⟨p, notice.1, TAG_WORK⟩] ∧
          st1.in_flight =
            st.in_flight.eraseIdx (choice % st.in_flight.length) ++ [(notice.1, p)]) := by
  unfold map_reply at h
  cases hq : st.in_flight[choice % st.in_flight.length]? with
  | none => simp [hq] at h
  | some notice =>
    simp only [hq] at h
    refine ⟨notice, rfl, ?_⟩
    cases hg : get_next_file_from_dir st.dir with
    | mk o l2 =>
      cases o with
      | none =>
        simp only [hg, Option.some.injEq] at h
        subst h
        exact ⟨rfl, Or.inl ⟨rfl, rfl⟩⟩
      | some f =>
        obtain ⟨h1, -⟩ := get_next_file_some _ _ f hg
        simp only [hg, h1, if_true, Option.some.injEq] at h
        subst h
        exact ⟨rfl, Or.inr ⟨_, rfl, rfl⟩⟩

theorem messages_to_none (sent : List Message) (w : Nat) (h : ∀ m ∈ sent, m.dest ≠ w) :
    messages_to sent w = [] ∧ sleeps_to sent w = 0 := by
  unfold messages_to sleeps_to
  constructor
  · rw [List.filter_eq_nil_iff]
    intro m hm
    simpa using h m hm
  · rw [List.length_eq_zero, List.filter_eq_nil_iff]
    intro m hm
    have := h m hm
    simp [this]

theorem worker_state_congr (st st1 : MapState) (w : Nat)
    (h1 : messages_to st1.sent w = messages_to st.sent w)
    (h2 : sleeps_to st1.sent w = sleeps_to st.sent w)
    (h3 : notices_of st1.in_flight w = notices_of st.in_flight w)
    (h : worker_at_work st w ∨ worker_released st w) :
    worker_at_work st1 w ∨ worker_released st1 w := by
  unfold worker_at_work worker_released at h ⊢
  rw [h1, h2, h3]
  exact h

/-- A message to the sender of a received notice, or to a worker addressed for
the first time, keeps the invariant: `w0` has no notice to come before the
message, which is `TAG_SLEEP`, or `TAG_WORK` with a notice of `w0` added. -/
theorem map_invariant_send (i j : Nat) (st st1 : MapState) (w0 : Nat) (m : Message)
    (rest : List (Nat × String)) (hij : i ≤ j) (hw1 : 1 ≤ w0) (hwj : w0 ≤ j)
    (hA : ∀ x ∈ rest, 1 ≤ x.1 ∧ x.1 ≤ i)
    (hB : ∀ m ∈ st.sent, (m.tag = TAG_WORK ∨ m.tag = TAG_SLEEP) ∧ 1 ≤ m.dest ∧ m.dest ≤ i)
    (hC : ∀ w, 1 ≤ w → w ≤ i → w ≠ w0 →
      (notices_of rest w = 1 ∧ sleeps_to st.sent w = 0 ∧
          ((messages_to st.sent w).getLast?).map Message.tag = some TAG_WORK) ∨
        (notices_of rest w = 0 ∧ sleeps_to st.sent w = 1 ∧
          (messages_to st.sent w).getLast? = some ⟨INVALID_FILE, w, TAG_SLEEP⟩))
    (hrest : notices_of rest w0 = 0) (hsl : sleeps_to st.sent w0 = 0)
    (hnew : ∀ w, i < w → w ≤ j → w ≠ w0 → False)
    (hs : st1.sent = st.sent ++ [m])
    (h : (m = ⟨INVALID_FILE, w0, TAG_SLEEP⟩ ∧ st1.in_flight = rest) ∨
      (m.dest = w0 ∧ m.tag = TAG_WORK ∧ st1.in_flight = rest ++ [(w0, m.payload)])) :
    map_invariant j st1 := by
  have hmd : m.dest = w0 := by
    rcases h with ⟨e, -⟩ | ⟨e, -, -⟩
    · rw [e]
    · exact e
  have hmt : m.tag = TAG_WORK ∨ m.tag = TAG_SLEEP := by
    rcases h with ⟨e, -⟩ | ⟨-, e, -⟩
    · rw [e]; exact Or.inr rfl
    · exact Or.inl e
  refine ⟨?_, ?_, ?_⟩
  · intro x hx
    rcases h with ⟨-, e⟩ | ⟨-, -, e⟩
    · rw [e] at hx
      have := hA x hx
      omega
    · rw [e] at hx
      rcases List.mem_append.1 hx with h1 | h1
      · have := hA x h1
        omega
      · simp only [List.mem_singleton] at h1
        subst h1
        exact ⟨hw1, hwj⟩
  · intro m2 hm2
    rw [hs] at hm2
    rcases List.mem_append.1 hm2 with h1 | h1
    · have := hB m2 h1
      exact ⟨this.1, this.2.1, by omega⟩
    · simp only [List.mem_singleton] at h1
      subst h1
      exact ⟨hmt, by omega, by omega⟩
  · intro w hw1' hwj'
    unfold worker_at_work worker_released
    rw [hs, messages_to_snoc, sleeps_to_snoc]
    by_cases hw : w = w0
    · subst hw
      rcases h with ⟨e, e2⟩ | ⟨-, e1, e2⟩
      · right
        rw [e2, e]
        simp [hrest, hsl]
      · left
        have hne : ¬ m.tag = TAG_SLEEP := by
          rw [e1]
          decide
        rw [e2, notices_of_snoc]
        have hne2 : ¬ TAG_WORK = TAG_SLEEP := by decide
        simp [hrest, hsl, hmd, hne2, e1]
    · have hwi : w ≤ i := by
        by_contra hc
        exact hnew w (by omega) hwj' hw
      have hne : ¬ m.dest = w := fun e => hw (e.symm.trans hmd)
      have hn : notices_of st1.in_flight w = notices_of rest w := by
        rcases h with ⟨-, e2⟩ | ⟨-, -, e2⟩
        · rw [e2]
        · have hne2 : ¬ w0 = w := fun e => hw e.symm
          rw [e2, notices_of_snoc]
          simp [hne2]
      rw [hn]
      simp only [hne, if_false, List.append_nil, false_and, Nat.add_zero]
      exact hC w hw1' hwi hw

theorem map_first_round_invariant (path : String) (n i : Nat) (st : MapState)
    (h : map_invariant i st) :
    map_invariant (i + n) (map_first_round path n i st) ∧
      (map_first_round path n i st).sent.length = st.sent.length + n := by
  induction n generalizing i st with
  | zero => exact ⟨h, rfl⟩
  | succ n ih =>
    obtain ⟨hA, hB, hC⟩ := h
    have hrest : notices_of st.in_flight (i + 1) = 0 :=
      notices_of_zero _ _ (fun x hx => by have := hA x hx; omega)
    have hsl : sleeps_to st.sent (i + 1) = 0 :=
      (messages_to_none st.sent (i + 1) (fun m hm => by have := hB m hm; omega)).2
    have hC2 : ∀ w, 1 ≤ w → w ≤ i → w ≠ i + 1 →
        (notices_of st.in_flight w = 1 ∧ sleeps_to st.sent w = 0 ∧
            ((messages_to st.sent w).getLast?).map Message.tag = some TAG_WORK) ∨
          (notices_of st.in_flight w = 0 ∧ sleeps_to st.sent w = 1 ∧
            (messages_to st.sent w).getLast? = some ⟨INVALID_FILE, w, TAG_SLEEP⟩) :=
      fun w h1 h2 _ => hC w h1 h2
    cases hg : get_next_file_from_dir st.dir with
    | mk o l2 =>
      cases o with
      | none =>
        simp only [map_first_round, hg]
        have hinv := map_invariant_send i (i + 1) st
          { st with dir := l2, sent := st.sent ++ [⟨INVALID_FILE, i + 1, TAG_SLEEP⟩] }
          (i + 1) ⟨INVALID_FILE, i + 1, TAG_SLEEP⟩ st.in_flight (by omega) (by omega)
          (by omega) hA hB hC2 hrest hsl (fun w h1 h2 h3 => h3 (by omega)) rfl
          (Or.inl ⟨rfl, rfl⟩)
        obtain ⟨a, b⟩ := ih (i + 1) _ hinv
        refine ⟨by rw [show i + (n + 1) = i + 1 + n by omega]; exact a, ?_⟩
        rw [b]
        simp only [List.length_append, List.length_singleton]
        omega
      | some f =>
        simp only [map_first_round, hg]
        generalize input_file_path path f.d_name = p
        have hinv := map_invariant_send i (i + 1) st
          { st with
            dir := l2
            sent := st.sent ++ [⟨p, i + 1, TAG_WORK⟩]
            in_flight := st.in_flight ++ [(i + 1, p)]
            files_count := st.files_count + 1 }
          (i + 1) ⟨p, i + 1, TAG_WORK⟩ st.in_flight (by omega)
          (by omega) (by omega) hA hB hC2 hrest hsl (fun w h1 h2 h3 => h3 (by omega)) rfl
          (Or.inr ⟨rfl, rfl, rfl⟩)
        obtain ⟨a, b⟩ := ih (i + 1) _ hinv
        refine ⟨by rw [show i + (n + 1) = i + 1 + n by omega]; exact a, ?_⟩
        rw [b]
        simp only [List.length_append, List.length_singleton]
        omega

theorem map_reply_invariant (path : String) (choice n : Nat) (st st1 : MapState)
    (h : map_invariant n st) (hr : map_reply path choice st = some st1) :
    map_invariant n st1 := by
  obtain ⟨hA, hB, hC⟩ := h
  obtain ⟨notice, hk, -, hsend⟩ := map_reply_answer path choice st st1 hr
  have hmem : notice ∈ st.in_flight := List.getElem?_mem hk
  obtain ⟨hw1, hwn⟩ := hA notice hmem
  have hpos := notices_of_pos st.in_flight notice hmem
  have herase := notices_of_eraseIdx st.in_flight _ notice hk
  have h0 := herase notice.1
  simp only [if_true] at h0
  have hstate := hC notice.1 hw1 hwn
  have hwork : notices_of st.in_flight notice.1 = 1 ∧ sleeps_to st.sent notice.1 = 0 := by
    rcases hstate with ⟨a, b, -⟩ | ⟨a, -, -⟩
    · exact ⟨a, b⟩
    · omega
  have hA2 : ∀ x ∈ st.in_flight.eraseIdx (choice % st.in_flight.length), 1 ≤ x.1 ∧ x.1 ≤ n :=
    fun x hx => hA x (mem_eraseIdx_mem _ _ x hx)
  have hC2 : ∀ w, 1 ≤ w → w ≤ n → w ≠ notice.1 →
      (notices_of (st.in_flight.eraseIdx (choice % st.in_flight.length)) w = 1 ∧
          sleeps_to st.sent w = 0 ∧
          ((messages_to st.sent w).getLast?).map Message.tag = some TAG_WORK) ∨
        (notices_of (st.in_flight.eraseIdx (choice % st.in_flight.length)) w = 0 ∧
          sleeps_to st.sent w = 1 ∧
          (messages_to st.sent w).getLast? = some ⟨INVALID_FILE, w, TAG_SLEEP⟩) := by
    intro w h1 h2 h3
    have e := herase w
    have hne : ¬ notice.1 = w := fun e => h3 e.symm
    simp only [hne, if_false, Nat.add_zero] at e
    rw [← e]
    exact hC w h1 h2
  rcases hsend with ⟨e1, e2⟩ | ⟨p, e1, e2⟩
  · exact map_invariant_send n n st st1 notice.1 _ _ (Nat.le_refl _) hw1 hwn hA2 hB hC2
      (by omega) hwork.2 (fun w h1 h2 _ => by omega) e1 (Or.inl ⟨rfl, e2⟩)
  · exact map_invariant_send n n st st1 notice.1 _ _ (Nat.le_refl _) hw1 hwn hA2 hB hC2
      (by omega) hwork.2 (fun w h1 h2 _ => by omega) e1 (Or.inr ⟨rfl, rfl, e2⟩)

/-- The replies of the loop: one message per received notice, addressed to its
sender, behind the `n` messages of the first loop. -/
theorem map_reply_loop_invariant (path : String) (schedule : Nat → Nat) (n steps : Nat)
    (st : MapState) (h : map_invariant n st)
    (hlen : st.sent.length = n + st.received.length)
    (hans : (st.sent.drop n).map Message.dest = st.received.map Prod.fst) :
    map_invariant n (map_reply_loop path schedule steps st).state ∧
      (map_reply_loop path schedule steps st).state.sent.length =
        n + (map_reply_loop path schedule steps st).state.received.length ∧
      ((map_reply_loop path schedule steps st).state.sent.drop n).map Message.dest =
        (map_reply_loop path schedule steps st).state.received.map Prod.fst := by
  induction steps generalizing st with
  | zero => exact ⟨h, hlen, hans⟩
  | succ steps ih =>
    cases hr : map_reply path (schedule st.received.length) st with
    | none =>
      simp only [map_reply_loop, hr, MapOutcome.state]
      exact ⟨h, hlen, hans⟩
    | some st1 =>
      have hinv := map_reply_invariant path _ n st st1 h hr
      obtain ⟨notice, -, hrec, hsend⟩ := map_reply_answer path _ st st1 hr
      obtain ⟨m, hm, hd⟩ : ∃ m : Message, st1.sent = st.sent ++ [m] ∧ m.dest = notice.1 := by
        rcases hsend with ⟨e, -⟩ | ⟨p, e, -⟩
        · exact ⟨_, e, rfl⟩
        · exact ⟨_, e, rfl⟩
      have hlen1 : st1.sent.length = n + st1.received.length := by
        rw [hm, hrec]
        simp only [List.length_append, List.length_singleton]
        omega
      have hans1 : (st1.sent.drop n).map Message.dest = st1.received.map Prod.fst := by
        rw [hm, hrec, List.drop_append_of_le_length (by omega), List.map_append,
          List.map_append, hans]
        simp [hd]
      simp only [map_reply_loop, hr]
      by_cases hpos : 0 < st1.files_count
      · rw [if_pos hpos]
        exact ih st1 hinv hlen1 hans1
      · rw [if_neg hpos]
        exact ⟨hinv, hlen1, hans1⟩

theorem master_map_phase_released (schedule : Nat → Nat) (entries : List File)
    (path : String) (n : Nat) (hn : 1 ≤ n) (hm : 1 ≤ (regular_files entries).length) :
    ∃ st, master_map_phase schedule (some entries) path n = MapOutcome.returned st ∧
      (∀ w, 1 ≤ w → w ≤ n →
        sleeps_to st.sent w = 1 ∧
          (messages_to st.sent w).getLast? = some ⟨INVALID_FILE, w, TAG_SLEEP⟩) ∧
      (∀ m ∈ st.sent, (m.tag = TAG_WORK ∨ m.tag = TAG_SLEEP) ∧ 1 ≤ m.dest ∧ m.dest ≤ n) ∧
      st.sent.length = n + st.received.length ∧
      (st.sent.drop n).map Message.dest = st.received.map Prod.fst := by
  obtain ⟨st, hst, -, hfl, -⟩ := master_map_phase_returns schedule entries path n hn hm
  have h0 : map_invariant 0 (⟨entries, 0, [], [], []⟩ : MapState) :=
    ⟨fun x hx => by simp at hx, fun m hm => by simp at hm, fun w h1 h2 => by omega⟩
  obtain ⟨a, b⟩ := map_first_round_invariant path n 0 _ h0
  obtain ⟨-, -, -, d⟩ := map_first_round_state path n 0 ⟨entries, 0, [], [], []⟩
  rw [Nat.zero_add] at a
  simp only [List.length_nil, Nat.zero_add] at b
  have hl := map_reply_loop_invariant path schedule n (entries.length + 1)
    (map_first_round path n 0 ⟨entries, 0, [], [], []⟩) a (by rw [b, d]; rfl)
    (by rw [d, List.drop_of_length_le (by omega)]; rfl)
  have he : map_reply_loop path schedule (entries.length + 1)
      (map_first_round path n 0 ⟨entries, 0, [], [], []⟩) = MapOutcome.returned st := hst
  rw [he] at hl
  obtain ⟨⟨-, hB, hC⟩, hlen, hans⟩ := hl
  simp only [MapOutcome.state] at hB hC hlen hans
  refine ⟨st, hst, ?_, hB, hlen, hans⟩
  intro w h1 h2
  rcases hC w h1 h2 with ⟨x, -, -⟩ | ⟨-, y, z⟩
  · unfold notices_of at x
    rw [hfl] at x
    simp at x
  · exact ⟨y, z⟩

/-- Claim C23: with at least one worker and at least one regular file, for
every arrival order of the completion notices `master_map_phase` returns, and
in its trace every worker `1 .. N` got exactly one `TAG_SLEEP` message, which
is the last message sent to it; every message is `TAG_WORK` or `TAG_SLEEP` and
goes to one of the workers; behind the `N` messages of the first loop there is
one message per received notice, addressed to the sender of that notice.  In
every pass of the reply loop that receives a notice exactly one message goes
to its sender: the branch that sends nothing is not taken. -/
theorem master_map_phase_releases_once (schedule : Nat → Nat) (entries : List File)
    (path : String) (n : Nat) (hn : 1 ≤ n) (hm : 1 ≤ (regular_files entries).length) :
    (∃ st, master_map_phase schedule (some entries) path n = MapOutcome.returned st ∧
      (∀ w, 1 ≤ w → w ≤ n →
        sleeps_to st.sent w = 1 ∧
          (messages_to st.sent w).getLast? = some ⟨INVALID_FILE, w, TAG_SLEEP⟩) ∧
      (∀ m ∈ st.sent, (m.tag = TAG_WORK ∨ m.tag = TAG_SLEEP) ∧ 1 ≤ m.dest ∧ m.dest ≤ n) ∧
      st.sent.length = n + st.received.length ∧
      (st.sent.drop n).map Message.dest = st.received.map Prod.fst) ∧
    ∀ (choice : Nat) (st0 st1 : MapState), map_reply path choice st0 = some st1 →
      ∃ (notice : Nat × String) (m : Message),
        st0.in_flight[choice % st0.in_flight.length]? = some notice ∧
        st1.received = st0.received ++ [notice] ∧ st1.sent = st0.sent ++ [m] ∧
        m.dest = notice.1 ∧ (m.tag = TAG_WORK ∨ m.tag = TAG_SLEEP) := by
  refine ⟨master_map_phase_released schedule entries path n hn hm, ?_⟩
  intro choice st0 st1 h
  obtain ⟨notice, h1, h2, h3⟩ := map_reply_answer path choice st0 st1 h
  rcases h3 with ⟨e, -⟩ | ⟨p, e, -⟩
  · exact ⟨notice, _, h1, h2, e, rfl, Or.inr rfl⟩
  · exact ⟨notice, _, h1, h2, e, rfl, Or.inl rfl⟩

set_option maxRecDepth 100000 in
theorem master_map_phase_releases_once_witness :
    1 ≤ 2 ∧ 1 ≤ (regular_files [⟨".", 4⟩, ⟨"a", 8⟩, ⟨"b", 8⟩, ⟨"c", 8⟩]).length ∧
      master_map_phase (fun t => t) (some [⟨".", 4⟩, ⟨"a", 8⟩, ⟨"b", 8⟩, ⟨"c", 8⟩]) "in" 2 =
        MapOutcome.returned
          ⟨[], 0,
            [⟨"in/a", 1, TAG_WORK⟩, ⟨"in/b", 2, TAG_WORK⟩, ⟨"in/c", 1, TAG_WORK⟩,
              ⟨INVALID_FILE, 1, TAG_SLEEP⟩, ⟨INVALID_FILE, 2, TAG_SLEEP⟩],
            [], [(1, "in/a"), (1, "in/c"), (2, "in/b")]⟩ ∧
      ∃ st, master_map_phase (fun t => t)
          (some [⟨".", 4⟩, ⟨"a", 8⟩, ⟨"b", 8⟩, ⟨"c", 8⟩]) "in" 2 = MapOutcome.returned st ∧
        (∀ w, 1 ≤ w → w ≤ 2 →
          sleeps_to st.sent w = 1 ∧
            (messages_to st.sent w).getLast? = some ⟨INVALID_FILE, w, TAG_SLEEP⟩) ∧
        (∀ m ∈ st.sent, (m.tag = TAG_WORK ∨ m.tag = TAG_SLEEP) ∧ 1 ≤ m.dest ∧ m.dest ≤ 2) ∧
        st.sent.length = 2 + st.received.length ∧
        (st.sent.drop 2).map Message.dest = st.received.map Prod.fst :=
  ⟨by decide, by decide, by decide,
    (master_map_phase_releases_once (fun t => t) [⟨".", 4⟩, ⟨"a", 8⟩, ⟨"b", 8⟩, ⟨"c", 8⟩] "in" 2
      (by decide) (by decide)).1⟩

/-! ## The range behind `z` -/

theorem tolower_byte (d : Char) (h : d.toNat < 256) : (tolower d).toNat < 256 := by
  by_cases hu : 65 ≤ d.toNat ∧ d.toNat ≤ 90
  · obtain ⟨k, hk1, hk2, -, hk⟩ := tolower_upper d hu
    rw [hk]
    interval_cases k <;> decide
  · unfold tolower
    rw [if_neg hu]
    exact h

/-- The words of one filled buffer: at least `MIN_WORD_SIZE` characters, not
longer than the chunk, and every character the `tolower` of a character of the
chunk that is no delimiter. -/
theorem buffer_words_mem (chunk : List Char) (w : String) (h : w ∈ buffer_words chunk) :
    MIN_WORD_SIZE ≤ w.data.length ∧ w.data.length ≤ chunk.length ∧
      ∀ c ∈ w.data, ∃ d ∈ chunk, c = tolower d ∧ is_delimiter d = false ∧ d ≠ '\x00' := by
  unfold buffer_words at h
  obtain ⟨run, hr, e⟩ := List.mem_map.1 h
  obtain ⟨hr1, hr2⟩ := List.mem_filter.1 hr
  have hlen : MIN_WORD_SIZE ≤ run.length := by simpa using hr2
  obtain ⟨-, hchars⟩ := split_runs_mem _ _ run hr1
  have hle := split_runs_length is_delimiter _ run hr1
  have hcs : (c_string chunk).length ≤ chunk.length :=
    (List.takeWhile_sublist (l := chunk) (fun c => c ≠ '\x00')).length_le
  subst e
  refine ⟨?_, ?_, ?_⟩
  · show MIN_WORD_SIZE ≤ (utils_strlwr run).length
    rw [utils_strlwr_length]
    exact hlen
  · show (utils_strlwr run).length ≤ chunk.length
    rw [utils_strlwr_length]
    omega
  · intro c hc
    obtain ⟨d, hd, e⟩ := utils_strlwr_mem run c hc
    have hdn : d ≠ '\x00' := by
      have := List.mem_takeWhile_imp (hchars d hd).1
      simpa using this
    exact ⟨d, (List.takeWhile_sublist (l := chunk) (fun c => c ≠ '\x00')).subset (hchars d hd).1, e,
      (hchars d hd).2, hdn⟩

/-- The words `worker_parse_file` inserts for a text. -/
theorem parse_words_mem (text : List Char) (words : List String)
    (h : parse_words text = some words) (w : String) (hw : w ∈ words) :
    MIN_WORD_SIZE ≤ w.data.length ∧ w.data.length < MAX_WORD_SIZE ∧
      ∀ c ∈ w.data, isspace c = false ∧ is_delimiter c = false ∧ c ≠ '\x00' ∧
        ∃ d ∈ text, c = tolower d := by
  unfold parse_words at h
  by_cases hall : (split_runs isspace text).all (fun chunk => chunk.length < MAX_WORD_SIZE) = true
  · rw [if_pos hall] at h
    obtain rfl := Option.some.inj h
    obtain ⟨chunk, hc, hwc⟩ := List.mem_flatMap.1 hw
    obtain ⟨h1, h2, h3⟩ := buffer_words_mem chunk w hwc
    have hfit : chunk.length < MAX_WORD_SIZE := by
      have := List.all_eq_true.1 hall chunk hc
      simpa using this
    obtain ⟨-, hchunk⟩ := split_runs_mem isspace text chunk hc
    refine ⟨h1, by omega, ?_⟩
    intro c hcw
    obtain ⟨d, hd, e, hdel, hdn⟩ := h3 c hcw
    obtain ⟨p1, p2, -, -⟩ := tolower_props d (hchunk d hd).2 hdel
    exact ⟨e ▸ p1, e ▸ p2, e ▸ tolower_ne_nul d hdn, d, (hchunk d hd).1, e⟩
  · rw [if_neg hall] at h
    exact Option.noConfusion h

theorem parsed_words_mem (content : String → Option (List Char)) (path : String)
    (h : tokenizer_source content path) (w : String) (hw : w ∈ parsed_words content path) :
    MIN_WORD_SIZE ≤ w.data.length ∧ w.data.length < MAX_WORD_SIZE ∧
      ∀ c ∈ w.data, isspace c = false ∧ is_delimiter c = false ∧ c.toNat < 256 ∧
        c ≠ '\x00' := by
  unfold tokenizer_source at h
  unfold parsed_words at hw
  cases hc : content path with
  | none => rw [hc] at hw; simp at hw
  | some text =>
    rw [hc] at h hw
    simp only at h hw
    obtain ⟨-, hfit, hbytes, -⟩ := h
    rw [parse_words_fit text hfit] at hw
    obtain ⟨h1, h2, h3⟩ := parse_words_mem text _ (parse_words_fit text hfit) w hw
    refine ⟨h1, h2, fun c hcw => ?_⟩
    obtain ⟨p1, p2, p3, d, hd, e⟩ := h3 c hcw
    exact ⟨p1, p2, e ▸ tolower_byte d (hbytes d hd), p3⟩

theorem parsed_words_readable (content : String → Option (List Char)) (path : String)
    (h : tokenizer_source content path) :
    ∀ wc ∈ word_counts (parsed_words content path), readable_pair wc := by
  intro wc hwc
  unfold word_counts at hwc
  obtain ⟨w, hw, e⟩ := List.mem_map.1 hwc
  have hwt : w ∈ parsed_words content path := (mem_first_seen _ w).1 hw
  obtain ⟨h3, hshort, hch⟩ := parsed_words_mem content path h w hwt
  have hmany : (parsed_words content path).length < 100000000 := by
    unfold tokenizer_source at h
    unfold parsed_words
    cases hc : content path with
    | none => simp
    | some text =>
      rw [hc] at h
      exact h.2.2.2
  have hcount : (parsed_words content path).count w < 100000000 :=
    Nat.lt_of_le_of_lt (List.count_le_length _ _) hmany
  have hdig := print_d_length _ hcount
  subst e
  refine ⟨?_, ?_, ?_, ?_, ?_, fun hm => (hch _ hm).2.2.2 rfl, hshort, small_count_int _ hcount⟩
  · intro e
    rw [e] at h3
    unfold MIN_WORD_SIZE at h3
    simp at h3
  · intro hm
    have := (hch _ hm).2.1
    revert this
    decide
  · intro hm
    have := (hch _ hm).1
    revert this
    decide
  · exact Int.natCast_nonneg _
  · show (w.data ++ ':' :: (print_d ((parsed_words content path).count w : Int)).data).length + 1 <
      MAX_LINE_SIZE
    rw [List.length_append, List.length_cons]
    unfold MAX_WORD_SIZE at hshort
    have : MAX_LINE_SIZE = 138 := by decide
    omega

theorem worker_parse_file_parsed (al : Allocator) (hal : ∀ n, al.ok n = true)
    (content : String → Option (List Char)) (path : String)
    (h : tokenizer_source content path) :
    worker_parse_file al path (content path) true =
      some (words_block path (parsed_words content path)) := by
  unfold tokenizer_source at h
  unfold words_block parsed_words
  cases hc : content path with
  | none => rfl
  | some text =>
    rw [hc] at h
    simp only at h ⊢
    rw [parse_words_fit text h.2.1]
    refine worker_parse_file_words al hal path text _ (parse_words_fit text h.2.1) ?_
    intro w _
    have hlen := h.2.2.2
    rw [parse_words_fit text h.2.1] at hlen
    exact small_count_int _ (Nat.lt_of_le_of_lt (List.count_le_length _ _) hlen)

theorem worker_map_phase_parsed (al : Allocator) (hal : ∀ n, al.ok n = true)
    (content : String → Option (List Char)) (tasks : List String)
    (h : ∀ p ∈ tasks, tokenizer_source content p) :
    worker_map_phase al content tasks =
      some (String.join (tasks.map (fun p => words_block p (parsed_words content p)))) := by
  induction tasks with
  | nil => rfl
  | cons p rest ih =>
    simp only [worker_map_phase, worker_parse_file_parsed al hal content p (h p (by simp)),
      ih (fun q hq => h q (List.mem_cons_of_mem _ hq)), List.map_cons, string_join_cons]

theorem read_blocks_parsed (content : String → Option (List Char)) (tasks : List String)
    (h : ∀ p ∈ tasks, tokenizer_source content p) (steps : Nat)
    (hs : (String.join (tasks.map
      (fun p => words_block p (parsed_words content p)))).data.length + 1 ≤ steps) :
    read_blocks steps
        (String.join (tasks.map (fun p => words_block p (parsed_words content p)))).data =
      some (tasks.flatMap (fun p => words_records p (parsed_words content p))) := by
  induction tasks generalizing steps with
  | nil =>
    have : (String.join (([] : List String).map
        (fun p => words_block p (parsed_words content p)))).data = [] := rfl
    rw [this, read_blocks_nil]
    rfl
  | cons p rest ih =>
    rw [List.map_cons, string_join_cons, String.data_append] at hs ⊢
    rw [List.flatMap_cons]
    have hrest := fun q hq => h q (List.mem_cons_of_mem _ hq)
    by_cases he : parsed_words content p = []
    · have hb : words_block p (parsed_words content p) = "" := by simp [words_block, he]
      have hr : words_records p (parsed_words content p) = [] := by
        simp [words_records, he, word_counts, first_seen]
      simp only [hb] at hs ⊢
      rw [hr, List.nil_append]
      exact ih hrest steps (by simpa using hs)
    · have hb : words_block p (parsed_words content p) =
          format_block p (word_counts (parsed_words content p)) := by
        simp [words_block, he]
      simp only [hb] at hs ⊢
      have hlen := format_block_length p (word_counts (parsed_words content p))
      rw [List.length_append] at hs
      obtain ⟨k, hk⟩ : ∃ k, steps = k + 1 := ⟨steps - 1, by omega⟩
      subst hk
      rw [read_blocks_block p _ _ k (by omega) (h p (by simp)).1
        (parsed_words_readable content p (h p (by simp))), ih hrest k (by omega)]
      rfl

/-- A byte that is no delimiter is none of the four characters between `z` and
DEL, whatever the signedness of `char`. -/
theorem char_value_trailing (sg : Bool) (c : Char) (hb : c.toNat < 256)
    (hd : is_delimiter c = false) :
    char_value sg c ≤ 122 ∨ 127 ≤ char_value sg c := by
  have hc : c = Char.ofNat c.toNat := (Char.ofNat_toNat c).symm
  have hk : c.toNat ≤ 122 ∨ 127 ≤ c.toNat := by
    by_contra hn
    have h1 : 123 ≤ c.toNat ∧ c.toNat ≤ 126 := by omega
    obtain ⟨k1, k2⟩ := h1
    generalize c.toNat = k at hc k1 k2
    subst hc
    interval_cases k <;> (revert hd; decide)
  have hz : (0 : Int) ≤ (c.toNat : Int) := Int.natCast_nonneg _
  have hb2 : (c.toNat : Int) < 256 := by exact_mod_cast hb
  have hk2 : (c.toNat : Int) ≤ 122 ∨ 127 ≤ (c.toNat : Int) := by
    rcases hk with h | h
    · exact Or.inl (by exact_mod_cast h)
    · exact Or.inr (by exact_mod_cast h)
  unfold char_value to_char
  cases sg
  · simp only [Bool.false_eq_true, if_false]
    omega
  · simp only [if_true]
    omega

theorem in_bounds_trailing (sg : Bool) (lo hi : Int) (hhi : hi ≤ 126) (w : String)
    (hw : w.data ≠ []) (h : ∀ c ∈ w.data, is_delimiter c = false ∧ c.toNat < 256) :
    in_bounds sg (lo, hi) w = in_bounds sg (lo, min hi 122) w ∧
      (122 < lo → in_bounds sg (lo, hi) w = false) := by
  cases hd : w.data with
  | nil => exact absurd hd hw
  | cons c rest =>
    obtain ⟨h1, h2⟩ := h c (by rw [hd]; simp)
    have hv := char_value_trailing sg c h2 h1
    unfold in_bounds
    simp only [hd, first_char]
    generalize char_value sg c = v at hv
    have e : decide (v ≤ min hi 122) = decide (v ≤ hi) := by
      rw [decide_eq_decide, le_min_iff]
      constructor
      · exact fun h => h.1
      · intro h
        exact ⟨h, by omega⟩
    refine ⟨by rw [e], fun hlo => ?_⟩
    rw [Bool.and_eq_false_iff]
    by_cases hl : lo ≤ v
    · right
      simp only [decide_eq_false_iff_not]
      omega
    · left
      simpa using hl

theorem foldl_reduce_record_congr (al : Allocator) (sg : Bool) (b1 b2 : Int × Int)
    (recs : List Record) (dic : Dictionary)
    (h : ∀ r ∈ recs, in_bounds sg b1 r.word = in_bounds sg b2 r.word) :
    recs.foldl (reduce_record al sg b1) dic = recs.foldl (reduce_record al sg b2) dic := by
  induction recs generalizing dic with
  | nil => rfl
  | cons r rest ih =>
    rw [List.foldl_cons, List.foldl_cons]
    have e : reduce_record al sg b1 dic r = reduce_record al sg b2 dic r := by
      unfold reduce_record
      rw [h r (List.mem_cons_self _ _)]
    rw [e]
    exact ih _ (fun q hq => h q (List.mem_cons_of_mem _ hq))

theorem foldl_reduce_record_outside (al : Allocator) (sg : Bool) (bounds : Int × Int)
    (recs : List Record) (dic : Dictionary)
    (h : ∀ r ∈ recs, in_bounds sg bounds r.word = false) :
    recs.foldl (reduce_record al sg bounds) dic = dic := by
  induction recs generalizing dic with
  | nil => rfl
  | cons r rest ih =>
    rw [List.foldl_cons]
    have e : reduce_record al sg bounds dic r = dic := by
      simp [reduce_record, h r (List.mem_cons_self _ _)]
    rw [e]
    exact ih _ (fun q hq => h q (List.mem_cons_of_mem _ hq))

/-- The intermediate files written by the map stage are read without overrun,
and their records carry words of the tokenizer: not empty, bytes, no
delimiter. -/
theorem map_file_records (al : Allocator) (hal : ∀ n, al.ok n = true)
    (content : String → Option (List Char)) (files : List String)
    (hfiles : ∀ file ∈ files, ∃ tasks : List String,
      (∀ p ∈ tasks, tokenizer_source content p) ∧
        worker_map_phase al content tasks = some file) :
    ∃ records, directory_records (files.map (fun file => some file.data)) = some records ∧
      ∀ r ∈ records,
        r.word.data ≠ [] ∧ ∀ c ∈ r.word.data, is_delimiter c = false ∧ c.toNat < 256 := by
  have hread : ∀ file ∈ files, ∃ tasks : List String,
      (∀ p ∈ tasks, tokenizer_source content p) ∧
        read_records file.data =
          some (tasks.flatMap (fun p => words_records p (parsed_words content p))) := by
    intro file hfile
    obtain ⟨tasks, htasks, hmap⟩ := hfiles file hfile
    rw [worker_map_phase_parsed al hal content tasks htasks] at hmap
    obtain rfl := Option.some.inj hmap
    exact ⟨tasks, htasks, read_blocks_parsed content tasks htasks _ (Nat.le_refl _)⟩
  obtain ⟨records, hrec⟩ := directory_records_defined (files.map (fun file => some file.data))
    (by
      intro c hc
      obtain ⟨file, hfile, e⟩ := List.mem_map.1 hc
      obtain ⟨tasks, -, hr⟩ := hread file hfile
      simp only [Option.some.injEq] at e
      exact ⟨_, e ▸ hr⟩)
  refine ⟨records, hrec, ?_⟩
  intro r hr
  obtain ⟨c, recs1, hc, hr1, hm⟩ := ((directory_records_mem _ records hrec).2 r).1 hr
  obtain ⟨file, hfile, e⟩ := List.mem_map.1 hc
  simp only [Option.some.injEq] at e
  subst e
  obtain ⟨tasks, htasks, hr2⟩ := hread file hfile
  rw [hr2] at hr1
  obtain rfl := Option.some.inj hr1
  obtain ⟨p, hp, hrp⟩ := List.mem_flatMap.1 hm
  unfold words_records word_counts at hrp
  simp only [List.map_map, List.mem_map, Function.comp] at hrp
  obtain ⟨w, hw, e⟩ := hrp
  subst e
  obtain ⟨h1, -, h3⟩ := parsed_words_mem content p (htasks p hp) w ((mem_first_seen _ w).1 hw)
  refine ⟨?_, fun c hc => ⟨(h3 c hc).2.1, (h3 c hc).2.2.1⟩⟩
  intro e
  simp only at e
  rw [e] at h1
  unfold MIN_WORD_SIZE at h1
  simp at h1

set_option maxRecDepth 100000 in
/-- Claim C22 as stated fails for a source file whose name holds a newline:
from the file `in/a(newline)|b` of text `cat` the map stage writes a block
whose second line is `|b`; worker 10 of 10, whose bounds are `|` to `~`, reads
it as a word line and ends the reduce stage with the entry `|b`, for signed and
for unsigned `char`. -/
theorem trailing_range_newline_in_name :
    worker_map_phase Allocator.reliable (fun _ => some "cat".data) ["in/a\n|b"] =
        some "in/a\n|b\ncat:1\n\n" ∧
      worker_bounds true 10 9 = (124, 126) ∧ worker_bounds false 10 9 = (124, 126) ∧
      reduce_stage Allocator.reliable true 10 [some "in/a\n|b\ncat:1\n\n".data] 9 =
        some [⟨some "|b", [some "in/a"], [0]⟩] ∧
      reduce_stage Allocator.reliable false 10 [some "in/a\n|b\ncat:1\n\n".data] 9 =
        some [⟨some "|b", [some "in/a"], [0]⟩] := by
  decide

/-- Claim C22, amended: the first character of every word the map stage
inserts is none of the four characters between `z` and DEL (opening brace,
bar, closing brace, tilde), which are in `WORD_DELIMITER`.  Hence, with no allocation failure and intermediate files
written by the map stage for source files of bytes whose paths (C strings) hold
no newline and have at most 255 characters, whose blank-separated chunks fit the read
buffer and which yield fewer than `10 ^ 8` words: for every bound pair with
`hi ≤ ~` the reduce stage builds the dictionary it builds for the bounds cut
at `z`, and a worker whose bounds lie behind `z` ends the reduce stage with an
empty dictionary, for signed and for unsigned `char`. -/
theorem trailing_range_contributes_nothing (al : Allocator) (hal : ∀ n, al.ok n = true)
    (sg : Bool) (content : String → Option (List Char)) (files : List String)
    (hfiles : ∀ file ∈ files, ∃ tasks : List String,
      (∀ p ∈ tasks, tokenizer_source content p) ∧
        worker_map_phase al content tasks = some file)
    (lo hi : Int) (hhi : hi ≤ ('~'.toNat : Int)) :
    (∀ (text : List Char) (words : List String), parse_words text = some words →
        ∀ w ∈ words, ∃ c rest, w.data = c :: rest ∧
          c ≠ '\x7b' ∧ c ≠ '|' ∧ c ≠ '\x7d' ∧ c ≠ '~') ∧
      worker_reduce_phase al sg (lo, hi) (some (files.map (fun file => some file.data))) =
        worker_reduce_phase al sg (lo, min hi ('z'.toNat : Int))
          (some (files.map (fun file => some file.data))) ∧
      (('z'.toNat : Int) < lo →
        worker_reduce_phase al sg (lo, hi) (some (files.map (fun file => some file.data))) =
          some []) := by
  have hz : (('z'.toNat : Nat) : Int) = 122 := by decide
  have ht : (('~'.toNat : Nat) : Int) = 126 := by decide
  rw [hz]
  rw [ht] at hhi
  obtain ⟨records, hdef, hrec⟩ := map_file_records al hal content files hfiles
  refine ⟨?_, ?_, ?_⟩
  · intro text words hp w hw
    obtain ⟨h1, -, h3⟩ := parse_words_mem text words hp w hw
    cases hd : w.data with
    | nil =>
      rw [hd] at h1
      unfold MIN_WORD_SIZE at h1
      simp at h1
    | cons c rest =>
      have hdel := (h3 c (by rw [hd]; simp)).2.1
      refine ⟨c, rest, rfl, ?_, ?_, ?_, ?_⟩ <;>
        (intro e; rw [e] at hdel; revert hdel; decide)
  · rw [worker_reduce_phase_eq, worker_reduce_phase_eq, hdef, Option.map_some',
      Option.map_some']
    exact congrArg some (foldl_reduce_record_congr al sg _ _ _ []
      (fun r hr => (in_bounds_trailing sg lo hi hhi r.word (hrec r hr).1 (hrec r hr).2).1))
  · intro hlo
    rw [worker_reduce_phase_eq, hdef, Option.map_some']
    exact congrArg some (foldl_reduce_record_outside al sg _ _ []
      (fun r hr => (in_bounds_trailing sg lo hi hhi r.word (hrec r hr).1 (hrec r hr).2).2 hlo))

set_option maxRecDepth 100000 in
theorem trailing_range_contributes_nothing_witness :
    (∀ file ∈ ["in/A\nthe:2\ncat:1\nsat:1\nmat:1\n\nin/B\nthe:1\ndog:1\nsat:1\n\n"],
        ∃ tasks : List String, (∀ p ∈ tasks, tokenizer_source example_content p) ∧
          worker_map_phase Allocator.reliable example_content tasks = some file) ∧
      (124 : Int) ≤ ('~'.toNat : Int) ∧ (('z'.toNat : Nat) : Int) < 123 ∧
      worker_reduce_phase Allocator.reliable true (118, 124)
          (some (["in/A\nthe:2\ncat:1\nsat:1\nmat:1\n\nin/B\nthe:1\ndog:1\nsat:1\n\n"].map
            (fun file => some file.data))) =
        worker_reduce_phase Allocator.reliable true (118, min 124 ('z'.toNat : Int))
          (some (["in/A\nthe:2\ncat:1\nsat:1\nmat:1\n\nin/B\nthe:1\ndog:1\nsat:1\n\n"].map
            (fun file => some file.data))) ∧
      worker_reduce_phase Allocator.reliable true (123, 124)
          (some (["in/A\nthe:2\ncat:1\nsat:1\nmat:1\n\nin/B\nthe:1\ndog:1\nsat:1\n\n"].map
            (fun file => some file.data))) = some [] :=
  have hfiles : ∀ file ∈ ["in/A\nthe:2\ncat:1\nsat:1\nmat:1\n\nin/B\nthe:1\ndog:1\nsat:1\n\n"],
      ∃ tasks : List String, (∀ p ∈ tasks, tokenizer_source example_content p) ∧
        worker_map_phase Allocator.reliable example_content tasks = some file :=
    fun file hf => (List.mem_singleton.1 hf) ▸ ⟨["in/A", "in/B"], by decide, by decide⟩
  ⟨hfiles, by decide, by decide,
    (trailing_range_contributes_nothing Allocator.reliable (fun _ => rfl) true example_content
      _ hfiles 118 124 (by decide)).2.1,
    (trailing_range_contributes_nothing Allocator.reliable (fun _ => rfl) true example_content
      _ hfiles 123 124 (by decide)).2.2 (by decide)⟩

end MapReduce
